import Mathlib

/-!
Verification development for `project_acl`.

A shallow embedding of the role-setting tool `prj_setacl`
(`project/cmd/prj_setacl/main.go`) and of the directory walker
(`dccn.nl/utility/filepath/fastwalk_linux.go`).

Conventions of the embedding:

* a Go `string` is a `List Char` (`Str`);
* a Go `map` is an association list whose list order is the order in which
  `range` visits the keys (Go leaves that order unspecified, so theorems
  quantify over every list);
* a Go channel that is drained to the end is the list of values sent on it;
* a function that can fail returns its Go result tuple with `Option` fields.
-/

namespace ProjectAcl

/-- Go strings, as lists of characters. -/
abbrev Str := List Char

/-! ## Role model (`acl.Role`, `acl.RoleMap`, `acl.RolePathMap`) -/

/-- The closed enumeration `acl.Role`. -/
inductive Role where
  | Manager
  | Contributor
  | Writer
  | Viewer
  | Traverse
  | System
  deriving DecidableEq, Repr

/-- The Go type `map[acl.Role][]string` (`acl.RoleMap`): an association list in visiting order. -/
abbrev RoleMap := List (Role × List Str)

/-- The map read `m[r]` with its `ok` flag: the first binding of `r`. -/
def RoleMap.get : RoleMap → Role → Option (List Str)
  | [], _ => none
  | (k, v) :: m, r => if k = r then some v else RoleMap.get m r

/-- The map write `m[r] = v`: an existing binding of `r` is replaced, otherwise one is added. -/
def RoleMap.set : RoleMap → Role → List Str → RoleMap
  | [], r, v => [(r, v)]
  | (k, w) :: m, r, v => if k = r then (k, v) :: m else (k, w) :: RoleMap.set m r v

/-- The keys of a map, in visiting order. -/
def RoleMap.keys (m : RoleMap) : List Role := m.map Prod.fst

/-- The Go type `os.FileMode` (a 32-bit word). -/
abbrev FileMode := Nat

/-- The constant `os.ModeDir`, bit 31. -/
def ModeDir : FileMode := 2 ^ 31

/-- The method `FileMode.IsDir`: bit 31 is set. -/
def FileMode.IsDir (m : FileMode) : Bool := m / 2 ^ 31 % 2 == 1

/-- The struct `ufp.FilePathMode`. -/
structure FilePathMode where
  Path : Str
  Mode : FileMode
  deriving DecidableEq, Repr

/-- The struct `acl.RolePathMap`. -/
structure RolePathMap where
  Path : Str
  RoleMap : RoleMap
  deriving DecidableEq, Repr

/-! ## Go standard library pieces used by the tool -/

/-- The call `strings.Split(s, ",")` for a one-character separator: the pieces of `s`
between separators; the empty string gives one empty piece. -/
def stringsSplit (sep : Char) : Str → List Str
  | [] => [[]]
  | c :: cs =>
    if c = sep then [] :: stringsSplit sep cs
    else
      match stringsSplit sep cs with
      | [] => [[c]]
      | p :: ps => (c :: p) :: ps

/-- The call `strings.Join(elems, sep)`. -/
def stringsJoin : List Str → Str → Str
  | [], _ => []
  | [a], _ => a
  | a :: b :: rest, sep => a ++ sep ++ stringsJoin (b :: rest) sep

/-- Whether `sub` starts `s`. -/
def hasPrefixStr : Str → Str → Bool
  | _, [] => true
  | [], _ :: _ => false
  | c :: s, d :: sub => c == d && hasPrefixStr s sub

/-- The call `strings.Index(s, sub)`: the byte offset of the first occurrence of `sub` in
`s`, or `-1` when it does not occur; a character counts for the bytes of its UTF-8
encoding. -/
def stringsIndex : Str → Str → Int
  | [], sub => if sub = [] then 0 else -1
  | c :: s, sub =>
    if hasPrefixStr (c :: s) sub then 0
    else
      let i := stringsIndex s sub
      if i < 0 then -1 else i + c.utf8Size

/-! ## `parseRoles` (`prj_setacl/main.go`, lines 214-243) -/

/-- The three results of `parseRoles`: the role map (`none` for a nil map), the list of
traverse users (a nil slice is the empty list) and the error (`none` for nil). -/
structure ParseResult where
  roles : Option RoleMap
  usersT : List Str
  err : Option Str
  deriving DecidableEq, Repr

/-- The inner loop `for _, u := range roles[r]` of `parseRoles`: `seen` is the set
`users` of identifiers met so far. `me` is the pointer that `user.Current()` returned at
line 220, whose error is dropped: `none` is the nil pointer of a failed lookup, and then
`me.Username` at line 231 is a nil dereference, the panic `none` of the result. Otherwise the
result is the error message, or the updated set. -/
def checkUsers (me : Option Str) : List Str → List Str → Option (Except Str (List Str))
  | [], seen => some (.ok seen)
  | u :: us, seen =>
    match me with
    | none => none
    | some username =>
      if u = username then some (.error ("managing yourself is not permitted: ".toList ++ u))
      else if u ∈ seen then some (.error ("user specified more than once: ".toList ++ u))
      else checkUsers me us (u :: seen)

/-- The outer loop `for r, spec := range roleSpec` of `parseRoles`, over the pairs of
`roleSpec` in visiting order, with the local variables `roles`, `users`, `usersT`; `none` is
the panic of the inner loop. -/
def parseRolesLoop (me : Option Str) :
    List (Role × Str) → RoleMap → List Str → List Str → Option ParseResult
  | [], roles, _, usersT => some ⟨some roles, usersT, none⟩
  | (r, spec) :: rest, roles, users, usersT =>
    if spec = [] then parseRolesLoop me rest roles users usersT
    else
      let roles1 := roles.set r (stringsSplit ',' spec)
      let usersT1 := usersT ++ stringsSplit ',' spec
      match checkUsers me (stringsSplit ',' spec) users with
      | none => none
      | some (.error e) => some ⟨none, [], some e⟩
      | some (.ok users1) => parseRolesLoop me rest roles1 users1 usersT1

/-- The function `parseRoles`. `me` is the result of `me, _ := user.Current()` (line 220):
`some username` holds `me.Username`, `none` is the nil pointer left by a failed lookup. The
result `none` is the panic of the nil dereference at line 231. -/
def parseRoles (me : Option Str) (roleSpec : List (Role × Str)) : Option ParseResult :=
  parseRolesLoop me roleSpec [] [] []

/-- The user identifiers listed in a role specification: the pieces of every non-empty
specification string, in visiting order. -/
def listedUsers : List (Role × Str) → List Str
  | [] => []
  | (_, spec) :: rest =>
    if spec = [] then listedUsers rest else stringsSplit ',' spec ++ listedUsers rest

/-- The role map `parseRoles` builds when no check fails. -/
def builtRoles : List (Role × Str) → RoleMap → RoleMap
  | [], roles => roles
  | (r, spec) :: rest, roles =>
    if spec = [] then builtRoles rest roles
    else builtRoles rest (roles.set r (stringsSplit ',' spec))


/-- The traverse role map of `main` (lines 186-187): `rolesT := make(map[acl.Role][]string)`
followed by `rolesT[acl.Traverse] = usersT`. -/
def traverseRoleMap (usersT : List Str) : RoleMap :=
  RoleMap.set [] Role.Traverse usersT

/-! ## `goSetRoles` (`prj_setacl/main.go`, lines 251-292) -/

/-- The interface `acl.Roler`: its two methods, as functions of their arguments. -/
structure Roler where
  GetRoles : FilePathMode → Except Str RoleMap
  SetRoles : FilePathMode → RoleMap → Bool → Bool → Except Str RoleMap

/-- The closure `updateACL` of `goSetRoles`: the record it sends on `chanOut`, if any.
`getRoler` is `acl.GetRoler`, which returns nil (`none`) when no backend matches the path. -/
def updateACL (getRoler : FilePathMode → Option Roler) (roles : RoleMap)
    (f : FilePathMode) : Option RolePathMap :=
  match getRoler f with
  | none => none
  | some roler =>
    match roler.SetRoles f roles false false with
    | .ok rolesNew => some ⟨f.Path, rolesNew⟩
    | .error _ => none

/-- Where one worker goroutine of `goSetRoles` stands: at the head of `for f := range chanF`,
blocked in the send `chanOut <- r` of `updateACL`, or past `wg.Done()`. -/
inductive Worker where
  | receiving
  | sending (r : RolePathMap)
  | done
  deriving DecidableEq, Repr

/-- The shared state of the worker pool: what is left on `chanF`, the workers, and the records
sent on `chanOut` so far. -/
structure Pool where
  chanF : List FilePathMode
  workers : List Worker
  chanOut : List RolePathMap
  deriving Repr

/-- One step of worker `i`: a blocked send completes; a receive takes the next entry and runs
`updateACL` on it up to its send, or finds `chanF` closed and empty and ends the worker. -/
def Pool.step (upd : FilePathMode → Option RolePathMap) (p : Pool) (i : Nat) : Pool :=
  match p.workers.get? i with
  | none => p
  | some Worker.done => p
  | some (Worker.sending r) =>
    { p with workers := p.workers.set i Worker.receiving, chanOut := p.chanOut ++ [r] }
  | some Worker.receiving =>
    match p.chanF with
    | [] => { p with workers := p.workers.set i Worker.done }
    | f :: rest =>
      match upd f with
      | none => { p with chanF := rest }
      | some r => { p with chanF := rest, workers := p.workers.set i (Worker.sending r) }

/-- The pool run under a schedule: the list of worker indices that take the successive steps. -/
def Pool.run (upd : FilePathMode → Option RolePathMap) : Pool → List Nat → Pool
  | p, [] => p
  | p, i :: sched => Pool.run upd (Pool.step upd p i) sched

/-- The rest of a run after the schedule, the workers finishing one after the other: what
`chanOut` has carried when `wg.Wait()` returns and `chanOut` is closed. -/
def drainWorkers (upd : FilePathMode → Option RolePathMap) :
    List Worker → List FilePathMode → List RolePathMap → List RolePathMap
  | [], _, out => out
  | Worker.done :: ws, chanF, out => drainWorkers upd ws chanF out
  | Worker.receiving :: ws, chanF, out => drainWorkers upd ws [] (out ++ chanF.filterMap upd)
  | Worker.sending r :: ws, chanF, out =>
    drainWorkers upd ws [] (out ++ [r] ++ chanF.filterMap upd)

/-- The function `goSetRoles`: the records carried by the returned channel until it is closed,
for the entries `chanF` and an interleaving `sched` of the `nthreads` workers. A negative
`nthreads` makes `wg.Add` panic (`none`). -/
def goSetRoles (getRoler : FilePathMode → Option Roler) (roles : RoleMap)
    (chanF : List FilePathMode) (nthreads : Int) (sched : List Nat) :
    Option (List RolePathMap) :=
  if nthreads < 0 then none
  else
    let p := Pool.run (updateACL getRoler roles)
      ⟨chanF, List.replicate nthreads.toNat Worker.receiving, []⟩ sched
    some (drainWorkers (updateACL getRoler roles) p.workers p.chanF p.chanOut)

/-! ### Bookkeeping for the proofs about the worker pool -/

/-- The record a worker holds while blocked in its send. -/
def Worker.held : Worker → Multiset RolePathMap
  | Worker.sending r => {r}
  | _ => 0

/-- Every record of a pool: sent, held by a blocked worker, or still to come from `chanF`. -/
def Pool.total (upd : FilePathMode → Option RolePathMap) (p : Pool) : Multiset RolePathMap :=
  (p.chanOut : Multiset RolePathMap) + (p.workers.map Worker.held).sum +
    ((p.chanF.filterMap upd : List RolePathMap) : Multiset RolePathMap)

/-- While entries are left on `chanF`, no worker has ended. -/
def Pool.Live (p : Pool) : Prop :=
  p.chanF ≠ [] → ∀ w ∈ p.workers, w ≠ Worker.done

/-! ## Go `path/filepath` on Unix -/

/-- One step of the component loop of `filepath.Clean`: `stack` holds the components kept so
far, last one first. Empty and `.` components are dropped; `..` removes the component
before it, is dropped at the root of a rooted path, and is kept otherwise. -/
def cleanStep (rooted : Bool) (stack : List Str) (c : Str) : List Str :=
  if c = [] ∨ c = ".".toList then stack
  else if c = "..".toList then
    match stack with
    | [] => if rooted then [] else [c]
    | top :: rest => if top = "..".toList then c :: stack else rest
  else c :: stack

/-- The function `filepath.Clean`. -/
def filepathClean (p : Str) : Str :=
  match p with
  | [] => ".".toList
  | c :: _ =>
    let comps := ((stringsSplit '/' p).foldl (cleanStep (c == '/')) []).reverse
    if c = '/' then '/' :: stringsJoin comps "/".toList
    else if comps = [] then ".".toList
    else stringsJoin comps "/".toList

/-- The function `filepath.Join`: the elements from the first non-empty one on are joined
with the separator and the result is cleaned; with no non-empty element the result is empty. -/
def filepathJoin : List Str → Str
  | [] => []
  | e :: rest =>
    if e = [] then filepathJoin rest
    else filepathClean (stringsJoin (e :: rest) "/".toList)

/-! ## `fastWalk` (`utility/filepath/fastwalk_linux.go`, lines 44-118) -/

/-- The directory-entry types of `getdents64` that `fastWalk` tells apart. -/
def DT_REG : Nat := 8

/-- The type of a directory. -/
def DT_DIR : Nat := 4

/-- The type of a symbolic link. -/
def DT_LNK : Nat := 10

/-- One parsed `syscall.Dirent`: its name and its `Type` field (`Typ`). -/
structure Dirent where
  Name : Str
  Typ : Nat
  deriving DecidableEq, Repr

/-- What `fastWalk` asks of the operating system.

* `getFilePathMode` is `GetFilePathMode` (same package, not among the sources): the path and
  mode of the file a path refers to, or `none` for an error.
* `openDir` is `os.Open` followed by the `getdents` loop: `none` when the open fails,
  otherwise the blocks of entries that the successive calls of `getdents` deliver before the
  call that ends the loop (line 73: `errno != 0 || nbuf <= 0`).
* `getdentsErrno` is the `errno` of that last call: 0 at the end of the directory, another
  value when the read failed. The loop ends in the same way on both, so the walk does not
  depend on it.
* `readlink` is `os.Readlink` with its error dropped: the empty string on failure. -/
structure OS where
  getFilePathMode : Str → Option FilePathMode
  openDir : Str → Option (List (List Dirent))
  getdentsErrno : Str → Nat
  readlink : Str → Str

/-- How a walk ended: it returned, it panicked, or the model ran out of recursion fuel. -/
inductive WalkStatus where
  | ok
  | panicked
  | outOfFuel
  deriving DecidableEq, Repr

/-- The entries a walk has sent on the channel, and how it ended. -/
structure Walk where
  out : List FilePathMode
  status : WalkStatus
  deriving DecidableEq, Repr

/-- The `switch dirent.Type` of `fastWalk` for the entry `d` of directory `root`; `walk` is
the recursive call. An empty referent makes `[]rune(referent)[0]` panic. -/
def walkDirent (walk : Str → Option FileMode → Walk) (os : OS) (root : Str) (d : Dirent) :
    Walk :=
  let vpath := filepathJoin [root, d.Name]
  if d.Typ = 0 then ⟨[⟨vpath, 0⟩], .ok⟩
  else if d.Typ = DT_REG then ⟨[⟨vpath, 0⟩], .ok⟩
  else if d.Typ = DT_DIR then walk vpath (some ModeDir)
  else if d.Typ = DT_LNK then
    match os.readlink vpath with
    | [] => ⟨[], .panicked⟩
    | c :: referent =>
      if c ≠ '/' then walk (filepathJoin [root, c :: referent]) none
      else walk (c :: referent) none
  else ⟨[], .ok⟩

/-- The loop `for len(subbuf) > 0` of `fastWalk` over the entries of one block. -/
def walkDirents (walk : Str → Option FileMode → Walk) (os : OS) (root : Str) :
    List Dirent → Walk
  | [] => ⟨[], .ok⟩
  | d :: ds =>
    if d.Name = ".".toList ∨ d.Name = "..".toList then walkDirents walk os root ds
    else
      let w := walkDirent walk os root d
      match w.status with
      | .ok =>
        let rest := walkDirents walk os root ds
        ⟨w.out ++ rest.out, rest.status⟩
      | _ => w

/-- The outer loop `for` of `fastWalk` over the blocks `getdents` returns. -/
def walkBlocks (walk : Str → Option FileMode → Walk) (os : OS) (root : Str) :
    List (List Dirent) → Walk
  | [] => ⟨[], .ok⟩
  | b :: bs =>
    let w := walkDirents walk os root b
    match w.status with
    | .ok =>
      let rest := walkBlocks walk os root bs
      ⟨w.out ++ rest.out, rest.status⟩
    | _ => w

/-- Lines 59-117 of `fastWalk`: open `root` and walk its entries; a failed open returns. -/
def walkOpen (walk : Str → Option FileMode → Walk) (os : OS) (root : Str) : Walk :=
  match os.openDir root with
  | none => ⟨[], .ok⟩
  | some blocks => walkBlocks walk os root blocks

/-- The function `fastWalk`; the first argument bounds the depth of the recursion. -/
def fastWalk (os : OS) : Nat → Str → Option FileMode → Walk
  | 0, _, _ => ⟨[], .outOfFuel⟩
  | fuel + 1, root, mode =>
    match mode with
    | none =>
      match os.getFilePathMode root with
      | none => ⟨[], .ok⟩
      | some fpm =>
        let w := walkOpen (fastWalk os fuel) os (filepathClean fpm.Path)
        ⟨fpm :: w.out, w.status⟩
    | some m =>
      let w := walkOpen (fastWalk os fuel) os root
      ⟨⟨root, m⟩ :: w.out, w.status⟩

/-! ## Directory trees, as the walker meets them -/

/-- A name a directory entry can bear: not empty, without separator, neither `.` nor `..`. -/
def validName (n : Str) : Bool :=
  n ≠ [] && !n.contains '/' && n ≠ ".".toList && n ≠ "..".toList

/-- The clean absolute path with the given components: `/` for none, `/a/b` for `a`, `b`. -/
def absPath (comps : List Str) : Str :=
  '/' :: stringsJoin comps "/".toList

/-- Whether an entry is neither `.` nor `..`. -/
def notDot (d : Dirent) : Bool :=
  d.Name ≠ ".".toList && d.Name ≠ "..".toList

mutual
/-- A file-system object as `fastWalk` meets it: a regular file, an entry of unknown type, a
special file with its entry type, a readable directory with its entries, a directory that
cannot be opened, a symbolic link with its text, the components and mode of the path
`GetFilePathMode` reports for its referent and the object found there, or a symbolic link
whose referent does not resolve. -/
inductive Tree where
  | file : Tree
  | unknown : Tree
  | special : Nat → Tree
  | dir : Forest → Tree
  | closedDir : Tree
  | link : Str → List Str → FileMode → Tree → Tree
  | brokenLink : Str → Tree
/-- The named entries of a directory, in the order `getdents` returns them. -/
inductive Forest where
  | nil : Forest
  | cons : Str → Tree → Forest → Forest
end

/-- The entry type `getdents` reports for an object. -/
def Tree.dtype : Tree → Nat
  | .file => DT_REG
  | .unknown => 0
  | .special ty => ty
  | .dir _ => DT_DIR
  | .closedDir => DT_DIR
  | .link _ _ _ _ => DT_LNK
  | .brokenLink _ => DT_LNK

/-- The directory entries of a forest. -/
def Forest.dirents : Forest → List Dirent
  | .nil => []
  | .cons n t rest => ⟨n, t.dtype⟩ :: Forest.dirents rest

/-- The entry names of a forest. -/
def Forest.names : Forest → List Str
  | .nil => []
  | .cons n _ rest => n :: Forest.names rest

/-- The path a link text stands for, seen from the directory `root` that holds the link:
lines 111-113 of `fastWalk`. -/
def linkTarget (root : Str) (referent : Str) : Str :=
  match referent with
  | [] => []
  | c :: r => if c ≠ '/' then filepathJoin [root, c :: r] else c :: r

mutual
/-- The operating system shows the object `t` as entry `n` of the directory with components
`comps`. -/
def Tree.presentsAt (os : OS) (comps : List Str) (n : Str) : Tree → Bool
  | .file => true
  | .unknown => true
  | .special _ => true
  | .dir es =>
    match os.openDir (absPath (comps ++ [n])) with
    | none => false
    | some blocks =>
      (blocks.flatten.filter notDot == Forest.dirents es) && Forest.presents os (comps ++ [n]) es
  | .closedDir => (os.openDir (absPath (comps ++ [n]))).isNone
  | .link referent target mode t =>
    (os.readlink (absPath (comps ++ [n])) == referent) && referent ≠ [] &&
      (os.getFilePathMode (linkTarget (absPath comps) referent) ==
        some ⟨absPath target, mode⟩) &&
      target.all validName && Tree.presentsOpen os target t
  | .brokenLink referent =>
    (os.readlink (absPath (comps ++ [n])) == referent) && referent ≠ [] &&
      (os.getFilePathMode (linkTarget (absPath comps) referent)).isNone
/-- The operating system shows the object `t` at the path with components `comps`, as
`os.Open` and `getdents` see it. -/
def Tree.presentsOpen (os : OS) (comps : List Str) : Tree → Bool
  | .dir es =>
    match os.openDir (absPath comps) with
    | none => false
    | some blocks =>
      (blocks.flatten.filter notDot == Forest.dirents es) && Forest.presents os comps es
  | .closedDir => (os.openDir (absPath comps)).isNone
  | .link _ _ _ _ => false
  | .brokenLink _ => false
  | .file =>
    match os.openDir (absPath comps) with
    | none => true
    | some blocks => blocks.flatten.filter notDot == []
  | .unknown =>
    match os.openDir (absPath comps) with
    | none => true
    | some blocks => blocks.flatten.filter notDot == []
  | .special _ =>
    match os.openDir (absPath comps) with
    | none => true
    | some blocks => blocks.flatten.filter notDot == []
/-- The operating system shows the entries `es` in the directory with components `comps`. -/
def Forest.presents (os : OS) (comps : List Str) : Forest → Bool
  | .nil => true
  | .cons n t rest => Tree.presentsAt os comps n t && Forest.presents os comps rest
end

mutual
/-- What the entry `n` of the directory `comps`, being the object `t`, adds to the stream. -/
def Tree.emit (comps : List Str) (n : Str) : Tree → List FilePathMode
  | .file => [⟨absPath (comps ++ [n]), 0⟩]
  | .unknown => [⟨absPath (comps ++ [n]), 0⟩]
  | .special _ => []
  | .dir es => ⟨absPath (comps ++ [n]), ModeDir⟩ :: Forest.listing (comps ++ [n]) es
  | .closedDir => [⟨absPath (comps ++ [n]), ModeDir⟩]
  | .link _ target mode t => ⟨absPath target, mode⟩ :: Tree.contents target t
  | .brokenLink _ => []
/-- What opening the object `t` at `comps` adds to the stream after the object itself. -/
def Tree.contents (comps : List Str) : Tree → List FilePathMode
  | .dir es => Forest.listing comps es
  | .file => []
  | .unknown => []
  | .special _ => []
  | .closedDir => []
  | .link _ _ _ _ => []
  | .brokenLink _ => []
/-- What the entries `es` of the directory `comps` add to the stream. -/
def Forest.listing (comps : List Str) : Forest → List FilePathMode
  | .nil => []
  | .cons n t rest => Tree.emit comps n t ++ Forest.listing comps rest
end

mutual
/-- The names are valid, a special file has a type of its own, sibling names differ. -/
def Tree.wf : Tree → Bool
  | .special ty => ty ≠ 0 && ty ≠ DT_REG && ty ≠ DT_DIR && ty ≠ DT_LNK
  | .dir es => Forest.wf es
  | .link _ _ _ t => Tree.wf t
  | .file => true
  | .unknown => true
  | .closedDir => true
  | .brokenLink _ => true
/-- Well-formedness of the entries of a directory. -/
def Forest.wf : Forest → Bool
  | .nil => true
  | .cons n t rest =>
    validName n && !(Forest.names rest).contains n && Tree.wf t && Forest.wf rest
end

mutual
/-- The depth of recursion `fastWalk` needs for an object. -/
def Tree.need : Tree → Nat
  | .dir es => Forest.need es + 1
  | .link _ _ _ t => Tree.need t
  | .file => 1
  | .unknown => 1
  | .special _ => 1
  | .closedDir => 1
  | .brokenLink _ => 1
/-- The depth of recursion the entries of a directory need. -/
def Forest.need : Forest → Nat
  | .nil => 0
  | .cons _ t rest => max (Tree.need t) (Forest.need rest)
end

mutual
/-- The object is made of regular files and readable directories only. -/
def Tree.plain : Tree → Bool
  | .file => true
  | .dir es => Forest.plain es
  | .unknown => false
  | .special _ => false
  | .closedDir => false
  | .link _ _ _ _ => false
  | .brokenLink _ => false
/-- The entries are made of regular files and readable directories only. -/
def Forest.plain : Forest → Bool
  | .nil => true
  | .cons _ t rest => Tree.plain t && Forest.plain rest
end

mutual
/-- The number of regular files of an object. -/
def Tree.files : Tree → Nat
  | .file => 1
  | .dir es => Forest.files es
  | .unknown => 0
  | .special _ => 0
  | .closedDir => 0
  | .link _ _ _ _ => 0
  | .brokenLink _ => 0
/-- The number of regular files among the entries and below them. -/
def Forest.files : Forest → Nat
  | .nil => 0
  | .cons _ t rest => Tree.files t + Forest.files rest
end

mutual
/-- The number of directories of an object, itself included. -/
def Tree.dirs : Tree → Nat
  | .dir es => Forest.dirs es + 1
  | .file => 0
  | .unknown => 0
  | .special _ => 0
  | .closedDir => 0
  | .link _ _ _ _ => 0
  | .brokenLink _ => 0
/-- The number of directories among the entries and below them. -/
def Forest.dirs : Forest → Nat
  | .nil => 0
  | .cons _ t rest => Tree.dirs t + Forest.dirs rest
end

/-! ### Bookkeeping for the proofs about the walk -/

/-- One walk followed by another: the second runs only if the first returned. -/
def Walk.seq (w r : Walk) : Walk :=
  match w.status with
  | .ok => ⟨w.out ++ r.out, r.status⟩
  | _ => w

/-! ### A small file system for the worked examples -/

/-- The entries of `/p` in `demoOS`. -/
def demoForest : Forest :=
  .cons "a".toList .file
    (.cons "d".toList (.dir (.cons "b".toList .file (.cons "c".toList .file .nil))) .nil)

/-! ## `goPrintOut` (`prj_setacl/main.go`, lines 299-346) -/

/-- The state of the goroutine of `goPrintOut`: the counter of printed paths, the paths handed
to `acl.GetPathsForSetTraverse` so far, and the entries sent on `chanFt` so far. -/
structure PrintOut where
  counter : Nat
  calls : List Str
  chanFt : List FilePathMode
  deriving DecidableEq, Repr

/-- The call `acl.GetPathsForSetTraverse(path, rolesT, &chanFt)`: `getPaths` gives the entries
the call sends on `chanFt` (the function is in package `acl`, not among the sources). -/
def PrintOut.resolve (getPaths : Str → RoleMap → List FilePathMode) (rolesT : RoleMap)
    (st : PrintOut) (path : Str) : PrintOut :=
  { st with calls := st.calls ++ [path], chanFt := st.chanFt ++ getPaths path rolesT }

/-- The body of `for o := range chanOut` (lines 305-329); printing and logging leave the state
alone. `isSame` is `acl.IsSameProjectPath` (not among the sources). -/
def goPrintOutStep (isSame : Str → Str → Bool) (getPaths : Str → RoleMap → List FilePathMode)
    (ppath : Str) (resolvePathForTraverse : Bool) (rolesT : RoleMap)
    (st : PrintOut) (o : RolePathMap) : PrintOut :=
  let st1 := { st with counter := st.counter + 1 }
  if resolvePathForTraverse && !isSame o.Path ppath then st1.resolve getPaths rolesT o.Path
  else st1

/-- The loop `for o := range chanOut` of `goPrintOut`, over the records received until
`chanOut` is closed. -/
def goPrintOutLoop (isSame : Str → Str → Bool) (getPaths : Str → RoleMap → List FilePathMode)
    (ppath : Str) (resolvePathForTraverse : Bool) (rolesT : RoleMap)
    (chanOut : List RolePathMap) : PrintOut :=
  chanOut.foldl (goPrintOutStep isSame getPaths ppath resolvePathForTraverse rolesT) ⟨0, [], []⟩

/-- The function `goPrintOut`: the state of its goroutine when it closes `chanFt`. After the
loop, lines 336-341 resolve `ppath`, and `ppathSym` when it differs. -/
def goPrintOut (isSame : Str → Str → Bool) (getPaths : Str → RoleMap → List FilePathMode)
    (ppath ppathSym : Str) (chanOut : List RolePathMap) (resolvePathForTraverse : Bool)
    (rolesT : RoleMap) : PrintOut :=
  let st := goPrintOutLoop isSame getPaths ppath resolvePathForTraverse rolesT chanOut
  if resolvePathForTraverse then
    let st1 := st.resolve getPaths rolesT ppath
    if ppath ≠ ppathSym then st1.resolve getPaths rolesT ppathSym else st1
  else st

/-! ## `main` (`prj_setacl/main.go`, lines 98-207) -/

/-- The signal number `syscall.SIGABRT` on Linux. -/
def SIGABRT : Int := 6

/-- The signal number `syscall.SIGHUP`. -/
def SIGHUP : Int := 1

/-- The signal number `syscall.SIGTERM`. -/
def SIGTERM : Int := 15

/-- The signal number `syscall.SIGINT`. -/
def SIGINT : Int := 2

/-- The variable `signalHandled` (lines 45-50). -/
def signalHandled : List Int := [SIGABRT, SIGHUP, SIGTERM, SIGINT]

/-- What the final `select` of `main` receives: a signal on `chanS`, or the close of the
channel of the last `goPrintOut`. -/
inductive SelectOutcome where
  | signal (s : Int)
  | drained
  deriving DecidableEq, Repr

/-- The steps of a run of `main` that the claims speak of, in the order in which they happen.
`goSetRoles` is the call that starts the workers of a stage, `apply` the start of one role
application (a call of `roler.SetRoles` in `updateACL`) by a worker. `panicked` is a panic of
the main goroutine, after which its deferred calls run; `crashed` is a panic of another
goroutine, on which the Go runtime ends the process with status 2 and runs no deferred call of
`main`. -/
inductive Event where
  | usage
  | fatal (msg : Str)
  | warnNothingToDo
  | lockAcquired (flock : Str)
  | signalNotify
  | goFastWalk (root : Str)
  | goSetRoles (roles : RoleMap)
  | goPrintOut (resolvePathForTraverse : Bool)
  | apply (path : Str)
  | selected (o : SelectOutcome)
  | panicked
  | crashed
  | lockRemoved (flock : Str)
  | exit (code : Int)
  deriving DecidableEq, Repr

/-- The inner loop `for _, u := range users` of the pre-check (lines 160-165): `n` is
incremented once, at the first user that `ulist` does not hold. -/
def countNewUser (ulist : Str) : List Str → Nat → Nat
  | [], n => n
  | u :: users, n =>
    if stringsIndex ulist (",".toList ++ u ++ ",".toList) < 0 then n + 1
    else countNewUser ulist users n

/-- The loop `for r, users := range roles` of the pre-check (lines 153-166), over the
requested roles in visiting order: a role that `rolesNow` lacks increments `n` and ends the
loop. -/
def countNew (rolesNow : RoleMap) : RoleMap → Nat → Nat
  | [], n => n
  | (r, users) :: rest, n =>
    match rolesNow.get r with
    | none => n + 1
    | some cur =>
      countNew rolesNow rest
        (countNewUser (",".toList ++ stringsJoin cur ",".toList ++ ",".toList) users n)

/-- The test `regexp.MatchString("^[0-9]{7,}", s)`: `s` starts with seven decimal digits. -/
def startsWithProjectNumber (s : Str) : Bool :=
  (s.take 7).length == 7 && (s.take 7).all Char.isDigit

/-- Everything a run of `main` depends on: the command line, the current user, and the
answers of the operating system, of the storage backend and of the scheduler. -/
structure MainEnv where
  args : List Str
  optsBase : Str
  optsPath : Str
  optsTraverse : Bool
  optsNthreads : Int
  optsForce : Bool
  /-- The map `roleSpec` of lines 115-119, in the order `parseRoles` visits it. -/
  roleSpec : List (Role × Str)
  /-- The result of `user.Current()` in `parseRoles`: the username, or `none` for the nil
  pointer of a failed lookup. -/
  me : Option Str
  /-- The order in which the pre-check visits a role map. -/
  rangeRoles : RoleMap → RoleMap
  abs : Str → Str
  evalSymlinks : Str → Str
  getFilePathMode : Str → Option FilePathMode
  getRoler : FilePathMode → Option Roler
  /-- The call `ufp.AcquireLock`: `none` on success, otherwise the error. -/
  acquireLock : Str → Option Str
  /-- Whether the platform has room for a channel of a size that is not negative: beyond its
  limit `make` panics with `makechan: size out of range`. -/
  chanFits : Int → Bool
  select : SelectOutcome
  /-- The paths on which the workers of the two stages start a role application before the
  final `select` returns, in the order in which they start. -/
  applied : List Str
  /-- The paths on which workers that are still running start a role application after `main`
  has removed the lock and before `os.Exit` ends the process: `runtime.Goexit` ends the main
  goroutine only, and nothing stops the workers when a signal is received. -/
  late : List Str

/-- What `main` has established when it reaches the pre-check (line 152). -/
structure Checked where
  roles : RoleMap
  usersT : List Str
  ppathSym : Str
  ppath : Str
  fpinfo : FilePathMode
  rolesNow : RoleMap
  deriving DecidableEq

/-- A value of type `int` (64 bits) after a wrapping operation. -/
def wrapInt64 (x : Int) : Int :=
  (x + 2 ^ 63) % 2 ^ 64 - 2 ^ 63

/-- Lines 106-151 of `main`: the checks before the pre-check. A failed check ends the run
in `log.Fatal`, which exits with status 1 without running deferred calls. A panic of
`parseRoles` unwinds `main`, whose deferred call (lines 102-104) is `os.Exit(exitcode)` with
`exitcode` still 0. -/
def mainChecks (env : MainEnv) : Except (List Event) Checked :=
  match env.args with
  | [] => .error [Event.usage, Event.fatal "unknown project number: []".toList, Event.exit 1]
  | arg :: _ =>
    match parseRoles env.me env.roleSpec with
    | none => .error [Event.panicked, Event.exit 0]
    | some pr =>
      match pr.err with
      | some e => .error [Event.fatal e, Event.exit 1]
      | none =>
        let ppathSym :=
          if startsWithProjectNumber arg then filepathJoin [env.optsBase, arg, env.optsPath]
          else env.abs arg
        let ppath := env.evalSymlinks ppathSym
        match env.getFilePathMode ppath with
        | none =>
          .error [Event.fatal ("path not found or unaccessible: ".toList ++ ppath),
            Event.exit 1]
        | some fpinfo =>
          match env.getRoler fpinfo with
          | none =>
            .error [Event.fatal ("roler not found for path: ".toList ++ fpinfo.Path),
              Event.exit 1]
          | some roler =>
            match roler.GetRoles fpinfo with
            | .error e =>
              .error [Event.fatal (e ++ ": ".toList ++ fpinfo.Path), Event.exit 1]
            | .ok rolesNow =>
              .ok ⟨pr.roles.getD [], pr.usersT, ppathSym, ppath, fpinfo, rolesNow⟩

/-- The exit code the final `select` sets (lines 198-206). -/
def exitCodeOf : SelectOutcome → Int
  | .signal s => s
  | .drained => 0

/-- Whether `make(chan T, size)` makes the channel: it panics for a negative size and for a
size beyond the limit of the platform. -/
def chanMade (fits : Int → Bool) (size : Int) : Bool :=
  decide (0 ≤ size) && fits size

/-- Lines 182-203 of `main`: `signal.Notify` and the calls that start the pipeline, the last
one in the `select`. -/
def mainLaunch (env : MainEnv) (c : Checked) : List Event :=
  [Event.signalNotify, Event.goFastWalk c.ppath, Event.goSetRoles c.roles,
    Event.goPrintOut env.optsTraverse, Event.goSetRoles (traverseRoleMap c.usersT),
    Event.goPrintOut false]

/-- The role applications the workers start: none without a worker. -/
def startedBy (env : MainEnv) (paths : List Str) : List Event :=
  if 0 < env.optsNthreads then paths.map Event.apply else []

/-- Lines 182-206 of `main` with the deferred calls that follow; `release` is the deferred
`os.Remove(flock)` when the lock was taken (line 179), and nothing otherwise. Memory is taken
to suffice for the channels and the workers asked for.

* `GoFastWalk` makes its channel with the buffer size `*optsNthreads*4` (an `int`, so the
  product wraps around), in the goroutine of its caller, as the `GoFastWalk` of the sources
  does (`fastwalk_linux.go`, line 133); when `make` panics on that size, the panic is in the
  main goroutine, whose deferred calls then run, last registered first, with `exitcode`
  still 0.
* With the channel made and a negative thread count, `wg.Add(nthreads)` (line 277) panics in
  the goroutine that `goSetRoles` starts: the process ends with status 2 and no deferred call
  runs.
* Otherwise the pipeline runs and `main` blocks in the `select` (lines 198-206); after it
  `runtime.Goexit` runs the deferred calls: the removal of the lock, then `os.Exit(exitcode)`.
  When the `select` saw the last channel closed every worker has ended (a stage closes its
  output only after `wg.Wait()`, lines 287-288); after a signal the workers, which loop over
  their input channel (lines 280-283) and are told nothing, run on until the process exits. -/
def mainPipeline (env : MainEnv) (c : Checked) (release : List Event) : List Event :=
  if chanMade env.chanFits (wrapInt64 (env.optsNthreads * 4)) = false then
    [Event.signalNotify, Event.panicked] ++ release ++ [Event.exit 0]
  else if env.optsNthreads < 0 then
    [Event.signalNotify, Event.goFastWalk c.ppath, Event.goSetRoles c.roles, Event.crashed,
      Event.exit 2]
  else
    mainLaunch env c ++ startedBy env env.applied ++ [Event.selected env.select] ++ release ++
      (match env.select with
        | .signal _ => startedBy env env.late
        | .drained => []) ++
      [Event.exit (exitCodeOf env.select)]

/-- The lock file of line 175: `flock := filepath.Join(ppath, ".prj_setacl.lock")`. -/
def lockPath (c : Checked) : Str :=
  filepathJoin [c.ppath, ".prj_setacl.lock".toList]

/-- Lines 152-207 of `main`: the pre-check, the lock (taken only when the root is a
directory, line 173), the pipeline and the exit. -/
def mainFrom (env : MainEnv) (c : Checked) : List Event :=
  if countNew c.rolesNow (env.rangeRoles c.roles) 0 = 0 ∧ env.optsForce = false then
    [Event.warnNothingToDo, Event.exit 0]
  else if c.fpinfo.Mode.IsDir then
    match env.acquireLock (lockPath c) with
    | some e => [Event.fatal e, Event.exit 1]
    | none =>
      Event.lockAcquired (lockPath c) :: mainPipeline env c [Event.lockRemoved (lockPath c)]
  else mainPipeline env c []

/-- The function `main`, as the list of its steps. -/
def main (env : MainEnv) : List Event :=
  match mainChecks env with
  | .error evs => evs
  | .ok c => mainFrom env c

/-- A run of `prj_setacl -c alice -u bob 3010000.01` by `root`: the root path has the given
mode and current roles, the lock is free, the workers apply the roles to the root and to its
entry `a`, and the final `select` receives `sel`. -/
def demoEnv (mode : FileMode) (rolesNow : RoleMap) (sel : SelectOutcome) : MainEnv where
  args := ["3010000.01".toList]
  optsBase := "/project".toList
  optsPath := []
  optsTraverse := true
  optsNthreads := 4
  optsForce := false
  roleSpec := [(Role.Manager, []), (Role.Writer, []), (Role.Contributor, "alice".toList),
    (Role.Viewer, "bob".toList)]
  me := some "root".toList
  rangeRoles := fun m => m
  abs := fun p => p
  evalSymlinks := fun p => p
  getFilePathMode := fun p => some ⟨p, mode⟩
  getRoler := fun _ => some ⟨fun _ => .ok rolesNow, fun _ roles _ _ => .ok roles⟩
  acquireLock := fun _ => none
  chanFits := fun size => decide (size < 2 ^ 32)
  select := sel
  applied := ["/project/3010000.01".toList, "/project/3010000.01/a".toList]
  late := []

/-- What `mainChecks` establishes on `demoEnv`. -/
def demoChecked (mode : FileMode) (rolesNow : RoleMap) : Checked :=
  ⟨[(Role.Contributor, ["alice".toList]), (Role.Viewer, ["bob".toList])],
    ["alice".toList, "bob".toList], "/project/3010000.01".toList,
    "/project/3010000.01".toList, ⟨"/project/3010000.01".toList, mode⟩, rolesNow⟩

/-! ## The stages of `main` (`prj_setacl/main.go`, lines 189-203) -/

/-- What has passed through the pipeline of `main` when the last channel is closed: the
output of stage 1, the entries `goPrintOut` hands to stage 2, the output of stage 2 and the
state of the final `goPrintOut`. -/
structure Stages where
  chanOut : List RolePathMap
  chanFt : List FilePathMode
  chanOutt : List RolePathMap
  final : PrintOut
  deriving DecidableEq, Repr

/-- Lines 189-203 of `main`: `goSetRoles(roles, chanF, n)`, then
`goPrintOut(chanOut, *optsTraverse, rolesT, 4n)`, then `goSetRoles(rolesT, chanFt, n)`, then
`goPrintOut(chanOutt, false, nil, 0)`. `chanF` holds the entries the walker sends; `sched1`
and `sched2` are the interleavings of the workers of the two stages. -/
def mainStages (isSame : Str → Str → Bool) (getPaths : Str → RoleMap → List FilePathMode)
    (getRoler : FilePathMode → Option Roler) (c : Checked) (optsTraverse : Bool)
    (optsNthreads : Int) (chanF : List FilePathMode) (sched1 sched2 : List Nat) :
    Option Stages :=
  match goSetRoles getRoler c.roles chanF optsNthreads sched1 with
  | none => none
  | some chanOut =>
    let p := goPrintOut isSame getPaths c.ppath c.ppathSym chanOut optsTraverse
      (traverseRoleMap c.usersT)
    match goSetRoles getRoler (traverseRoleMap c.usersT) p.chanFt optsNthreads sched2 with
    | none => none
    | some chanOutt =>
      some ⟨chanOut, p.chanFt, chanOutt,
        goPrintOut isSame getPaths c.ppath c.ppathSym chanOutt false []⟩

/-! ## `NetApp.volName` (`pkg/filer/netapp.go`, lines 58-63) -/

/-- The call `strings.ReplaceAll(s, old, new)` for a one-character `old`. -/
def stringsReplaceAll : Str → Char → Str → Str
  | [], _, _ => []
  | c :: cs, old, new =>
    if c = old then new ++ stringsReplaceAll cs old new
    else c :: stringsReplaceAll cs old new

/-- The method `NetApp.volName`. -/
def volName (projectID : Str) : Str :=
  stringsJoin ["project".toList, stringsReplaceAll projectID '.' "_".toList] "_".toList

/-! ## `GoFastWalk` (`utility/filepath/fastwalk_linux.go`, lines 131-141) -/

/-- The channel `GoFastWalk` returns, seen from its reader: the entries sent on it and
whether it gets closed. -/
structure WalkChannel where
  entries : List FilePathMode
  closed : Bool
  deriving DecidableEq, Repr

/-- The function `GoFastWalk`: its goroutine runs `fastWalk(root, nil, &chan_p)` and only then
registers `defer close(chan_p)`, so the channel is closed when `fastWalk` has returned. -/
def GoFastWalk (os : OS) (fuel : Nat) (root : Str) : WalkChannel :=
  let w := fastWalk os fuel root none
  ⟨w.out, w.status == .ok⟩

/-- The entry type of a named pipe. -/
def DT_FIFO : Nat := 1

/-- The directory `/q` holds the named pipe `f`, the entry `u` of unknown type, the directory
`d` (holding the file `b`), the directory `x` that cannot be opened, the link `l` with text
`d` and the file `z`. -/
def demoOS2 : OS where
  getFilePathMode p :=
    if p = "/q".toList then some ⟨"/q".toList, ModeDir⟩
    else if p = "/q/d".toList then some ⟨"/q/d".toList, ModeDir⟩
    else none
  openDir p :=
    if p = "/q".toList then
      some [[⟨".".toList, DT_DIR⟩, ⟨"..".toList, DT_DIR⟩, ⟨"f".toList, DT_FIFO⟩,
        ⟨"u".toList, 0⟩, ⟨"d".toList, DT_DIR⟩, ⟨"x".toList, DT_DIR⟩, ⟨"l".toList, DT_LNK⟩,
        ⟨"z".toList, DT_REG⟩]]
    else if p = "/q/d".toList then
      some [[⟨".".toList, DT_DIR⟩, ⟨"..".toList, DT_DIR⟩, ⟨"b".toList, DT_REG⟩]]
    else none
  getdentsErrno _ := 0
  readlink p := if p = "/q/l".toList then "d".toList else []

/-- The directory `/s` holds the file `a`, the link `k` whose text cannot be read, and the
file `z`. -/
def demoOS3 : OS where
  getFilePathMode p := if p = "/s".toList then some ⟨"/s".toList, ModeDir⟩ else none
  openDir p :=
    if p = "/s".toList then
      some [[⟨".".toList, DT_DIR⟩, ⟨"..".toList, DT_DIR⟩, ⟨"a".toList, DT_REG⟩,
        ⟨"k".toList, DT_LNK⟩, ⟨"z".toList, DT_REG⟩]]
    else none
  getdentsErrno _ := 0
  readlink _ := []

/-! ## `resolveAndCheckProjectPath` (`cmd/pdb_updateacl/main.go`, lines 180-211) -/

/-- The constant `os.ModeSymlink`, bit 27. -/
def ModeSymlink : FileMode := 2 ^ 27

/-- The part of `os.FileInfo` that `resolveAndCheckProjectPath` reads. -/
structure FileInfo where
  Name : Str
  Mode : FileMode
  deriving DecidableEq, Repr

/-- What `resolveAndCheckProjectPath` asks of its surroundings: the flag `-d`, the working
directory (for `filepath.Abs`), `os.Readlink` and `os.Stat`, each with its error. -/
structure ProjectOS where
  optsBase : Str
  cwd : Str
  readlink : Str → Except Str Str
  stat : Str → Except Str FileMode

/-- The function `filepath.Abs`: an absolute path is cleaned, another one is joined to the
working directory. -/
def filepathAbs (cwd p : Str) : Str :=
  match p with
  | '/' :: _ => filepathClean p
  | _ => filepathJoin [cwd, p]

/-- The function `resolveAndCheckProjectPath`; `none` stands for the panic of
`[]rune(referent)[0]` on an empty referent. -/
def resolveAndCheckProjectPath (os : ProjectOS) (pinfo : FileInfo) :
    Option (Except Str FilePathMode) :=
  let p := filepathJoin [os.optsBase, pinfo.Name]
  let resolved : Option (Except Str Str) :=
    if pinfo.Mode / 2 ^ 27 % 2 == 1 then
      match os.readlink p with
      | .error err =>
        some (.error ("cannot resolve referent of symlink: ".toList ++ p ++
          ", reason: ".toList ++ err))
      | .ok [] => none
      | .ok (ch :: referent) =>
        if ch ≠ '/' then some (.ok (filepathJoin [p, ch :: referent]))
        else some (.ok (ch :: referent))
    else some (.ok p)
  match resolved with
  | none => none
  | some (.error e) => some (.error e)
  | some (.ok p1) =>
    let p2 := filepathAbs os.cwd p1
    match os.stat p2 with
    | .error err =>
      some (.error ("project path not found: ".toList ++ p2 ++ ", reason: ".toList ++ err))
    | .ok mode => some (.ok ⟨p2, mode⟩)

/-- The project directory `/project` holds the link `3010000.01` with text
`vol/3010000.01`; the directory `/project/vol/3010000.01` it points to exists. -/
def demoProjectOS : ProjectOS where
  optsBase := "/project".toList
  cwd := "/".toList
  readlink p :=
    if p = "/project/3010000.01".toList then .ok "vol/3010000.01".toList
    else .error "invalid argument".toList
  stat p :=
    if p = "/project/vol/3010000.01".toList then .ok ModeDir
    else if p = "/project/3010000.01".toList then .ok ModeDir
    else .error "no such file or directory".toList

/-! ## The entries of a tree -/

mutual
/-- The entry `n` of the directory `comps`, being the object `t`, and every entry found
below it, each with its path and its entry type. A symbolic link is an entry of its own; what
lies behind it is not an entry found under `comps`. -/
def Tree.entriesAt (comps : List Str) (n : Str) : Tree → List (Str × Nat)
  | .file => [(absPath (comps ++ [n]), DT_REG)]
  | .unknown => [(absPath (comps ++ [n]), 0)]
  | .special ty => [(absPath (comps ++ [n]), ty)]
  | .dir es => (absPath (comps ++ [n]), DT_DIR) :: Forest.entries (comps ++ [n]) es
  | .closedDir => [(absPath (comps ++ [n]), DT_DIR)]
  | .link _ _ _ _ => [(absPath (comps ++ [n]), DT_LNK)]
  | .brokenLink _ => [(absPath (comps ++ [n]), DT_LNK)]
/-- Every entry found transitively in the directory `comps` with entries `es`. -/
def Forest.entries (comps : List Str) : Forest → List (Str × Nat)
  | .nil => []
  | .cons n t rest => Tree.entriesAt comps n t ++ Forest.entries comps rest
end

/-- The entry types for which the `switch` of `fastWalk` has a case that emits the entry:
unknown, regular file, directory. -/
def emittedType (ty : Nat) : Bool :=
  ty == 0 || ty == DT_REG || ty == DT_DIR

/-- The mode `fastWalk` gives to an emitted entry of a type: `os.ModeDir` for a directory,
0 otherwise. -/
def entryMode (ty : Nat) : FileMode :=
  if ty = DT_DIR then ModeDir else 0

/-! ## `Lab` (`pkg/pdb/model.go`, lines 132-186) -/

/-- The type `Lab`, an `int`. -/
structure Lab where
  val : Int
  deriving DecidableEq, Repr

/-- The constant `EEG`. -/
def EEG : Lab := ⟨0⟩

/-- The constant `MEG`. -/
def MEG : Lab := ⟨1⟩

/-- The constant `MRI`. -/
def MRI : Lab := ⟨2⟩

/-- The method `Lab.Set`: the value of the receiver after the call, and the error. -/
def Lab.Set (l : Lab) (v : Str) : Lab × Option Str :=
  if v = "EEG".toList then (EEG, none)
  else if v = "MEG".toList then (MEG, none)
  else if v = "MRI".toList then (MRI, none)
  else (l, some ("unknown modality: ".toList ++ v))

/-- The method `Lab.String`. -/
def Lab.String (l : Lab) : Str :=
  if l = EEG then "EEG".toList
  else if l = MEG then "MEG".toList
  else if l = MRI then "MRI".toList
  else "unknown".toList

/-! ## `NetApp.waitJob` (`pkg/filer/netapp.go`, lines 388-415) -/

/-- The struct `Job`; `Link` is nil (`none`) or holds `Link.Self.Href`. -/
structure Job where
  Link : Option Str
  UUID : Str
  State : Str
  Message : Str
  deriving DecidableEq, Repr

/-- How a call ended: it returned a value, it panicked, or the model ran out of steps while
the call was still running. -/
inductive Outcome (α : Type) where
  | returned (a : α)
  | panicked
  | running
  deriving DecidableEq, Repr

/-- The loop `waitLoop` of `waitJob`. `poll i job` is the `i`-th call
`filer.GetObjectByHref(href, &(job.Job))`: `none` when the call panics, otherwise the error `e`
it returns and the job as the call leaves it. The test after the call reads the variable
`err`, not `e`. -/
def waitLoop (poll : Nat → Job → Option (Option Str × Job)) :
    Nat → Nat → Option Str → Job → Outcome (Option Str × Job)
  | 0, _, _, _ => .running
  | fuel + 1, i, err, job =>
    match poll i job with
    | none => .panicked
    | some (e, job1) =>
      if err.isSome then
        .returned (some ("cannot poll job ".toList ++ job1.UUID ++ ": ".toList ++ e.getD []),
          job1)
      else if job1.State = "success".toList then .returned (err, job1)
      else if job1.State = "failure".toList then .returned (err, job1)
      else waitLoop poll fuel (i + 1) err job1

/-- The method `NetApp.waitJob`: the returned error and the job it leaves; reading
`job.Job.Link.Self.Href` panics on a nil `Link`. -/
def waitJob (poll : Nat → Job → Option (Option Str × Job)) (fuel : Nat) (job : Job) :
    Outcome (Option Str × Job) :=
  match job.Link with
  | none => .panicked
  | some _ => waitLoop poll fuel 0 none job

/-! ## `NetApp.CreateProject` (`pkg/filer/netapp.go`, lines 66-147) -/

/-- The struct `Record`, without its link. -/
structure Record where
  UUID : Str
  Name : Str
  deriving DecidableEq, Repr

/-- The struct `Aggregate`; `Available` is `Space.BlockStorage.Available`. -/
structure Aggregate where
  UUID : Str
  Name : Str
  State : Str
  Available : Int
  deriving DecidableEq, Repr

/-- The fields of the struct `Volume` that `CreateProject` computes; the others are constants. -/
structure Volume where
  Name : Str
  Aggregates : List Record
  Size : Int
  Svm : Record
  Path : Str
  deriving DecidableEq, Repr

/-- What `CreateProject` asks of the filer API.

* `volumeRecords` is `GetRecordsByQuery` for the volume name; that function tests the error of
  its request (lines 256-259) and returns it.
* `svmAggregates` is `GetObjectByName(filer.Vserver, API_NS_SVMS, &svm)`: the aggregates of the
  SVM or the error, and `none` when the call panics.
* `getAggregate` is `GetObjectByHref(href, &aggr)` for a record. That function reads
  `res.StatusCode` without testing the error of `c.Do(req)` (lines 301-304), so a request that
  gets no response is a nil dereference: `none` is that panic. Otherwise the result is the error
  the call returns and what `aggr` holds after it; `CreateProject` logs the error and uses
  `aggr` as it is.
* `createObject` is the method `createObject` with `waitJob`: it returns its error, panics (it
  reads `res.StatusCode` in the same way), or keeps polling. -/
structure FilerAPI where
  volumeRecords : Except Str (List Record)
  svmAggregates : Option (Except Str (List Record))
  getAggregate : Record → Option (Option Str × Aggregate)
  createObject : Volume → Outcome (Option Str)

/-- The loop over `svm.Aggregates` (lines 89-103): `theAggr` is replaced by every aggregate
that is online with more available space than `avail` and than `quota`; `avail` keeps its
value. The result `none` is the panic of a lookup. -/
def selectAggregate (getAggregate : Record → Option (Option Str × Aggregate))
    (avail quota : Int) : List Record → Option Aggregate → Option (Option Aggregate)
  | [], theAggr => some theAggr
  | record :: rest, theAggr =>
    match getAggregate record with
    | none => none
    | some (_, aggr) =>
      if aggr.State = "online".toList ∧ aggr.Available > avail ∧ aggr.Available > quota then
        selectAggregate getAggregate avail quota rest (some aggr)
      else selectAggregate getAggregate avail quota rest theAggr

/-- How a call of `CreateProject` ends (the error it returns, a panic, or the wait for the
job of `createObject`), and the volume handed to `createObject`, if the call got that far. -/
structure CreateResult where
  result : Outcome (Option Str)
  volume : Option Volume
  deriving DecidableEq, Repr

/-- The method `NetApp.CreateProject` with the fields `ProjectMode`, `Vserver` and
`ProjectRoot` of its receiver. -/
def CreateProject (api : FilerAPI) (ProjectMode Vserver ProjectRoot : Str) (projectID : Str)
    (quotaGiB : Int) : CreateResult :=
  if ProjectMode = "volume".toList then
    match api.volumeRecords with
    | .error e =>
      ⟨.returned (some ("fail to check volume ".toList ++ projectID ++ ": ".toList ++ e)),
        none⟩
    | .ok records =>
      if records.length ≠ 0 then
        ⟨.returned (some ("project volume already exists: ".toList ++ projectID)), none⟩
      else
        let quota := wrapInt64 (quotaGiB * 2 ^ 30)
        match api.svmAggregates with
        | none => ⟨.panicked, none⟩
        | some (.error e) =>
          ⟨.returned (some ("fail to get SVM ".toList ++ Vserver ++ ": ".toList ++ e)), none⟩
        | some (.ok aggregates) =>
          match selectAggregate api.getAggregate 0 quota aggregates none with
          | none => ⟨.panicked, none⟩
          | some none =>
            ⟨.returned (some "cannot find aggregate for creating volume".toList), none⟩
          | some (some theAggr) =>
            let vol : Volume :=
              ⟨volName projectID, [⟨[], theAggr.Name⟩], quota, ⟨[], Vserver⟩,
                filepathJoin [ProjectRoot, projectID]⟩
            ⟨api.createObject vol, some vol⟩
  else if ProjectMode = "qtree".toList then ⟨.returned none, none⟩
  else ⟨.returned (some ("unsupported project mode: ".toList ++ ProjectMode)), none⟩

/-! ## `findUserMember` (`cmd/prj_mine/main.go`, lines 109-150) -/

/-- The struct `projectRole`. -/
structure ProjectRole where
  projectID : Str
  role : Role
  deriving DecidableEq, Repr

/-- The function `filepath.Base`: `.` for the empty path, otherwise the last element after
trailing separators are stripped, `/` if nothing is left. -/
def filepathBase (path : Str) : Str :=
  if path = [] then ".".toList
  else
    let stripped := (path.reverse.dropWhile (fun ch => ch == '/')).reverse
    let last := (stripped.reverse.takeWhile (fun ch => ch != '/')).reverse
    if last = [] then "/".toList else last

/-- The loop `for _, u := range users` of `findUserMember` (lines 135-144): what it sends
on `members`; it stops at the first user equal to `uid`. -/
def reportUsers (uid projectID : Str) (r : Role) : List Str → List ProjectRole
  | [] => []
  | u :: users => if u = uid then [⟨projectID, r⟩] else reportUsers uid projectID r users

/-- The loop `for r, users := range o.RoleMap` of `findUserMember` (lines 131-145), over the
role map in visiting order. -/
def reportRoleMap (uid dir : Str) : RoleMap → List ProjectRole
  | [] => []
  | (r, users) :: rest =>
    if r = Role.System then reportRoleMap uid dir rest
    else reportUsers uid (filepathBase dir) r users ++ reportRoleMap uid dir rest

/-- The function `findUserMember` over the directories received on `dirs`: what it sends on
`members`, and whether it reaches `wg.Done()`. `getRoles dir` is what `runner.GetRoles(false)`
delivers for the runner rooted at `dir` (the type `acl.Runner` is not among the sources); on
its error the function returns at once. -/
def findUserMember (getRoles : Str → Except Str (List RolePathMap)) (uid : Str) :
    List Str → List ProjectRole × Bool
  | [] => ([], true)
  | dir :: dirs =>
    match getRoles dir with
    | .error _ => ([], false)
    | .ok chanOut =>
      let here := chanOut.flatMap (fun o => reportRoleMap uid dir o.RoleMap)
      let later := findUserMember getRoles uid dirs
      (here ++ later.1, later.2)

/-- The test of line 100 with `avail = 0`: the aggregate is online and its available block
storage exceeds zero and `quota`. -/
def usableAggregate (quota : Int) (aggr : Aggregate) : Bool :=
  aggr.State = "online".toList && decide (aggr.Available > 0) &&
    decide (aggr.Available > quota)

/-- A filer with no volume for the project and one aggregate, online, with no space left. -/
def demoFilerAPI : FilerAPI where
  volumeRecords := .ok []
  svmAggregates := some (.ok [⟨"u1".toList, "aggr1".toList⟩])
  getAggregate := fun r => some (none, ⟨r.UUID, r.Name, "online".toList, 0⟩)
  createObject := fun _ => .returned none

/-- A filer with no volume for the project and three aggregates: `aggr1` online with 5 TiB
available, `aggr2` online with 2 TiB, `aggr3` offline with 9 TiB. -/
def demoFilerAPI2 : FilerAPI where
  volumeRecords := .ok []
  svmAggregates := some (.ok [⟨"u1".toList, "aggr1".toList⟩, ⟨"u2".toList, "aggr2".toList⟩,
    ⟨"u3".toList, "aggr3".toList⟩])
  getAggregate := fun r =>
    if r.Name = "aggr1".toList then some (none, ⟨r.UUID, r.Name, "online".toList, 5 * 2 ^ 40⟩)
    else if r.Name = "aggr2".toList then
      some (none, ⟨r.UUID, r.Name, "online".toList, 2 * 2 ^ 40⟩)
    else some (none, ⟨r.UUID, r.Name, "offline".toList, 9 * 2 ^ 40⟩)
  createObject := fun _ => .returned none

/-- The aggregates of `demoFilerAPI2` as the lookups leave them. -/
def demoAggregate (r : Record) : Aggregate :=
  if r.Name = "aggr1".toList then ⟨r.UUID, r.Name, "online".toList, 5 * 2 ^ 40⟩
  else if r.Name = "aggr2".toList then ⟨r.UUID, r.Name, "online".toList, 2 * 2 ^ 40⟩
  else ⟨r.UUID, r.Name, "offline".toList, 9 * 2 ^ 40⟩

/-- A filer with no volume for the project and one aggregate, whose lookup gets no response
from the server. -/
def demoFilerAPI3 : FilerAPI where
  volumeRecords := .ok []
  svmAggregates := some (.ok [⟨"u1".toList, "aggr1".toList⟩])
  getAggregate := fun _ => none
  createObject := fun _ => .returned none

/-! ## What a tree holds, whatever `getdents` reports -/

mutual
/-- The referents of the symbolic links of an object, those of the links met beneath the
referents included: the components of each referent path. -/
def Tree.linkTargets : Tree → List (List Str)
  | .file => []
  | .unknown => []
  | .special _ => []
  | .dir es => Forest.linkTargets es
  | .closedDir => []
  | .link _ target _ t => target :: Tree.linkTargets t
  | .brokenLink _ => []
/-- The referents of the symbolic links among the entries and beneath them. -/
def Forest.linkTargets : Forest → List (List Str)
  | .nil => []
  | .cons _ t rest => Tree.linkTargets t ++ Forest.linkTargets rest
end

mutual
/-- The file system holds the object `t` as entry `n` of the directory with components
`comps`, whatever entry type `getdents` reports for it: a directory can be opened and read and
the names of its entries are those of `t`, a link has its text and its referent. -/
def Tree.storedAt (os : OS) (comps : List Str) (n : Str) : Tree → Bool
  | .file => true
  | .unknown => true
  | .special _ => true
  | .dir es =>
    match os.openDir (absPath (comps ++ [n])) with
    | none => false
    | some blocks =>
      ((blocks.flatten.filter notDot).map Dirent.Name == Forest.names es) &&
        Forest.stored os (comps ++ [n]) es
  | .closedDir => (os.openDir (absPath (comps ++ [n]))).isNone
  | .link referent target mode t =>
    (os.readlink (absPath (comps ++ [n])) == referent) && referent ≠ [] &&
      (os.getFilePathMode (linkTarget (absPath comps) referent) ==
        some ⟨absPath target, mode⟩) &&
      target.all validName && Tree.storedOpen os target t
  | .brokenLink referent =>
    (os.readlink (absPath (comps ++ [n])) == referent) && referent ≠ [] &&
      (os.getFilePathMode (linkTarget (absPath comps) referent)).isNone
/-- The file system holds the object `t` at the path with components `comps`. -/
def Tree.storedOpen (os : OS) (comps : List Str) : Tree → Bool
  | .dir es =>
    match os.openDir (absPath comps) with
    | none => false
    | some blocks =>
      ((blocks.flatten.filter notDot).map Dirent.Name == Forest.names es) &&
        Forest.stored os comps es
  | .closedDir => (os.openDir (absPath comps)).isNone
  | .link _ _ _ _ => false
  | .brokenLink _ => false
  | .file => true
  | .unknown => true
  | .special _ => true
/-- The file system holds the entries `es` in the directory with components `comps`. -/
def Forest.stored (os : OS) (comps : List Str) : Forest → Bool
  | .nil => true
  | .cons n t rest => Tree.storedAt os comps n t && Forest.stored os comps rest
end

/-! ### File systems for the worked examples on entry types and read errors -/

/-- The file system of `demoOS` on a volume whose `getdents` reports the link `/r/l` with the
entry type 0 (unknown). -/
def demoOS6 : OS where
  getFilePathMode p :=
    if p = "/p".toList then some ⟨"/p".toList, ModeDir⟩
    else if p = "/r".toList then some ⟨"/r".toList, ModeDir⟩
    else none
  openDir p :=
    if p = "/p".toList then
      some [[⟨".".toList, DT_DIR⟩, ⟨"..".toList, DT_DIR⟩, ⟨"a".toList, DT_REG⟩],
        [⟨"d".toList, DT_DIR⟩]]
    else if p = "/p/d".toList then
      some [[⟨".".toList, DT_DIR⟩, ⟨"..".toList, DT_DIR⟩, ⟨"b".toList, DT_REG⟩,
        ⟨"c".toList, DT_REG⟩]]
    else if p = "/r".toList then
      some [[⟨".".toList, DT_DIR⟩, ⟨"..".toList, DT_DIR⟩, ⟨"l".toList, 0⟩,
        ⟨"z".toList, DT_REG⟩]]
    else none
  getdentsErrno _ := 0
  readlink p := if p = "/r/l".toList then "../p".toList else []

/-- The directory `/t` holds the link `k` with text `/v`; the directory `/v` holds the named
pipe `f`, the file `a` and the link `m` with text `/w`; the directory `/w` holds the
file `c`. -/
def demoOS7 : OS where
  getFilePathMode p :=
    if p = "/t".toList then some ⟨"/t".toList, ModeDir⟩
    else if p = "/v".toList then some ⟨"/v".toList, ModeDir⟩
    else if p = "/w".toList then some ⟨"/w".toList, ModeDir⟩
    else none
  openDir p :=
    if p = "/t".toList then
      some [[⟨".".toList, DT_DIR⟩, ⟨"..".toList, DT_DIR⟩, ⟨"k".toList, DT_LNK⟩]]
    else if p = "/v".toList then
      some [[⟨".".toList, DT_DIR⟩, ⟨"..".toList, DT_DIR⟩, ⟨"f".toList, DT_FIFO⟩,
        ⟨"a".toList, DT_REG⟩, ⟨"m".toList, DT_LNK⟩]]
    else if p = "/w".toList then
      some [[⟨".".toList, DT_DIR⟩, ⟨"..".toList, DT_DIR⟩, ⟨"c".toList, DT_REG⟩]]
    else none
  getdentsErrno _ := 0
  readlink p :=
    if p = "/t/k".toList then "/v".toList
    else if p = "/v/m".toList then "/w".toList
    else []

/-- The entries of `/v` in `demoOS7`. -/
def demoForest7 : Forest :=
  .cons "f".toList (.special DT_FIFO)
    (.cons "a".toList .file
      (.cons "m".toList
        (.link "/w".toList ["w".toList] ModeDir (.dir (.cons "c".toList .file .nil))) .nil))

/-- The directory `/u` holds the file `a`, the link `o` with text `/w` that leads out of it,
and the directory `d` with the file `b`; the directory `/w` holds the file `c`. -/
def demoOS9 : OS where
  getFilePathMode p :=
    if p = "/u".toList then some ⟨"/u".toList, ModeDir⟩
    else if p = "/w".toList then some ⟨"/w".toList, ModeDir⟩
    else none
  openDir p :=
    if p = "/u".toList then
      some [[⟨".".toList, DT_DIR⟩, ⟨"..".toList, DT_DIR⟩, ⟨"a".toList, DT_REG⟩,
        ⟨"o".toList, DT_LNK⟩, ⟨"d".toList, DT_DIR⟩]]
    else if p = "/u/d".toList then
      some [[⟨".".toList, DT_DIR⟩, ⟨"..".toList, DT_DIR⟩, ⟨"b".toList, DT_REG⟩]]
    else if p = "/w".toList then
      some [[⟨".".toList, DT_DIR⟩, ⟨"..".toList, DT_DIR⟩, ⟨"c".toList, DT_REG⟩]]
    else none
  getdentsErrno _ := 0
  readlink p := if p = "/u/o".toList then "/w".toList else []

/-- The entries of `/u` in `demoOS9`. -/
def demoForest9 : Forest :=
  .cons "a".toList .file
    (.cons "o".toList
      (.link "/w".toList ["w".toList] ModeDir (.dir (.cons "c".toList .file .nil)))
      (.cons "d".toList (.dir (.cons "b".toList .file .nil)) .nil))

theorem RoleMap.get_set (m : RoleMap) (r r' : Role) (v : List Str) :
    (m.set r v).get r' = if r = r' then some v else m.get r' := by
  induction m with
  | nil => simp [RoleMap.set, RoleMap.get]
  | cons kv m ih =>
    obtain ⟨k, w⟩ := kv
    simp only [RoleMap.set]
    split_ifs with h1 h2 h2
    · simp [RoleMap.get, h1, h2]
    · subst h1
      simp [RoleMap.get, h2]
    · subst h2
      simp [RoleMap.get, h1, ih]
    · by_cases hk : k = r'
      · simp [RoleMap.get, hk]
      · simp [RoleMap.get, hk, ih, h2]

/-! ## Lemmas on `parseRoles` -/

theorem mem_listedUsers (roleSpec : List (Role × Str)) (u : Str) :
    u ∈ listedUsers roleSpec ↔
      ∃ r spec, (r, spec) ∈ roleSpec ∧ spec ≠ [] ∧ u ∈ stringsSplit ',' spec := by
  induction roleSpec with
  | nil => simp [listedUsers]
  | cons p rest ih =>
    obtain ⟨r0, spec0⟩ := p
    by_cases h0 : spec0 = []
    · subst h0
      simp only [listedUsers, if_true, ih, List.mem_cons, Prod.mk.injEq]
      constructor
      · rintro ⟨r, spec, hm, hne, hu⟩
        exact ⟨r, spec, Or.inr hm, hne, hu⟩
      · rintro ⟨r, spec, hm | hm, hne, hu⟩
        · exact absurd hm.2 hne
        · exact ⟨r, spec, hm, hne, hu⟩
    · simp only [listedUsers, h0, if_false, List.mem_append, ih, List.mem_cons, Prod.mk.injEq]
      constructor
      · rintro (hu | ⟨r, spec, hm, hne, hu⟩)
        · exact ⟨r0, spec0, Or.inl ⟨rfl, rfl⟩, h0, hu⟩
        · exact ⟨r, spec, Or.inr hm, hne, hu⟩
      · rintro ⟨r, spec, hm | hm, hne, hu⟩
        · obtain ⟨-, rfl⟩ := hm
          exact Or.inl hu
        · exact Or.inr ⟨r, spec, hm, hne, hu⟩

theorem stringsSplit_ne_nil (sep : Char) (s : Str) : stringsSplit sep s ≠ [] := by
  induction s with
  | nil => simp [stringsSplit]
  | cons c cs ih =>
    rw [stringsSplit]
    split_ifs
    · simp
    · split <;> simp

theorem checkUsers_ok (me : Str) (us seen : List Str)
    (hme : me ∉ us) (hnd : us.Nodup) (hdis : ∀ u ∈ us, u ∉ seen) :
    checkUsers (some me) us seen = some (.ok (us.reverse ++ seen)) := by
  induction us generalizing seen with
  | nil => simp [checkUsers]
  | cons u us ih =>
    have hu : u ≠ me := fun h => hme (by simp [h])
    have hs : u ∉ seen := hdis u (by simp)
    rw [List.nodup_cons] at hnd
    simp only [checkUsers, hu, hs, if_false]
    rw [ih (u :: seen) (fun h => hme (List.mem_cons_of_mem _ h)) hnd.2]
    · simp
    · intro x hx hmem
      rcases List.mem_cons.1 hmem with h | h
      · subst h
        exact hnd.1 hx
      · exact hdis x (List.mem_cons_of_mem _ hx) h

theorem checkUsers_error (me : Str) (us seen : List Str)
    (h : me ∈ us ∨ ¬ us.Nodup ∨ ∃ u ∈ us, u ∈ seen) :
    ∃ e, checkUsers (some me) us seen = some (.error e) := by
  induction us generalizing seen with
  | nil =>
    rcases h with h | h | ⟨u, hu, _⟩
    · simp at h
    · simp at h
    · simp at hu
  | cons u us ih =>
    by_cases hu : u = me
    · exact ⟨_, by simp only [checkUsers, hu, if_true]; rfl⟩
    · by_cases hs : u ∈ seen
      · exact ⟨_, by simp only [checkUsers, hu, hs, if_false, if_true]; rfl⟩
      · simp only [checkUsers, hu, hs, if_false]
        apply ih
        rcases h with h | h | ⟨x, hx, hxs⟩
        · rcases List.mem_cons.1 h with h | h
          · exact absurd h.symm hu
          · exact Or.inl h
        · rw [List.nodup_cons, not_and_or, not_not] at h
          rcases h with h | h
          · exact Or.inr (Or.inr ⟨u, h, by simp⟩)
          · exact Or.inr (Or.inl h)
        · rcases List.mem_cons.1 hx with h | h
          · subst h
            exact absurd hxs hs
          · exact Or.inr (Or.inr ⟨x, h, List.mem_cons_of_mem _ hxs⟩)

theorem checkUsers_nil_operator (us seen : List Str) (h : us ≠ []) :
    checkUsers none us seen = none := by
  cases us with
  | nil => exact absurd rfl h
  | cons u us => simp [checkUsers]

theorem parseRolesLoop_error (me : Str) (roleSpec : List (Role × Str))
    (roles : RoleMap) (seen usersT : List Str)
    (h : me ∈ listedUsers roleSpec ∨ ¬ (listedUsers roleSpec).Nodup ∨
      ∃ u ∈ listedUsers roleSpec, u ∈ seen) :
    ∃ e, parseRolesLoop (some me) roleSpec roles seen usersT = some ⟨none, [], some e⟩ := by
  induction roleSpec generalizing roles seen usersT with
  | nil =>
    rcases h with h | h | ⟨u, hu, _⟩
    · simp [listedUsers] at h
    · simp [listedUsers] at h
    · simp [listedUsers] at hu
  | cons p rest ih =>
    obtain ⟨r0, spec0⟩ := p
    by_cases h0 : spec0 = []
    · subst h0
      simp only [listedUsers, if_true] at h
      simp only [parseRolesLoop, if_true]
      exact ih roles seen usersT h
    · simp only [listedUsers, h0, if_false] at h
      simp only [parseRolesLoop, h0, if_false]
      by_cases hbad : me ∈ stringsSplit ',' spec0 ∨ ¬ (stringsSplit ',' spec0).Nodup ∨
          ∃ u ∈ stringsSplit ',' spec0, u ∈ seen
      · obtain ⟨e, he⟩ := checkUsers_error me _ seen hbad
        exact ⟨e, by rw [he]⟩
      · rw [not_or, not_or, not_not] at hbad
        obtain ⟨hme, hnd, hdis⟩ := hbad
        have hdis2 : ∀ u ∈ stringsSplit ',' spec0, u ∉ seen := fun u hu hs => hdis ⟨u, hu, hs⟩
        rw [checkUsers_ok me _ seen hme hnd hdis2]
        dsimp only
        apply ih
        rcases h with h | h | ⟨u, hu, hus⟩
        · rcases List.mem_append.1 h with h | h
          · exact absurd h hme
          · exact Or.inl h
        · rw [List.nodup_append, not_and_or, not_and_or] at h
          rcases h with h | h | h
          · exact absurd hnd h
          · exact Or.inr (Or.inl h)
          · simp only [List.Disjoint, not_forall, not_not] at h
            obtain ⟨x, hx1, hx2, _⟩ := h
            exact Or.inr (Or.inr ⟨x, hx2, by simp [hx1]⟩)
        · rcases List.mem_append.1 hu with h | h
          · exact absurd hus (hdis2 u h)
          · exact Or.inr (Or.inr ⟨u, h, by simp [hus]⟩)

theorem parseRolesLoop_ok (me : Str) (roleSpec : List (Role × Str))
    (roles : RoleMap) (seen usersT : List Str)
    (hme : me ∉ listedUsers roleSpec) (hnd : (listedUsers roleSpec).Nodup)
    (hdis : ∀ u ∈ listedUsers roleSpec, u ∉ seen) :
    parseRolesLoop (some me) roleSpec roles seen usersT =
      some ⟨some (builtRoles roleSpec roles), usersT ++ listedUsers roleSpec, none⟩ := by
  induction roleSpec generalizing roles seen usersT with
  | nil => simp [parseRolesLoop, builtRoles, listedUsers]
  | cons p rest ih =>
    obtain ⟨r0, spec0⟩ := p
    by_cases h0 : spec0 = []
    · subst h0
      simp only [listedUsers, if_true] at hme hnd hdis
      simp only [parseRolesLoop, builtRoles, listedUsers, if_true]
      exact ih roles seen usersT hme hnd hdis
    · simp only [listedUsers, h0, if_false] at hme hnd hdis
      simp only [parseRolesLoop, builtRoles, listedUsers, h0, if_false]
      rw [List.nodup_append] at hnd
      obtain ⟨hnd1, hnd2, hdj⟩ := hnd
      rw [checkUsers_ok me _ seen (fun h => hme (List.mem_append_left _ h)) hnd1
        (fun u hu => hdis u (List.mem_append_left _ hu))]
      dsimp only
      rw [ih _ _ _ (fun h => hme (List.mem_append_right _ h)) hnd2]
      · simp
      · intro u hu hmem
        rcases List.mem_append.1 hmem with h | h
        · exact hdj (List.mem_reverse.1 h) hu
        · exact hdis u (List.mem_append_right _ hu) h

theorem parseRolesLoop_nil_operator (roleSpec : List (Role × Str))
    (roles : RoleMap) (seen usersT : List Str) :
    parseRolesLoop none roleSpec roles seen usersT =
      if listedUsers roleSpec = [] then some ⟨some roles, usersT, none⟩ else none := by
  induction roleSpec generalizing roles seen usersT with
  | nil => simp [parseRolesLoop, listedUsers]
  | cons p rest ih =>
    obtain ⟨r0, spec0⟩ := p
    by_cases h0 : spec0 = []
    · subst h0
      simp only [parseRolesLoop, listedUsers, if_true]
      exact ih roles seen usersT
    · have hne := stringsSplit_ne_nil ',' spec0
      simp only [parseRolesLoop, listedUsers, h0, if_false,
        checkUsers_nil_operator _ seen hne, List.append_eq_nil, hne, false_and]

theorem builtRoles_of_listed_nil (roleSpec : List (Role × Str)) (roles : RoleMap)
    (h : listedUsers roleSpec = []) : builtRoles roleSpec roles = roles := by
  induction roleSpec generalizing roles with
  | nil => rfl
  | cons p rest ih =>
    obtain ⟨r0, spec0⟩ := p
    by_cases h0 : spec0 = []
    · subst h0
      simp only [listedUsers, if_true] at h
      simp only [builtRoles, if_true]
      exact ih roles h
    · simp only [listedUsers, h0, if_false, List.append_eq_nil] at h
      exact absurd h.1 (stringsSplit_ne_nil ',' spec0)

theorem parseRoles_ok_inv (me : Option Str) (roleSpec : List (Role × Str))
    (roles : RoleMap) (usersT : List Str)
    (h : parseRoles me roleSpec = some ⟨some roles, usersT, none⟩) :
    (∀ username, me = some username → username ∉ listedUsers roleSpec) ∧
      (listedUsers roleSpec).Nodup ∧
      roles = builtRoles roleSpec [] ∧ usersT = listedUsers roleSpec := by
  cases me with
  | none =>
    rw [parseRoles, parseRolesLoop_nil_operator] at h
    by_cases hl : listedUsers roleSpec = []
    · rw [if_pos hl] at h
      simp only [Option.some.injEq, ParseResult.mk.injEq, and_true] at h
      refine ⟨by simp, by simp [hl], ?_, by rw [hl]; exact h.2.symm⟩
      rw [builtRoles_of_listed_nil roleSpec [] hl]
      exact h.1.symm
    · rw [if_neg hl] at h
      cases h
  | some me =>
    by_cases hbad : me ∈ listedUsers roleSpec ∨ ¬ (listedUsers roleSpec).Nodup
    · have hbad2 : me ∈ listedUsers roleSpec ∨ ¬ (listedUsers roleSpec).Nodup ∨
          ∃ u ∈ listedUsers roleSpec, u ∈ ([] : List Str) := by
        rcases hbad with h1 | h1
        · exact Or.inl h1
        · exact Or.inr (Or.inl h1)
      obtain ⟨e, he⟩ := parseRolesLoop_error me roleSpec [] [] [] hbad2
      rw [parseRoles, he] at h
      simp at h
    · rw [not_or, not_not] at hbad
      rw [parseRoles, parseRolesLoop_ok me roleSpec [] [] [] hbad.1 hbad.2 (by simp)] at h
      simp only [Option.some.injEq, ParseResult.mk.injEq, List.nil_append, and_true] at h
      refine ⟨?_, hbad.2, h.1.symm, h.2.symm⟩
      intro username hu
      cases hu
      exact hbad.1

theorem builtRoles_get_of_not_mem (roleSpec : List (Role × Str)) (roles : RoleMap) (r : Role)
    (h : r ∉ roleSpec.map Prod.fst) :
    (builtRoles roleSpec roles).get r = roles.get r := by
  induction roleSpec generalizing roles with
  | nil => simp [builtRoles]
  | cons p rest ih =>
    obtain ⟨r0, spec0⟩ := p
    simp only [List.map_cons, List.mem_cons, not_or] at h
    by_cases h0 : spec0 = []
    · simp only [builtRoles, h0, if_true]
      exact ih roles h.2
    · simp only [builtRoles, h0, if_false]
      rw [ih _ h.2, RoleMap.get_set, if_neg (fun e => h.1 e.symm)]

theorem builtRoles_get_sound (roleSpec : List (Role × Str)) (roles : RoleMap) (r : Role)
    (us : List Str) (h : (builtRoles roleSpec roles).get r = some us) :
    roles.get r = some us ∨
      ∃ spec, (r, spec) ∈ roleSpec ∧ spec ≠ [] ∧ us = stringsSplit ',' spec := by
  induction roleSpec generalizing roles with
  | nil => exact Or.inl (by simpa [builtRoles] using h)
  | cons p rest ih =>
    obtain ⟨r0, spec0⟩ := p
    by_cases h0 : spec0 = []
    · simp only [builtRoles, h0, if_true] at h
      rcases ih roles h with h1 | ⟨spec, hm, hne, hus⟩
      · exact Or.inl h1
      · exact Or.inr ⟨spec, List.mem_cons_of_mem _ hm, hne, hus⟩
    · simp only [builtRoles, h0, if_false] at h
      rcases ih _ h with h1 | ⟨spec, hm, hne, hus⟩
      · rw [RoleMap.get_set] at h1
        by_cases hr : r0 = r
        · subst hr
          simp only [if_true, Option.some.injEq] at h1
          exact Or.inr ⟨spec0, by simp, h0, h1.symm⟩
        · rw [if_neg hr] at h1
          exact Or.inl h1
      · exact Or.inr ⟨spec, List.mem_cons_of_mem _ hm, hne, hus⟩

theorem builtRoles_get_complete (roleSpec : List (Role × Str)) (roles : RoleMap)
    (hk : (roleSpec.map Prod.fst).Nodup) (r : Role) (spec : Str)
    (hm : (r, spec) ∈ roleSpec) (hne : spec ≠ []) :
    (builtRoles roleSpec roles).get r = some (stringsSplit ',' spec) := by
  induction roleSpec generalizing roles with
  | nil => simp at hm
  | cons p rest ih =>
    obtain ⟨r0, spec0⟩ := p
    simp only [List.map_cons, List.nodup_cons] at hk
    rcases List.mem_cons.1 hm with h | h
    · simp only [Prod.mk.injEq] at h
      obtain ⟨rfl, rfl⟩ := h
      simp only [builtRoles, hne, if_false]
      rw [builtRoles_get_of_not_mem _ _ _ hk.1, RoleMap.get_set, if_pos rfl]
    · by_cases h0 : spec0 = []
      · simp only [builtRoles, h0, if_true]
        exact ih roles hk.2 h
      · simp only [builtRoles, h0, if_false]
        exact ih _ hk.2 h

/-! ## Claims on `parseRoles` -/

/-- C1: if some user identifier listed in the role specification (a piece of a non-empty
specification string) equals the operator's username `me`, `parseRoles` returns an error
together with a nil role map and a nil traverse-user list; the specification is an arbitrary
list of pairs, so this holds for every visiting order. -/
theorem parseRoles_rejects_operator (me : Str) (roleSpec : List (Role × Str))
    (r : Role) (spec : Str) (hm : (r, spec) ∈ roleSpec) (hne : spec ≠ [])
    (hu : me ∈ stringsSplit ',' spec) :
    ∃ e, parseRoles (some me) roleSpec = some ⟨none, [], some e⟩ :=
  parseRolesLoop_error me roleSpec [] [] []
    (Or.inl ((mem_listedUsers roleSpec me).2 ⟨r, spec, hm, hne, hu⟩))

theorem parseRoles_rejects_operator_witness :
    ((Role.Viewer, "carol,alice".toList) ∈
        [(Role.Manager, "bob".toList), (Role.Viewer, "carol,alice".toList)]) ∧
      "alice".toList ∈ stringsSplit ',' "carol,alice".toList ∧
      ∃ e, parseRoles (some "alice".toList)
        [(Role.Manager, "bob".toList), (Role.Viewer, "carol,alice".toList)] =
          some ⟨none, [], some e⟩ :=
  ⟨by decide, by decide,
    parseRoles_rejects_operator "alice".toList
      [(Role.Manager, "bob".toList), (Role.Viewer, "carol,alice".toList)]
      Role.Viewer "carol,alice".toList (by decide) (by decide) (by decide)⟩

/-- With the operator's username known, a user identifier that occurs twice among the listed
users (in two different roles, or twice in one role) makes `parseRoles` return an error and no
role map, for every visiting order. -/
theorem parseRoles_duplicate_error (me : Str) (roleSpec : List (Role × Str))
    (u : Str) (h : [u, u].Sublist (listedUsers roleSpec)) :
    ∃ e, parseRoles (some me) roleSpec = some ⟨none, [], some e⟩ := by
  apply parseRolesLoop_error me roleSpec [] [] []
  refine Or.inr (Or.inl ?_)
  intro hnd
  exact List.nodup_iff_sublist.1 hnd u h

/-- C2, the defect: the specification `-m bob -u carol,bob` lists `bob` twice. When
`user.Current()` has failed, its error is dropped at line 220 and `me` is nil, so the first
comparison `u == me.Username` (line 231) is a nil dereference: `parseRoles` panics and returns
neither an error nor a role map. With the operator `alice` known, the same specification is
rejected with the error `user specified more than once: bob`. -/
theorem parseRoles_duplicate_panics_without_operator :
    ["bob".toList, "bob".toList].Sublist
        (listedUsers [(Role.Manager, "bob".toList), (Role.Writer, "".toList),
          (Role.Viewer, "carol,bob".toList)]) ∧
      parseRoles none
        [(Role.Manager, "bob".toList), (Role.Writer, "".toList),
          (Role.Viewer, "carol,bob".toList)] = none ∧
      parseRoles (some "alice".toList)
        [(Role.Manager, "bob".toList), (Role.Writer, "".toList),
          (Role.Viewer, "carol,bob".toList)] =
        some ⟨none, [], some "user specified more than once: bob".toList⟩ := by
  refine ⟨by decide, by decide, by decide⟩

/-- C3: when `parseRoles` succeeds on a role specification with distinct keys (a Go map),
the traverse role map built by `main` has the single key `Traverse`, bound to `usersT`, and
`usersT` is duplicate-free and holds exactly the users bound to some role of the returned
role map. -/
theorem traverse_users_are_union (me : Option Str) (roleSpec : List (Role × Str))
    (roles : RoleMap) (usersT : List Str)
    (hk : (roleSpec.map Prod.fst).Nodup)
    (h : parseRoles me roleSpec = some ⟨some roles, usersT, none⟩) :
    (traverseRoleMap usersT).keys = [Role.Traverse] ∧
      (traverseRoleMap usersT).get Role.Traverse = some usersT ∧
      (∀ u, u ∈ usersT ↔ ∃ r us, roles.get r = some us ∧ u ∈ us) ∧
      usersT.Nodup := by
  obtain ⟨_, hnd, hroles, hT⟩ := parseRoles_ok_inv me roleSpec roles usersT h
  subst hroles hT
  refine ⟨rfl, by simp [traverseRoleMap, RoleMap.set, RoleMap.get], ?_, hnd⟩
  intro u
  constructor
  · intro hu
    obtain ⟨r, spec, hm, hne, hus⟩ := (mem_listedUsers roleSpec u).1 hu
    exact ⟨r, _, builtRoles_get_complete roleSpec [] hk r spec hm hne, hus⟩
  · rintro ⟨r, us, hget, hu⟩
    rcases builtRoles_get_sound roleSpec [] r us hget with h1 | ⟨spec, hm, hne, hus⟩
    · simp [RoleMap.get] at h1
    · subst hus
      exact (mem_listedUsers roleSpec u).2 ⟨r, spec, hm, hne, hu⟩

theorem traverse_users_are_union_witness :
    (traverseRoleMap ["bob".toList, "carol".toList, "dave".toList]).keys = [Role.Traverse] ∧
      (traverseRoleMap ["bob".toList, "carol".toList, "dave".toList]).get Role.Traverse =
        some ["bob".toList, "carol".toList, "dave".toList] ∧
      (∀ u, u ∈ ["bob".toList, "carol".toList, "dave".toList] ↔
        ∃ r us, RoleMap.get [(Role.Manager, ["bob".toList]),
          (Role.Viewer, ["carol".toList, "dave".toList])] r = some us ∧ u ∈ us) ∧
      ["bob".toList, "carol".toList, "dave".toList].Nodup :=
  traverse_users_are_union (some "alice".toList)
    [(Role.Manager, "bob".toList), (Role.Writer, "".toList),
      (Role.Viewer, "carol,dave".toList)]
    [(Role.Manager, ["bob".toList]), (Role.Viewer, ["carol".toList, "dave".toList])]
    ["bob".toList, "carol".toList, "dave".toList] (by decide) (by decide)

/-! ## Lemmas on `goSetRoles` -/

theorem held_sum_set (ws : List Worker) (i : Nat) (w w' : Worker)
    (h : ws.get? i = some w) :
    ((ws.set i w').map Worker.held).sum + w.held = (ws.map Worker.held).sum + w'.held := by
  induction ws generalizing i with
  | nil => simp at h
  | cons a ws ih =>
    cases i with
    | zero =>
      simp only [List.get?_cons_zero, Option.some.injEq] at h
      subst h
      simp only [List.set_cons_zero, List.map_cons, List.sum_cons]
      abel
    | succ i =>
      simp only [List.get?_cons_succ] at h
      simp only [List.set_cons_succ, List.map_cons, List.sum_cons]
      rw [add_assoc, ih i h, add_assoc]

theorem Pool.step_total (upd : FilePathMode → Option RolePathMap) (p : Pool) (i : Nat) :
    (Pool.step upd p i).total upd = p.total upd := by
  unfold Pool.step
  split
  · rfl
  · rfl
  · next r h =>
    have := held_sum_set p.workers i (Worker.sending r) Worker.receiving h
    simp only [Worker.held, add_zero] at this
    simp only [Pool.total]
    rw [← this, ← Multiset.coe_add, Multiset.coe_singleton]
    abel
  · next h =>
    split
    · next hF =>
      have := held_sum_set p.workers i Worker.receiving Worker.done h
      simp only [Worker.held, add_zero] at this
      simp only [Pool.total, this]
    · next f rest hF =>
      split
      · next hu => simp [Pool.total, hF, List.filterMap_cons, hu]
      · next r hu =>
        have := held_sum_set p.workers i Worker.receiving (Worker.sending r) h
        simp only [Worker.held, add_zero] at this
        simp only [Pool.total, hF, List.filterMap_cons, hu, this, ← Multiset.cons_coe,
          ← Multiset.singleton_add]
        abel

theorem Pool.step_workers_length (upd : FilePathMode → Option RolePathMap) (p : Pool) (i : Nat) :
    (Pool.step upd p i).workers.length = p.workers.length := by
  unfold Pool.step
  split
  · rfl
  · rfl
  · simp
  · split
    · simp
    · split <;> simp

theorem Pool.step_live (upd : FilePathMode → Option RolePathMap) (p : Pool) (i : Nat)
    (h : p.Live) : (Pool.step upd p i).Live := by
  unfold Pool.step
  split
  · exact h
  · exact h
  · intro hF w hw
    rcases List.mem_or_eq_of_mem_set hw with h1 | h1
    · exact h hF w h1
    · subst h1
      simp
  · split
    · next hF =>
      intro hF2
      exact absurd hF hF2
    · next f rest hF =>
      have hlive := h (by simp [hF])
      split
      · intro _ w hw
        exact hlive w hw
      · intro _ w hw
        rcases List.mem_or_eq_of_mem_set hw with h1 | h1
        · exact hlive w h1
        · subst h1
          simp

theorem Pool.run_total (upd : FilePathMode → Option RolePathMap) (p : Pool) (sched : List Nat) :
    (Pool.run upd p sched).total upd = p.total upd := by
  induction sched generalizing p with
  | nil => rfl
  | cons i sched ih => rw [Pool.run, ih, Pool.step_total]

theorem Pool.run_live (upd : FilePathMode → Option RolePathMap) (p : Pool) (sched : List Nat)
    (h : p.Live) : (Pool.run upd p sched).Live := by
  induction sched generalizing p with
  | nil => exact h
  | cons i sched ih => exact ih _ (Pool.step_live upd p i h)

theorem Pool.run_workers_length (upd : FilePathMode → Option RolePathMap) (p : Pool)
    (sched : List Nat) : (Pool.run upd p sched).workers.length = p.workers.length := by
  induction sched generalizing p with
  | nil => rfl
  | cons i sched ih => rw [Pool.run, ih, Pool.step_workers_length]

theorem drainWorkers_closed (upd : FilePathMode → Option RolePathMap) (ws : List Worker)
    (out : List RolePathMap) :
    ((drainWorkers upd ws [] out : List RolePathMap) : Multiset RolePathMap) =
      (out : Multiset RolePathMap) + (ws.map Worker.held).sum := by
  induction ws generalizing out with
  | nil => simp [drainWorkers]
  | cons w ws ih =>
    cases w with
    | receiving => simp [drainWorkers, ih, Worker.held]
    | done => simp [drainWorkers, ih, Worker.held]
    | sending r =>
      simp only [drainWorkers, ih, Worker.held, List.filterMap_nil, List.append_nil,
        List.map_cons, List.sum_cons]
      rw [← Multiset.coe_add, Multiset.coe_singleton]
      abel

theorem drainWorkers_total (upd : FilePathMode → Option RolePathMap) (p : Pool)
    (hne : p.workers ≠ []) (hlive : p.Live) :
    ((drainWorkers upd p.workers p.chanF p.chanOut : List RolePathMap) :
      Multiset RolePathMap) = p.total upd := by
  obtain ⟨chanF, workers, chanOut⟩ := p
  simp only [Pool.total]
  simp only at hne
  cases workers with
  | nil => exact absurd rfl hne
  | cons w ws =>
    cases w with
    | receiving =>
      simp only [drainWorkers, drainWorkers_closed, Worker.held, List.map_cons, List.sum_cons]
      rw [← Multiset.coe_add]
      abel
    | sending r =>
      simp only [drainWorkers, drainWorkers_closed, Worker.held, List.map_cons, List.sum_cons]
      rw [← Multiset.coe_add, ← Multiset.coe_add, Multiset.coe_singleton]
      abel
    | done =>
      have hF : chanF = [] := by
        by_contra hF
        exact hlive hF Worker.done (by simp) rfl
      subst hF
      simp only [drainWorkers, drainWorkers_closed, Worker.held, List.map_cons, List.sum_cons,
        List.filterMap_nil]
      simp

theorem held_sum_replicate (n : Nat) :
    ((List.replicate n Worker.receiving).map Worker.held).sum = 0 := by
  induction n with
  | zero => rfl
  | succ n ih => simp [List.replicate_succ, Worker.held]

theorem goSetRoles_perm (getRoler : FilePathMode → Option Roler) (roles : RoleMap)
    (chanF : List FilePathMode) (n : Nat) (sched : List Nat) (hn : 0 < n) :
    (drainWorkers (updateACL getRoler roles)
      (Pool.run (updateACL getRoler roles)
        ⟨chanF, List.replicate n Worker.receiving, []⟩ sched).workers
      (Pool.run (updateACL getRoler roles)
        ⟨chanF, List.replicate n Worker.receiving, []⟩ sched).chanF
      (Pool.run (updateACL getRoler roles)
        ⟨chanF, List.replicate n Worker.receiving, []⟩ sched).chanOut).Perm
      (chanF.filterMap (updateACL getRoler roles)) := by
  apply Multiset.coe_eq_coe.1
  rw [drainWorkers_total, Pool.run_total]
  · simp only [Pool.total, held_sum_replicate]
    simp
  · intro h
    have := Pool.run_workers_length (updateACL getRoler roles)
      ⟨chanF, List.replicate n Worker.receiving, []⟩ sched
    rw [h] at this
    simp at this
    omega
  · apply Pool.run_live
    intro _ w hw
    rw [List.eq_of_mem_replicate hw]
    simp

/-! ## Claim on `goSetRoles` -/

theorem stringsSplit_of_not_mem (sep : Char) (s : Str) (h : sep ∉ s) :
    stringsSplit sep s = [s] := by
  induction s with
  | nil => rfl
  | cons c cs ih =>
    simp only [List.mem_cons, not_or] at h
    unfold stringsSplit
    rw [if_neg (fun e => h.1 e.symm), ih h.2]

theorem stringsSplit_cons (sep c : Char) (cs : Str) :
    stringsSplit sep (c :: cs) =
      if c = sep then [] :: stringsSplit sep cs
      else
        match stringsSplit sep cs with
        | [] => [[c]]
        | p :: ps => (c :: p) :: ps := by
  rw [stringsSplit]

theorem stringsSplit_append (sep : Char) (a b : Str) :
    stringsSplit sep (a ++ sep :: b) = stringsSplit sep a ++ stringsSplit sep b := by
  induction a with
  | nil => simp [stringsSplit]
  | cons c cs ih =>
    rw [List.cons_append, stringsSplit_cons, stringsSplit_cons, ih]
    by_cases hc : c = sep
    · rw [if_pos hc, if_pos hc]
      rfl
    · rw [if_neg hc, if_neg hc]
      cases hs : stringsSplit sep cs with
      | nil => exact absurd hs (stringsSplit_ne_nil sep cs)
      | cons p ps => rfl

theorem stringsSplit_join (sep : Char) (comps : List Str) (hne : comps ≠ [])
    (h : ∀ c ∈ comps, sep ∉ c) :
    stringsSplit sep (stringsJoin comps [sep]) = comps := by
  induction comps with
  | nil => exact absurd rfl hne
  | cons a rest ih =>
    cases rest with
    | nil => exact stringsSplit_of_not_mem sep a (h a (by simp))
    | cons b rest =>
      simp only [stringsJoin, List.append_assoc, List.singleton_append]
      rw [stringsSplit_append, stringsSplit_of_not_mem sep a (h a (by simp)),
        ih (by simp) (fun c hc => h c (List.mem_cons_of_mem _ hc))]
      rfl

theorem stringsJoin_append_singleton (comps : List Str) (n sep : Str) (hne : comps ≠ []) :
    stringsJoin (comps ++ [n]) sep = stringsJoin comps sep ++ sep ++ n := by
  induction comps with
  | nil => exact absurd rfl hne
  | cons a rest ih =>
    cases rest with
    | nil => simp [stringsJoin]
    | cons b rest =>
      have := ih (by simp)
      rw [List.cons_append] at this
      rw [List.cons_append, List.cons_append, stringsJoin, this, stringsJoin]
      simp only [List.append_assoc]

theorem validName_iff (n : Str) :
    validName n = true ↔ n ≠ [] ∧ '/' ∉ n ∧ n ≠ ['.'] ∧ n ≠ ['.', '.'] := by
  simp [validName, and_assoc]

theorem cleanStep_valid (rooted : Bool) (stack : List Str) (c : Str) (h : validName c = true) :
    cleanStep rooted stack c = c :: stack := by
  obtain ⟨h1, _, h3, h4⟩ := (validName_iff c).1 h
  simp [cleanStep, h1, h3, h4]

theorem foldl_cleanStep_valid (rooted : Bool) (stack : List Str) (cs : List Str)
    (h : ∀ c ∈ cs, validName c = true) :
    cs.foldl (cleanStep rooted) stack = cs.reverse ++ stack := by
  induction cs generalizing stack with
  | nil => rfl
  | cons c cs ih =>
    rw [List.foldl_cons, cleanStep_valid rooted stack c (h c (by simp)),
      ih _ (fun x hx => h x (List.mem_cons_of_mem _ hx))]
    simp

theorem filepathClean_rooted (s : Str) :
    filepathClean ('/' :: s) =
      '/' :: stringsJoin ((stringsSplit '/' s).foldl (cleanStep true) []).reverse
        "/".toList := by
  simp [filepathClean, stringsSplit, cleanStep]

theorem not_mem_of_valid (comps : List Str) (h : ∀ c ∈ comps, validName c = true) :
    ∀ c ∈ comps, '/' ∉ c :=
  fun c hc => ((validName_iff c).1 (h c hc)).2.1

theorem filepathClean_absPath (comps : List Str) (h : ∀ c ∈ comps, validName c = true) :
    filepathClean (absPath comps) = absPath comps := by
  rw [absPath, filepathClean_rooted]
  cases comps with
  | nil => simp [stringsJoin, stringsSplit, cleanStep]
  | cons a rest =>
    have hs : stringsSplit '/' (stringsJoin (a :: rest) "/".toList) = a :: rest :=
      stringsSplit_join '/' (a :: rest) (by simp) (not_mem_of_valid _ h)
    rw [hs, foldl_cleanStep_valid true [] (a :: rest) h]
    simp

theorem filepathJoin_absPath (comps : List Str) (n : Str)
    (h : ∀ c ∈ comps, validName c = true) (hn : validName n = true) :
    filepathJoin [absPath comps, n] = absPath (comps ++ [n]) := by
  have hn2 : '/' ∉ n := ((validName_iff n).1 hn).2.1
  have e1 : stringsJoin [absPath comps, n] "/".toList =
      '/' :: (stringsJoin comps "/".toList ++ '/' :: n) := by
    simp [stringsJoin, absPath]
  simp only [filepathJoin]
  rw [if_neg (by simp [absPath]), e1, filepathClean_rooted, stringsSplit_append,
    stringsSplit_of_not_mem '/' n hn2]
  cases comps with
  | nil =>
    have e2 : cleanStep true [] [] = [] := by simp [cleanStep]
    simp only [stringsJoin, stringsSplit, List.nil_append, List.foldl_cons, List.foldl_nil,
      absPath, List.cons_append, e2, cleanStep_valid true [] n hn]
  | cons a rest =>
    have hs : stringsSplit '/' (stringsJoin (a :: rest) "/".toList) = a :: rest :=
      stringsSplit_join '/' (a :: rest) (by simp) (not_mem_of_valid _ h)
    rw [hs, foldl_cleanStep_valid true [] (a :: rest ++ [n])]
    · simp [absPath]
    · intro c hc
      rcases List.mem_append.1 hc with h1 | h1
      · exact h c h1
      · simp only [List.mem_singleton] at h1
        subst h1
        exact hn

theorem absPath_injective (c1 c2 : List Str) (h1 : ∀ c ∈ c1, validName c = true)
    (h2 : ∀ c ∈ c2, validName c = true) (h : absPath c1 = absPath c2) : c1 = c2 := by
  simp only [absPath, List.cons.injEq, true_and] at h
  have key : ∀ cs : List Str, (∀ c ∈ cs, validName c = true) →
      stringsSplit '/' (stringsJoin cs "/".toList) = if cs = [] then [[]] else cs := by
    intro cs hcs
    cases cs with
    | nil => rfl
    | cons a rest =>
      simp only [reduceCtorEq, if_false]
      exact stringsSplit_join '/' (a :: rest) (by simp) (not_mem_of_valid _ hcs)
  have k1 := key c1 h1
  have k2 := key c2 h2
  rw [h, k2] at k1
  have hv : ∀ cs : List Str, (∀ c ∈ cs, validName c = true) → cs ≠ [[]] := by
    intro cs hcs e
    subst e
    have := hcs [] (by simp)
    simp [validName] at this
  by_cases e1 : c1 = [] <;> by_cases e2 : c2 = []
  · rw [e1, e2]
  · rw [if_neg e2, if_pos e1] at k1
    exact absurd k1 (hv c2 h2)
  · rw [if_pos e2, if_neg e1] at k1
    exact absurd k1.symm (hv c1 h1)
  · rw [if_neg e2, if_neg e1] at k1
    exact k1.symm

/-! ## Lemmas on `fastWalk` -/

theorem Walk.seq_ok (l : List FilePathMode) (r : Walk) :
    Walk.seq ⟨l, .ok⟩ r = ⟨l ++ r.out, r.status⟩ := rfl

theorem Walk.seq_assoc (a b c : Walk) : (a.seq b).seq c = a.seq (b.seq c) := by
  obtain ⟨ao, as⟩ := a
  obtain ⟨bo, bs⟩ := b
  cases as <;> cases bs <;> simp [Walk.seq]

theorem Walk.nil_seq (r : Walk) : Walk.seq ⟨[], .ok⟩ r = r := by
  simp [Walk.seq]

theorem Walk.seq_nil (w : Walk) : w.seq ⟨[], .ok⟩ = w := by
  obtain ⟨o, s⟩ := w
  cases s <;> simp [Walk.seq]

theorem walkDirents_cons (walk : Str → Option FileMode → Walk) (os : OS) (root : Str)
    (d : Dirent) (ds : List Dirent) :
    walkDirents walk os root (d :: ds) =
      if notDot d = true then (walkDirent walk os root d).seq (walkDirents walk os root ds)
      else walkDirents walk os root ds := by
  rw [walkDirents]
  by_cases h : d.Name = ".".toList ∨ d.Name = "..".toList
  · rw [if_pos h, if_neg]
    rcases h with h | h <;> simp [notDot, h]
  · rw [if_neg h, if_pos]
    · simp only [Walk.seq]
    · rw [not_or] at h
      simpa [notDot] using h

theorem walkDirents_append (walk : Str → Option FileMode → Walk) (os : OS) (root : Str)
    (a b : List Dirent) :
    walkDirents walk os root (a ++ b) =
      (walkDirents walk os root a).seq (walkDirents walk os root b) := by
  induction a with
  | nil => simp [walkDirents, Walk.nil_seq]
  | cons d a ih =>
    rw [List.cons_append, walkDirents_cons, walkDirents_cons, ih]
    by_cases h : notDot d = true
    · rw [if_pos h, if_pos h, Walk.seq_assoc]
    · rw [if_neg h, if_neg h]

theorem walkDirents_filter (walk : Str → Option FileMode → Walk) (os : OS) (root : Str)
    (ds : List Dirent) :
    walkDirents walk os root (ds.filter notDot) = walkDirents walk os root ds := by
  induction ds with
  | nil => rfl
  | cons d ds ih =>
    rw [walkDirents_cons]
    by_cases h : notDot d = true
    · rw [List.filter_cons_of_pos h, walkDirents_cons, if_pos h, if_pos h, ih]
    · rw [List.filter_cons_of_neg h, if_neg h, ih]

theorem walkBlocks_eq (walk : Str → Option FileMode → Walk) (os : OS) (root : Str)
    (blocks : List (List Dirent)) :
    walkBlocks walk os root blocks = walkDirents walk os root blocks.flatten := by
  induction blocks with
  | nil => rfl
  | cons b bs ih =>
    rw [List.flatten_cons, walkDirents_append, ← ih, walkBlocks]
    simp only [Walk.seq]

theorem walkOpen_of_dirents (walk : Str → Option FileMode → Walk) (os : OS) (root : Str)
    (blocks : List (List Dirent)) (ds : List Dirent)
    (ho : os.openDir root = some blocks) (hd : blocks.flatten.filter notDot = ds) :
    walkOpen walk os root = walkDirents walk os root ds := by
  rw [walkOpen, ho, ← hd, walkDirents_filter]
  exact walkBlocks_eq walk os root blocks

theorem Tree.need_pos : ∀ t : Tree, 1 ≤ t.need
  | .file => by simp [Tree.need]
  | .unknown => by simp [Tree.need]
  | .special _ => by simp [Tree.need]
  | .dir _ => by simp [Tree.need]
  | .closedDir => by simp [Tree.need]
  | .link _ _ _ t => by
    rw [Tree.need]
    exact Tree.need_pos t
  | .brokenLink _ => by simp [Tree.need]

theorem notDot_of_valid (n : Str) (ty : Nat) (h : validName n = true) :
    notDot ⟨n, ty⟩ = true := by
  obtain ⟨_, _, h3, h4⟩ := (validName_iff n).1 h
  simp [notDot, h3, h4]

theorem fastWalk_some (os : OS) (fuel : Nat) (root : Str) (m : FileMode) :
    fastWalk os (fuel + 1) root (some m) =
      ⟨⟨root, m⟩ :: (walkOpen (fastWalk os fuel) os root).out,
        (walkOpen (fastWalk os fuel) os root).status⟩ := by
  rw [fastWalk]

theorem fastWalk_none (os : OS) (fuel : Nat) (root : Str) :
    fastWalk os (fuel + 1) root none =
      match os.getFilePathMode root with
      | none => ⟨[], .ok⟩
      | some fpm =>
        ⟨fpm :: (walkOpen (fastWalk os fuel) os (filepathClean fpm.Path)).out,
          (walkOpen (fastWalk os fuel) os (filepathClean fpm.Path)).status⟩ := by
  rw [fastWalk]

theorem walkDirent_link (walk : Str → Option FileMode → Walk) (os : OS) (root n referent : Str)
    (hr : os.readlink (filepathJoin [root, n]) = referent) (hne : referent ≠ []) :
    walkDirent walk os root ⟨n, DT_LNK⟩ = walk (linkTarget root referent) none := by
  cases referent with
  | nil => exact absurd rfl hne
  | cons c r =>
    simp only [walkDirent, DT_LNK, DT_REG, DT_DIR, hr, linkTarget]
    simp only [OfNat.ofNat_ne_zero, if_false, Nat.reduceEqDiff, if_true]
    split_ifs <;> rfl

mutual
theorem walkDirent_tree (os : OS) :
    ∀ (t : Tree) (comps : List Str) (n : Str) (fuel : Nat),
      (∀ c ∈ comps, validName c = true) → validName n = true → t.wf = true →
      t.presentsAt os comps n = true → t.need ≤ fuel →
      walkDirent (fastWalk os fuel) os (absPath comps) ⟨n, t.dtype⟩ = ⟨t.emit comps n, .ok⟩
  | .file, comps, n, fuel, hc, hn, _, _, _ => by
    simp [walkDirent, Tree.dtype, DT_REG, Tree.emit, filepathJoin_absPath comps n hc hn]
  | .unknown, comps, n, fuel, hc, hn, _, _, _ => by
    simp [walkDirent, Tree.dtype, Tree.emit, filepathJoin_absPath comps n hc hn]
  | .special ty, comps, n, fuel, hc, hn, hw, _, _ => by
    simp only [Tree.wf, Bool.and_eq_true, decide_eq_true_eq] at hw
    obtain ⟨⟨⟨h0, h1⟩, h2⟩, h3⟩ := hw
    simp [walkDirent, Tree.dtype, Tree.emit, h0, h1, h2, h3]
  | .dir es, comps, n, fuel, hc, hn, hw, hp, hf => by
    obtain ⟨k, rfl⟩ : ∃ k, fuel = k + 1 := ⟨fuel - 1, by rw [Tree.need] at hf; omega⟩
    rw [Tree.need] at hf
    rw [Tree.wf] at hw
    rw [Tree.presentsAt] at hp
    have hc2 : ∀ c ∈ comps ++ [n], validName c = true := by
      intro c hcm
      rcases List.mem_append.1 hcm with h1 | h1
      · exact hc c h1
      · simp only [List.mem_singleton] at h1
        subst h1
        exact hn
    cases ho : os.openDir (absPath (comps ++ [n])) with
    | none => simp [ho] at hp
    | some blocks =>
      simp only [ho, Bool.and_eq_true, beq_iff_eq] at hp
      have hF := walkDirents_forest os es (comps ++ [n]) k hc2 hw hp.2 (by omega)
      have hO := walkOpen_of_dirents (fastWalk os k) os _ blocks _ ho hp.1
      simp only [walkDirent, Tree.dtype, DT_DIR, DT_REG, filepathJoin_absPath comps n hc hn,
        fastWalk_some, hO, hF, Tree.emit]
      simp
  | .closedDir, comps, n, fuel, hc, hn, _, hp, hf => by
    obtain ⟨k, rfl⟩ : ∃ k, fuel = k + 1 := ⟨fuel - 1, by rw [Tree.need] at hf; omega⟩
    simp only [Tree.presentsAt, Option.isNone_iff_eq_none] at hp
    simp only [walkDirent, Tree.dtype, DT_DIR, DT_REG, filepathJoin_absPath comps n hc hn,
      fastWalk_some, walkOpen, hp, Tree.emit]
    simp
  | .link referent target mode t, comps, n, fuel, hc, hn, hw, hp, hf => by
    rw [Tree.need] at hf
    have hpos := Tree.need_pos t
    obtain ⟨k, rfl⟩ : ∃ k, fuel = k + 1 := ⟨fuel - 1, by omega⟩
    rw [Tree.wf] at hw
    simp only [Tree.presentsAt, Bool.and_eq_true, beq_iff_eq, decide_eq_true_eq,
      List.all_eq_true] at hp
    obtain ⟨⟨⟨⟨hr, hne⟩, hg⟩, hv⟩, hpo⟩ := hp
    have hO := walkOpen_tree os t target k hv hw hpo (by omega)
    rw [Tree.dtype, walkDirent_link (fastWalk os (k + 1)) os (absPath comps) n referent
      (by rw [filepathJoin_absPath comps n hc hn]; exact hr) hne, fastWalk_none, hg]
    simp only [filepathClean_absPath target hv, hO, Tree.emit]
  | .brokenLink referent, comps, n, fuel, hc, hn, _, hp, hf => by
    obtain ⟨k, rfl⟩ : ∃ k, fuel = k + 1 := ⟨fuel - 1, by rw [Tree.need] at hf; omega⟩
    simp only [Tree.presentsAt, Bool.and_eq_true, beq_iff_eq, decide_eq_true_eq,
      Option.isNone_iff_eq_none] at hp
    obtain ⟨⟨hr, hne⟩, hg⟩ := hp
    rw [Tree.dtype, walkDirent_link (fastWalk os (k + 1)) os (absPath comps) n referent
      (by rw [filepathJoin_absPath comps n hc hn]; exact hr) hne, fastWalk_none, hg]
    simp only [Tree.emit]
theorem walkOpen_tree (os : OS) :
    ∀ (t : Tree) (comps : List Str) (fuel : Nat),
      (∀ c ∈ comps, validName c = true) → t.wf = true →
      t.presentsOpen os comps = true → t.need ≤ fuel + 1 →
      walkOpen (fastWalk os fuel) os (absPath comps) = ⟨t.contents comps, .ok⟩
  | .file, comps, fuel, _, _, hp, _ => by
    rw [Tree.presentsOpen] at hp
    cases ho : os.openDir (absPath comps) with
    | none => simp [walkOpen, ho, Tree.contents]
    | some blocks =>
      simp only [ho, beq_iff_eq] at hp
      rw [walkOpen_of_dirents (fastWalk os fuel) os _ blocks _ ho hp]
      simp [walkDirents, Tree.contents]
  | .unknown, comps, fuel, _, _, hp, _ => by
    rw [Tree.presentsOpen] at hp
    cases ho : os.openDir (absPath comps) with
    | none => simp [walkOpen, ho, Tree.contents]
    | some blocks =>
      simp only [ho, beq_iff_eq] at hp
      rw [walkOpen_of_dirents (fastWalk os fuel) os _ blocks _ ho hp]
      simp [walkDirents, Tree.contents]
  | .special _, comps, fuel, _, _, hp, _ => by
    rw [Tree.presentsOpen] at hp
    cases ho : os.openDir (absPath comps) with
    | none => simp [walkOpen, ho, Tree.contents]
    | some blocks =>
      simp only [ho, beq_iff_eq] at hp
      rw [walkOpen_of_dirents (fastWalk os fuel) os _ blocks _ ho hp]
      simp [walkDirents, Tree.contents]
  | .dir es, comps, fuel, hc, hw, hp, hf => by
    rw [Tree.need] at hf
    rw [Tree.wf] at hw
    rw [Tree.presentsOpen] at hp
    cases ho : os.openDir (absPath comps) with
    | none => simp [ho] at hp
    | some blocks =>
      simp only [ho, Bool.and_eq_true, beq_iff_eq] at hp
      rw [walkOpen_of_dirents (fastWalk os fuel) os _ blocks _ ho hp.1,
        walkDirents_forest os es comps fuel hc hw hp.2 (by omega), Tree.contents]
  | .closedDir, comps, fuel, _, _, hp, _ => by
    simp only [Tree.presentsOpen, Option.isNone_iff_eq_none] at hp
    simp [walkOpen, hp, Tree.contents]
  | .link _ _ _ _, comps, fuel, _, _, hp, _ => by
    simp [Tree.presentsOpen] at hp
  | .brokenLink _, comps, fuel, _, _, hp, _ => by
    simp [Tree.presentsOpen] at hp
theorem walkDirents_forest (os : OS) :
    ∀ (es : Forest) (comps : List Str) (fuel : Nat),
      (∀ c ∈ comps, validName c = true) → es.wf = true →
      es.presents os comps = true → es.need ≤ fuel →
      walkDirents (fastWalk os fuel) os (absPath comps) es.dirents =
        ⟨es.listing comps, .ok⟩
  | .nil, comps, fuel, _, _, _, _ => by
    simp [Forest.dirents, walkDirents, Forest.listing]
  | .cons n t rest, comps, fuel, hc, hw, hp, hf => by
    simp only [Forest.wf, Bool.and_eq_true] at hw
    obtain ⟨⟨⟨hn, _⟩, hwt⟩, hwr⟩ := hw
    simp only [Forest.presents, Bool.and_eq_true] at hp
    rw [Forest.need] at hf
    rw [Forest.dirents, walkDirents_cons, if_pos (notDot_of_valid n _ hn),
      walkDirent_tree os t comps n fuel hc hn hwt hp.1 (le_trans (le_max_left _ _) hf),
      walkDirents_forest os rest comps fuel hc hwr hp.2 (le_trans (le_max_right _ _) hf),
      Walk.seq_ok, Forest.listing]
end

/-! ## Lemmas on the listing of a tree of files and directories -/

mutual
theorem Tree.emit_length :
    ∀ (t : Tree) (comps : List Str) (n : Str), t.plain = true →
      (t.emit comps n).length = t.files + t.dirs
  | .file, _, _, _ => by simp [Tree.emit, Tree.files, Tree.dirs]
  | .dir es, comps, n, hp => by
    rw [Tree.plain] at hp
    simp only [Tree.emit, Tree.files, Tree.dirs, List.length_cons,
      Forest.listing_length es (comps ++ [n]) hp]
    omega
  | .unknown, _, _, hp => by simp [Tree.plain] at hp
  | .special _, _, _, hp => by simp [Tree.plain] at hp
  | .closedDir, _, _, hp => by simp [Tree.plain] at hp
  | .link _ _ _ _, _, _, hp => by simp [Tree.plain] at hp
  | .brokenLink _, _, _, hp => by simp [Tree.plain] at hp
theorem Forest.listing_length :
    ∀ (es : Forest) (comps : List Str), es.plain = true →
      (es.listing comps).length = es.files + es.dirs
  | .nil, _, _ => by simp [Forest.listing, Forest.files, Forest.dirs]
  | .cons n t rest, comps, hp => by
    simp only [Forest.plain, Bool.and_eq_true] at hp
    simp only [Forest.listing, Forest.files, Forest.dirs, List.length_append,
      Tree.emit_length t comps n hp.1, Forest.listing_length rest comps hp.2]
    omega
end

mutual
theorem Tree.emit_path :
    ∀ (t : Tree) (comps : List Str) (n : Str), t.plain = true → t.wf = true →
      ∀ e ∈ t.emit comps n, ∃ more : List Str,
        (∀ c ∈ more, validName c = true) ∧ e.Path = absPath (comps ++ n :: more)
  | .file, comps, n, _, _ => by
    intro e he
    simp only [Tree.emit, List.mem_singleton] at he
    exact ⟨[], by simp, by rw [he]⟩
  | .dir es, comps, n, hp, hw => by
    intro e he
    rw [Tree.plain] at hp
    rw [Tree.wf] at hw
    simp only [Tree.emit, List.mem_cons] at he
    rcases he with he | he
    · exact ⟨[], by simp, by rw [he]⟩
    · obtain ⟨n2, more, _, hn2, hm, hpath⟩ := Forest.listing_path es (comps ++ [n]) hp hw e he
      refine ⟨n2 :: more, ?_, by simpa using hpath⟩
      intro c hc
      rcases List.mem_cons.1 hc with h | h
      · rw [h]
        exact hn2
      · exact hm c h
  | .unknown, _, _, hp, _ => by simp [Tree.plain] at hp
  | .special _, _, _, hp, _ => by simp [Tree.plain] at hp
  | .closedDir, _, _, hp, _ => by simp [Tree.plain] at hp
  | .link _ _ _ _, _, _, hp, _ => by simp [Tree.plain] at hp
  | .brokenLink _, _, _, hp, _ => by simp [Tree.plain] at hp
theorem Forest.listing_path :
    ∀ (es : Forest) (comps : List Str), es.plain = true → es.wf = true →
      ∀ e ∈ es.listing comps, ∃ (n : Str) (more : List Str),
        n ∈ es.names ∧ validName n = true ∧ (∀ c ∈ more, validName c = true) ∧
          e.Path = absPath (comps ++ n :: more)
  | .nil, _, _, _ => by
    intro e he
    simp [Forest.listing] at he
  | .cons n t rest, comps, hp, hw => by
    intro e he
    simp only [Forest.plain, Bool.and_eq_true] at hp
    simp only [Forest.wf, Bool.and_eq_true] at hw
    obtain ⟨⟨⟨hn, _⟩, hwt⟩, hwr⟩ := hw
    simp only [Forest.listing, List.mem_append] at he
    rcases he with he | he
    · obtain ⟨more, hm, hpath⟩ := Tree.emit_path t comps n hp.1 hwt e he
      exact ⟨n, more, by simp [Forest.names], hn, hm, hpath⟩
    · obtain ⟨n2, more, hmem, hn2, hm, hpath⟩ := Forest.listing_path rest comps hp.2 hwr e he
      exact ⟨n2, more, by simp [Forest.names, hmem], hn2, hm, hpath⟩
end

theorem valid_append (comps more : List Str) (h1 : ∀ c ∈ comps, validName c = true)
    (h2 : ∀ c ∈ more, validName c = true) : ∀ c ∈ comps ++ more, validName c = true := by
  intro c hc
  rcases List.mem_append.1 hc with h | h
  · exact h1 c h
  · exact h2 c h

mutual
theorem Tree.emit_nodup :
    ∀ (t : Tree) (comps : List Str) (n : Str), (∀ c ∈ comps, validName c = true) →
      validName n = true → t.plain = true → t.wf = true →
      ((t.emit comps n).map FilePathMode.Path).Nodup
  | .file, _, _, _, _, _, _ => by simp [Tree.emit]
  | .dir es, comps, n, hc, hn, hp, hw => by
    rw [Tree.plain] at hp
    rw [Tree.wf] at hw
    have hc2 : ∀ c ∈ comps ++ [n], validName c = true :=
      valid_append comps [n] hc (by simpa using hn)
    simp only [Tree.emit, List.map_cons, List.nodup_cons, List.mem_map, not_exists, not_and]
    refine ⟨?_, Forest.listing_nodup es (comps ++ [n]) hc2 hp hw⟩
    intro e he hpath
    obtain ⟨n2, more, _, hn2, hm, hpath2⟩ := Forest.listing_path es (comps ++ [n]) hp hw e he
    rw [hpath2] at hpath
    have := absPath_injective _ _
      (valid_append _ (n2 :: more) hc2 (by
        intro c hcm
        rcases List.mem_cons.1 hcm with h | h
        · rw [h]
          exact hn2
        · exact hm c h)) hc2 hpath
    have hl := congrArg List.length this
    simp at hl
  | .unknown, _, _, _, _, hp, _ => by simp [Tree.plain] at hp
  | .special _, _, _, _, _, hp, _ => by simp [Tree.plain] at hp
  | .closedDir, _, _, _, _, hp, _ => by simp [Tree.plain] at hp
  | .link _ _ _ _, _, _, _, _, hp, _ => by simp [Tree.plain] at hp
  | .brokenLink _, _, _, _, _, hp, _ => by simp [Tree.plain] at hp
theorem Forest.listing_nodup :
    ∀ (es : Forest) (comps : List Str), (∀ c ∈ comps, validName c = true) →
      es.plain = true → es.wf = true →
      ((es.listing comps).map FilePathMode.Path).Nodup
  | .nil, _, _, _, _ => by simp [Forest.listing]
  | .cons n t rest, comps, hc, hp, hw => by
    simp only [Forest.plain, Bool.and_eq_true] at hp
    simp only [Forest.wf, Bool.and_eq_true, Bool.not_eq_true', List.contains_eq_any_beq,
      List.any_eq_false, beq_iff_eq] at hw
    obtain ⟨⟨⟨hn, hnot⟩, hwt⟩, hwr⟩ := hw
    rw [Forest.listing, List.map_append, List.nodup_append]
    refine ⟨Tree.emit_nodup t comps n hc hn hp.1 hwt,
      Forest.listing_nodup rest comps hc hp.2 hwr, ?_⟩
    intro p hp1 hp2
    obtain ⟨e1, he1, rfl⟩ := List.mem_map.1 hp1
    obtain ⟨e2, he2, heq⟩ := List.mem_map.1 hp2
    obtain ⟨more1, hm1, hpath1⟩ := Tree.emit_path t comps n hp.1 hwt e1 he1
    obtain ⟨n2, more2, hmem, hn2, hm2, hpath2⟩ := Forest.listing_path rest comps hp.2 hwr e2 he2
    rw [hpath1, hpath2] at heq
    have hv : ∀ (a : Str) (l : List Str), validName a = true →
        (∀ c ∈ l, validName c = true) → ∀ c ∈ comps ++ a :: l, validName c = true := by
      intro a l ha hl
      apply valid_append comps (a :: l) hc
      intro c hcm
      rcases List.mem_cons.1 hcm with h | h
      · rw [h]
        exact ha
      · exact hl c h
    have := absPath_injective _ _ (hv n2 more2 hn2 hm2) (hv n more1 hn hm1) heq
    have h3 := List.append_cancel_left this
    simp only [List.cons.injEq] at h3
    exact hnot n2 hmem (by simp [h3.1])
end

/-! ## Claims on `fastWalk` -/

theorem hasPrefixStr_append (sub t : Str) : hasPrefixStr (sub ++ t) sub = true := by
  induction sub with
  | nil => cases t <;> rfl
  | cons c sub ih => simp [hasPrefixStr, ih]

theorem stringsIndex_nonneg (pre sub post : Str) :
    0 ≤ stringsIndex (pre ++ sub ++ post) sub := by
  induction pre with
  | nil =>
    cases h : sub ++ post with
    | nil =>
      obtain ⟨hs, hp⟩ := List.append_eq_nil.1 h
      subst hs hp
      simp [stringsIndex]
    | cons c s =>
      rw [List.nil_append, h, stringsIndex, ← h, hasPrefixStr_append]
      simp
  | cons c pre ih =>
    rw [List.cons_append, List.cons_append, stringsIndex]
    dsimp only
    split_ifs <;> omega

theorem ulist_holds (cur : List Str) (u : Str) (h : u ∈ cur) :
    ∃ pre post, ",".toList ++ stringsJoin cur ",".toList ++ ",".toList =
      pre ++ (",".toList ++ u ++ ",".toList) ++ post := by
  induction cur with
  | nil => simp at h
  | cons a rest ih =>
    cases rest with
    | nil =>
      simp only [List.mem_singleton] at h
      subst h
      exact ⟨[], [], by simp [stringsJoin]⟩
    | cons b rest =>
      rcases List.mem_cons.1 h with h1 | h1
      · subst h1
        exact ⟨[], stringsJoin (b :: rest) ",".toList ++ ",".toList, by simp [stringsJoin]⟩
      · obtain ⟨pre, post, hpp⟩ := ih h1
        refine ⟨",".toList ++ u.take 0 ++ a ++ pre, post, ?_⟩
        rw [stringsJoin]
        have e : ",".toList ++ (a ++ ",".toList ++ stringsJoin (b :: rest) ",".toList) ++
            ",".toList = ",".toList ++ a ++
              (",".toList ++ stringsJoin (b :: rest) ",".toList ++ ",".toList) := by
          simp only [List.append_assoc]
        rw [e, hpp]
        simp only [List.take_zero, List.append_nil, List.append_assoc]

theorem countNewUser_of_all_mem (cur users : List Str) (n : Nat) (h : ∀ u ∈ users, u ∈ cur) :
    countNewUser (",".toList ++ stringsJoin cur ",".toList ++ ",".toList) users n = n := by
  induction users with
  | nil => rfl
  | cons u users ih =>
    obtain ⟨pre, post, hpp⟩ := ulist_holds cur u (h u (by simp))
    have hidx := stringsIndex_nonneg pre (",".toList ++ u ++ ",".toList) post
    rw [← hpp] at hidx
    rw [countNewUser, if_neg (not_lt.2 hidx)]
    exact ih (fun x hx => h x (List.mem_cons_of_mem _ hx))

theorem countNew_of_satisfied (rolesNow roles : RoleMap) (n : Nat)
    (h : ∀ r users, (r, users) ∈ roles →
      ∃ cur, rolesNow.get r = some cur ∧ ∀ u ∈ users, u ∈ cur) :
    countNew rolesNow roles n = n := by
  induction roles generalizing n with
  | nil => rfl
  | cons p rest ih =>
    obtain ⟨r, users⟩ := p
    obtain ⟨cur, hget, hall⟩ := h r users (by simp)
    rw [countNew, hget]
    simp only
    rw [countNewUser_of_all_mem cur users n hall]
    exact ih n (fun r2 u2 hm => h r2 u2 (List.mem_cons_of_mem _ hm))

theorem mainChecks_error_events (env : MainEnv) (evs : List Event)
    (h : mainChecks env = .error evs) :
    ∀ e ∈ evs, e = Event.usage ∨ (∃ msg, e = Event.fatal msg) ∨ e = Event.panicked ∨
      ∃ k, e = Event.exit k := by
  unfold mainChecks at h
  dsimp only at h
  repeat' split at h
  all_goals cases h
  all_goals simp

theorem mem_startedBy (env : MainEnv) (paths : List Str) (e : Event)
    (h : e ∈ startedBy env paths) : ∃ p, e = Event.apply p := by
  unfold startedBy at h
  split_ifs at h
  · obtain ⟨p, _, hp⟩ := List.mem_map.1 h
    exact ⟨p, hp.symm⟩
  · simp at h

theorem mem_mainLaunch (env : MainEnv) (c : Checked) (e : Event) :
    e ∈ mainLaunch env c ↔
      e = Event.signalNotify ∨ e = Event.goFastWalk c.ppath ∨ e = Event.goSetRoles c.roles ∨
        e = Event.goPrintOut env.optsTraverse ∨
        e = Event.goSetRoles (traverseRoleMap c.usersT) ∨ e = Event.goPrintOut false := by
  simp [mainLaunch]

theorem getLast?_append_singleton (l : List Event) (e : Event) :
    (l ++ [e]).getLast? = some e := by
  simp

theorem mainPipeline_selected (env : MainEnv) (c : Checked) (release pre : List Event)
    (o : SelectOutcome) (hrel : ∀ e ∈ release, ∀ o2, e ≠ Event.selected o2)
    (h : Event.selected o ∈ mainPipeline env c release) :
    o = env.select ∧
      (pre ++ mainPipeline env c release).getLast? = some (Event.exit (exitCodeOf o)) := by
  unfold mainPipeline at h ⊢
  split_ifs at h ⊢ with h1 h2
  · simp only [List.mem_append, List.mem_cons, reduceCtorEq, List.not_mem_nil, or_false,
      false_or] at h
    exact absurd rfl (hrel _ h o)
  · simp at h
  · simp only [List.mem_append, List.mem_singleton] at h
    have ho : o = env.select := by
      rcases h with ((((h | h) | h) | h) | h) | h
      · simp [mainLaunch] at h
      · obtain ⟨p, hp⟩ := mem_startedBy env _ _ h
        cases hp
      · cases h
        rfl
      · exact absurd rfl (hrel _ h o)
      · cases hs : env.select with
        | signal s =>
          rw [hs] at h
          obtain ⟨p, hp⟩ := mem_startedBy env _ _ h
          cases hp
        | drained =>
          rw [hs] at h
          simp at h
      · cases h
    refine ⟨ho, ?_⟩
    rw [ho, ← List.append_assoc pre]
    exact getLast?_append_singleton _ _

theorem mainChecks_demoEnv (mode : FileMode) (rolesNow : RoleMap) (sel : SelectOutcome) :
    mainChecks (demoEnv mode rolesNow sel) = .ok (demoChecked mode rolesNow) := rfl

theorem goPrintOutLoop_from (isSame : Str → Str → Bool)
    (getPaths : Str → RoleMap → List FilePathMode) (ppath : Str) (rolesT : RoleMap)
    (chanOut : List RolePathMap) (st : PrintOut) :
    chanOut.foldl (goPrintOutStep isSame getPaths ppath true rolesT) st =
      ⟨st.counter + chanOut.length,
        st.calls ++ (chanOut.filter (fun o => !isSame o.Path ppath)).map RolePathMap.Path,
        st.chanFt ++ ((chanOut.filter (fun o => !isSame o.Path ppath)).map
          RolePathMap.Path).flatMap (fun p => getPaths p rolesT)⟩ := by
  induction chanOut generalizing st with
  | nil => simp
  | cons o rest ih =>
    rw [List.foldl_cons, ih]
    by_cases h : isSame o.Path ppath = true
    · simp [goPrintOutStep, h]
      omega
    · simp only [Bool.not_eq_true] at h
      simp [goPrintOutStep, h, PrintOut.resolve]
      omega

/-! ## Claims on `main` and `goPrintOut` -/

/-- C7: in a run of `main` that reaches the pre-check, if every role of the requested role
map is a key of the role map `rolesNow` of the root path and every requested user of that
role is in the current user list of that role, the count `n` is 0; and if `force` is not set,
`main` warns that there is nothing to do and exits with status 0, having taken no lock and
started no walk and no role application. -/
theorem precheck_nothing_to_do (env : MainEnv) (c : Checked)
    (hc : mainChecks env = .ok c)
    (hperm : (env.rangeRoles c.roles).Perm c.roles)
    (hsat : ∀ r users, (r, users) ∈ c.roles →
      ∃ cur, c.rolesNow.get r = some cur ∧ ∀ u ∈ users, u ∈ cur) :
    countNew c.rolesNow (env.rangeRoles c.roles) 0 = 0 ∧
      (env.optsForce = false →
        main env = [Event.warnNothingToDo, Event.exit 0] ∧
        ∀ e ∈ main env, (∀ f, e ≠ Event.lockAcquired f) ∧ (∀ p, e ≠ Event.goFastWalk p) ∧
          (∀ roles, e ≠ Event.goSetRoles roles)) := by
  have hn : countNew c.rolesNow (env.rangeRoles c.roles) 0 = 0 :=
    countNew_of_satisfied c.rolesNow _ 0 (fun r users hm => hsat r users (hperm.mem_iff.1 hm))
  refine ⟨hn, fun hforce => ?_⟩
  have hmain : main env = [Event.warnNothingToDo, Event.exit 0] := by
    rw [main, hc]
    simp only [mainFrom]
    rw [if_pos ⟨hn, hforce⟩]
  rw [hmain]
  simp

theorem precheck_nothing_to_do_witness :
    countNew (demoChecked ModeDir
        [(Role.Viewer, ["bob".toList]), (Role.Contributor, ["carol".toList, "alice".toList])]).rolesNow
        ((demoEnv ModeDir
          [(Role.Viewer, ["bob".toList]), (Role.Contributor, ["carol".toList, "alice".toList])]
          SelectOutcome.drained).rangeRoles
          (demoChecked ModeDir [(Role.Viewer, ["bob".toList]),
            (Role.Contributor, ["carol".toList, "alice".toList])]).roles) 0 = 0 ∧
      main (demoEnv ModeDir
        [(Role.Viewer, ["bob".toList]), (Role.Contributor, ["carol".toList, "alice".toList])]
        SelectOutcome.drained) = [Event.warnNothingToDo, Event.exit 0] :=
  have h := precheck_nothing_to_do
    (demoEnv ModeDir
      [(Role.Viewer, ["bob".toList]), (Role.Contributor, ["carol".toList, "alice".toList])]
      SelectOutcome.drained)
    (demoChecked ModeDir
      [(Role.Viewer, ["bob".toList]), (Role.Contributor, ["carol".toList, "alice".toList])])
    rfl (List.Perm.refl _)
    (by
      intro r users hm
      simp only [demoChecked, List.mem_cons, Prod.mk.injEq, List.mem_singleton,
        List.not_mem_nil, or_false] at hm
      rcases hm with ⟨rfl, rfl⟩ | ⟨rfl, rfl⟩
      · exact ⟨_, rfl, by decide⟩
      · exact ⟨_, rfl, by decide⟩)
  ⟨h.1, (h.2 rfl).1⟩

/-- C9: in every run of `main` whose final `select` receives a handled signal (`SIGABRT`,
`SIGHUP`, `SIGTERM` or `SIGINT`), the process exits with that signal's number; in every run
whose `select` sees the stage-2 output drained and closed, the process exits with 0. -/
theorem exit_code_of_select (env : MainEnv) :
    (∀ s ∈ signalHandled, Event.selected (SelectOutcome.signal s) ∈ main env →
        (main env).getLast? = some (Event.exit s)) ∧
      (Event.selected SelectOutcome.drained ∈ main env →
        (main env).getLast? = some (Event.exit 0)) := by
  have key : ∀ o, Event.selected o ∈ main env →
      (main env).getLast? = some (Event.exit (exitCodeOf o)) := by
    intro o hmem
    rw [main] at hmem ⊢
    cases hc : mainChecks env with
    | error evs =>
      rw [hc] at hmem
      simp only at hmem
      rcases mainChecks_error_events env evs hc _ hmem with h | ⟨_, h⟩ | h | ⟨_, h⟩ <;> cases h
    | ok c =>
      rw [hc] at hmem
      simp only at hmem ⊢
      unfold mainFrom at hmem ⊢
      split_ifs at hmem ⊢ with h1 h2
      · simp at hmem
      · cases ha : env.acquireLock (lockPath c) with
        | some e =>
          rw [ha] at hmem
          simp at hmem
        | none =>
          rw [ha] at hmem
          simp only at hmem ⊢
          rcases List.mem_cons.1 hmem with h | h
          · cases h
          · exact (mainPipeline_selected env c _ [Event.lockAcquired (lockPath c)] o
              (by simp) h).2
      · exact (mainPipeline_selected env c [] [] o (by simp) hmem).2
  exact ⟨fun s _ h => key _ h, fun h => key _ h⟩

theorem exit_code_of_select_witness :
    (main (demoEnv ModeDir [] (SelectOutcome.signal SIGTERM))).getLast? =
        some (Event.exit 15) ∧
      (main (demoEnv ModeDir [] SelectOutcome.drained)).getLast? = some (Event.exit 0) :=
  ⟨(exit_code_of_select (demoEnv ModeDir [] (SelectOutcome.signal SIGTERM))).1 SIGTERM
      (by decide) (by decide),
    (exit_code_of_select (demoEnv ModeDir [] SelectOutcome.drained)).2 (by decide)⟩

/-- C10: with traverse resolution enabled, the loop of `goPrintOut` over the stage-1 output
hands to `GetPathsForSetTraverse` exactly the output paths for which `IsSameProjectPath(path,
ppath)` is false, once per such output and in order, and sends what those calls produce: an
output path is resolved in the loop if and only if it is not the same project path as the
root. -/
theorem goPrintOut_resolves_deviating_paths (isSame : Str → Str → Bool)
    (getPaths : Str → RoleMap → List FilePathMode) (ppath : Str) (rolesT : RoleMap)
    (chanOut : List RolePathMap) :
    (goPrintOutLoop isSame getPaths ppath true rolesT chanOut).calls =
        (chanOut.filter (fun o => !isSame o.Path ppath)).map RolePathMap.Path ∧
      (goPrintOutLoop isSame getPaths ppath true rolesT chanOut).chanFt =
        (goPrintOutLoop isSame getPaths ppath true rolesT chanOut).calls.flatMap
          (fun p => getPaths p rolesT) ∧
      ∀ o ∈ chanOut,
        (o.Path ∈ (goPrintOutLoop isSame getPaths ppath true rolesT chanOut).calls ↔
          isSame o.Path ppath = false) := by
  rw [goPrintOutLoop, goPrintOutLoop_from]
  refine ⟨by simp, by simp, ?_⟩
  intro o ho
  simp only [List.nil_append, List.mem_map, List.mem_filter, Bool.not_eq_true']
  constructor
  · rintro ⟨o2, ⟨_, h2⟩, h3⟩
    rw [← h3]
    exact h2
  · intro h
    exact ⟨o, ⟨ho, h⟩, rfl⟩

theorem goPrintOut_resolves_deviating_paths_witness :
    (goPrintOutLoop (fun p q => p.take 8 == q.take 8) (fun p _ => [⟨p.take 2, ModeDir⟩])
        "/p/30100/x".toList true [] [⟨"/p/30100/x/a".toList, []⟩, ⟨"/p/30200/y".toList, []⟩]).calls =
      ["/p/30200/y".toList] :=
  (goPrintOut_resolves_deviating_paths (fun p q => p.take 8 == q.take 8)
    (fun p _ => [⟨p.take 2, ModeDir⟩]) "/p/30100/x".toList [] 
    [⟨"/p/30100/x/a".toList, []⟩, ⟨"/p/30200/y".toList, []⟩]).1.trans (by decide)

/-! ## Lemmas for the second group of claims -/

theorem goPrintOutLoop_off (isSame : Str → Str → Bool)
    (getPaths : Str → RoleMap → List FilePathMode) (ppath : Str) (rolesT : RoleMap)
    (chanOut : List RolePathMap) (st : PrintOut) :
    chanOut.foldl (goPrintOutStep isSame getPaths ppath false rolesT) st =
      ⟨st.counter + chanOut.length, st.calls, st.chanFt⟩ := by
  induction chanOut generalizing st with
  | nil => simp
  | cons o rest ih =>
    rw [List.foldl_cons, ih]
    simp [goPrintOutStep]
    omega

theorem goSetRoles_nil (getRoler : FilePathMode → Option Roler) (roles : RoleMap)
    (nthreads : Int) (sched : List Nat) (hn : 0 ≤ nthreads) :
    goSetRoles getRoler roles [] nthreads sched = some [] := by
  have hperm : ∀ out, out.Perm ([] : List RolePathMap) → out = [] := fun out h => h.eq_nil
  rcases Nat.eq_zero_or_pos nthreads.toNat with h0 | hpos
  · have hrun : ∀ (sched : List Nat) (p : Pool), p.workers = [] →
        Pool.run (updateACL getRoler roles) p sched = p := by
      intro sched
      induction sched with
      | nil => intro p _; rfl
      | cons i sched ih =>
        intro p hp
        have hs : Pool.step (updateACL getRoler roles) p i = p := by
          simp [Pool.step, hp]
        rw [Pool.run, hs, ih p hp]
    simp only [goSetRoles, not_lt.2 hn, if_false, h0, List.replicate_zero]
    rw [hrun sched _ rfl]
    rfl
  · simp only [goSetRoles, not_lt.2 hn, if_false]
    rw [hperm _ (goSetRoles_perm getRoler roles [] nthreads.toNat sched hpos)]

theorem mainChecks_ok (env : MainEnv) (c : Checked) (h : mainChecks env = .ok c) :
    ∃ arg rest pr, env.args = arg :: rest ∧
      c.ppathSym = (if startsWithProjectNumber arg = true then
        filepathJoin [env.optsBase, arg, env.optsPath] else env.abs arg) ∧
      c.ppath = env.evalSymlinks c.ppathSym ∧
      parseRoles env.me env.roleSpec = some pr ∧
      c.roles = pr.roles.getD [] ∧ c.usersT = pr.usersT := by
  unfold mainChecks at h
  dsimp only at h
  split at h
  · cases h
  · next arg rest hargs =>
    split at h
    · cases h
    · next pr hpr =>
      refine ⟨arg, rest, pr, hargs, ?_⟩
      repeat' split at h
      all_goals cases h
      all_goals simp_all

theorem startsWithProjectNumber_iff (s : Str) :
    startsWithProjectNumber s = true ↔
      ∃ ds rest, s = ds ++ rest ∧ 7 ≤ ds.length ∧ ∀ ch ∈ ds, ch.isDigit = true := by
  simp only [startsWithProjectNumber, Bool.and_eq_true, beq_iff_eq, List.all_eq_true]
  constructor
  · rintro ⟨hl, hd⟩
    exact ⟨s.take 7, s.drop 7, (List.take_append_drop 7 s).symm, by omega, hd⟩
  · rintro ⟨ds, rest, rfl, hl, hd⟩
    have ht : (ds ++ rest).take 7 = ds.take 7 := List.take_append_of_le_length hl
    rw [ht]
    refine ⟨by simp [List.length_take]; omega, fun ch hch => hd ch (List.mem_of_mem_take hch)⟩

theorem stringsReplaceAll_char (s : Str) (old new : Char) :
    stringsReplaceAll s old [new] = s.map (fun c => if c = old then new else c) := by
  induction s with
  | nil => rfl
  | cons c cs ih =>
    rw [stringsReplaceAll, ih]
    by_cases h : c = old <;> simp [h]

theorem lookup_unique (roleSpec : List (Role × Str)) (hk : (roleSpec.map Prod.fst).Nodup)
    (r : Role) (s1 s2 : Str) (h1 : (r, s1) ∈ roleSpec) (h2 : (r, s2) ∈ roleSpec) : s1 = s2 := by
  induction roleSpec with
  | nil => simp at h1
  | cons p rest ih =>
    simp only [List.map_cons, List.nodup_cons, List.mem_map, not_exists, not_and] at hk
    rcases List.mem_cons.1 h1 with e1 | e1 <;> rcases List.mem_cons.1 h2 with e2 | e2
    · rw [← e1] at e2
      exact (Prod.mk.inj e2).2.symm
    · subst e1
      exact absurd rfl (hk.1 (r, s2) e2)
    · subst e2
      exact absurd rfl (hk.1 (r, s1) e1)
    · exact ih hk.2 e1 e2

/-! ## Claims on `goPrintOut`, the link target, `parseRoles`, the argument of `main`
and `volName` -/

/-- C11: with traverse resolution enabled, after the loop over the stage-1 output `goPrintOut`
hands to `GetPathsForSetTraverse` the resolved root `ppath` exactly once, whatever the loop
did, and after it the root as given `ppathSym` exactly once if it differs from `ppath` and
not at all if it is equal; what those calls produce is sent after the output of the loop. -/
theorem goPrintOut_resolves_roots (isSame : Str → Str → Bool)
    (getPaths : Str → RoleMap → List FilePathMode) (ppath ppathSym : Str)
    (chanOut : List RolePathMap) (rolesT : RoleMap) :
    (goPrintOut isSame getPaths ppath ppathSym chanOut true rolesT).calls =
        (goPrintOutLoop isSame getPaths ppath true rolesT chanOut).calls ++
          ppath :: (if ppathSym = ppath then [] else [ppathSym]) ∧
      (goPrintOut isSame getPaths ppath ppathSym chanOut true rolesT).chanFt =
        (goPrintOutLoop isSame getPaths ppath true rolesT chanOut).chanFt ++
          getPaths ppath rolesT ++
          (if ppathSym = ppath then [] else getPaths ppathSym rolesT) := by
  by_cases h : ppathSym = ppath
  · have h2 : ¬ ppath ≠ ppathSym := fun hne => hne h.symm
    simp [goPrintOut, PrintOut.resolve, h]
  · have h2 : ppath ≠ ppathSym := fun he => h he.symm
    simp [goPrintOut, PrintOut.resolve, h, h2]

/-- C12: with traverse resolution disabled `goPrintOut` hands no path to
`GetPathsForSetTraverse` and sends no entry on its output, whatever it receives; so in the
pipeline of `main` run with `-t=false` (and a thread count that is not negative) stage 2
receives no entry and applies and emits nothing, and the final `goPrintOut`, which is always
called with resolution disabled, sends nothing either. -/
theorem traverse_disabled_emits_nothing (isSame : Str → Str → Bool)
    (getPaths : Str → RoleMap → List FilePathMode) (getRoler : FilePathMode → Option Roler)
    (c : Checked) (optsNthreads : Int) (chanF : List FilePathMode) (sched1 sched2 : List Nat)
    (hn : 0 ≤ optsNthreads) :
    (∀ (ppath ppathSym : Str) (chanOut : List RolePathMap) (rolesT : RoleMap),
        (goPrintOut isSame getPaths ppath ppathSym chanOut false rolesT).chanFt = [] ∧
        (goPrintOut isSame getPaths ppath ppathSym chanOut false rolesT).calls = []) ∧
      ∃ st, mainStages isSame getPaths getRoler c false optsNthreads chanF sched1 sched2 =
          some st ∧
        st.chanFt = [] ∧ st.chanOutt = [] ∧ st.final.chanFt = [] := by
  have hoff : ∀ (ppath ppathSym : Str) (chanOut : List RolePathMap) (rolesT : RoleMap),
      (goPrintOut isSame getPaths ppath ppathSym chanOut false rolesT).chanFt = [] ∧
      (goPrintOut isSame getPaths ppath ppathSym chanOut false rolesT).calls = [] := by
    intro ppath ppathSym chanOut rolesT
    simp [goPrintOut, goPrintOutLoop, goPrintOutLoop_off]
  refine ⟨hoff, ?_⟩
  obtain ⟨out1, h1⟩ : ∃ out1, goSetRoles getRoler c.roles chanF optsNthreads sched1 =
      some out1 := by
    simp [goSetRoles, not_lt.2 hn]
  have hft := (hoff c.ppath c.ppathSym out1 (traverseRoleMap c.usersT)).1
  refine ⟨⟨out1, [], [], goPrintOut isSame getPaths c.ppath c.ppathSym [] false []⟩, ?_, rfl,
    rfl, (hoff c.ppath c.ppathSym [] []).1⟩
  simp only [mainStages, h1, hft, goSetRoles_nil getRoler _ optsNthreads sched2 hn]

theorem traverse_disabled_emits_nothing_witness :
    ∃ st, mainStages (fun _ _ => false) (fun p _ => [⟨p, ModeDir⟩])
        (fun _ => some ⟨fun _ => .ok [], fun _ roles _ _ => .ok roles⟩)
        (demoChecked ModeDir []) false 2
        [⟨"/project/3010000.01".toList, ModeDir⟩, ⟨"/project/3010000.01/a".toList, 0⟩]
        [0, 1, 0] [1] = some st ∧
      st.chanFt = [] ∧ st.chanOutt = [] ∧ st.final.chanFt = [] :=
  (traverse_disabled_emits_nothing (fun _ _ => false) (fun p _ => [⟨p, ModeDir⟩])
    (fun _ => some ⟨fun _ => .ok [], fun _ roles _ _ => .ok roles⟩)
    (demoChecked ModeDir []) 2
    [⟨"/project/3010000.01".toList, ModeDir⟩, ⟨"/project/3010000.01/a".toList, 0⟩]
    [0, 1, 0] [1] (by decide)).2

/-- With the operator's username known, a role specification (a Go map, so with distinct
keys) in which no listed user is the operator and no user is listed twice makes `parseRoles`
succeed; the role map it returns binds a role exactly when the specification string of that
role is non-empty, and binds it to the pieces of that string between commas, in order; a role
with an empty specification string is not bound. -/
theorem parseRoles_builds (me : Str) (roleSpec : List (Role × Str))
    (hk : (roleSpec.map Prod.fst).Nodup)
    (hme : me ∉ listedUsers roleSpec) (hnd : (listedUsers roleSpec).Nodup) :
    ∃ roles, parseRoles (some me) roleSpec = some ⟨some roles, listedUsers roleSpec, none⟩ ∧
      (∀ r us, roles.get r = some us ↔
        ∃ spec, (r, spec) ∈ roleSpec ∧ spec ≠ [] ∧ us = stringsSplit ',' spec) ∧
      (∀ r, (r, []) ∈ roleSpec → roles.get r = none) := by
  have hsound : ∀ r us, (builtRoles roleSpec []).get r = some us →
      ∃ spec, (r, spec) ∈ roleSpec ∧ spec ≠ [] ∧ us = stringsSplit ',' spec := by
    intro r us h
    rcases builtRoles_get_sound roleSpec [] r us h with h1 | h1
    · simp [RoleMap.get] at h1
    · exact h1
  refine ⟨builtRoles roleSpec [], ?_, ?_, ?_⟩
  · rw [parseRoles, parseRolesLoop_ok me roleSpec [] [] [] hme hnd (by simp)]
    simp
  · intro r us
    constructor
    · exact hsound r us
    · rintro ⟨spec, hm, hne, rfl⟩
      exact builtRoles_get_complete roleSpec [] hk r spec hm hne
  · intro r hm
    cases hg : (builtRoles roleSpec []).get r with
    | none => rfl
    | some us =>
      obtain ⟨spec, hm2, hne, _⟩ := hsound r us hg
      exact absurd (lookup_unique roleSpec hk r spec [] hm2 hm) hne

/-- C17, the defect: the specification `-w dave -u bob,carol` lists no user twice. When
`user.Current()` has failed, `me` is nil and `parseRoles` panics at the first listed user
(line 231) instead of succeeding; with the operator `root` known it returns the role map that
binds `Writer` to `dave` and `Viewer` to `bob`, `carol`, and no other role. -/
theorem parseRoles_valid_panics_without_operator :
    (listedUsers [(Role.Manager, []), (Role.Writer, "dave".toList), (Role.Contributor, []),
        (Role.Viewer, "bob,carol".toList)]).Nodup ∧
      parseRoles none
        [(Role.Manager, []), (Role.Writer, "dave".toList), (Role.Contributor, []),
          (Role.Viewer, "bob,carol".toList)] = none ∧
      parseRoles (some "root".toList)
        [(Role.Manager, []), (Role.Writer, "dave".toList), (Role.Contributor, []),
          (Role.Viewer, "bob,carol".toList)] =
        some ⟨some [(Role.Writer, ["dave".toList]),
            (Role.Viewer, ["bob".toList, "carol".toList])],
          ["dave".toList, "bob".toList, "carol".toList], none⟩ := by
  refine ⟨by decide, by decide, by decide⟩

/-- C18: in a run of `main` that passes its checks, the argument is taken as a project
identifier exactly when it begins with at least seven decimal digits; the path `ppathSym` is
then the join of the storage base, the argument and the sub-path option, and otherwise the
argument made absolute; the path worked on is `ppathSym` with its symbolic links resolved. -/
theorem main_project_argument (env : MainEnv) (c : Checked) (arg : Str) (rest : List Str)
    (hargs : env.args = arg :: rest) (hc : mainChecks env = .ok c) :
    (startsWithProjectNumber arg = true ↔
        ∃ ds tail, arg = ds ++ tail ∧ 7 ≤ ds.length ∧ ∀ ch ∈ ds, ch.isDigit = true) ∧
      (startsWithProjectNumber arg = true →
        c.ppathSym = filepathJoin [env.optsBase, arg, env.optsPath]) ∧
      (startsWithProjectNumber arg = false → c.ppathSym = env.abs arg) ∧
      c.ppath = env.evalSymlinks c.ppathSym := by
  obtain ⟨arg2, rest2, _, hargs2, hsym, hpath, _⟩ := mainChecks_ok env c hc
  rw [hargs] at hargs2
  obtain ⟨rfl, -⟩ := List.cons.inj hargs2
  refine ⟨startsWithProjectNumber_iff arg, ?_, ?_, hpath⟩
  · intro h
    rw [hsym, if_pos h]
  · intro h
    rw [hsym, if_neg (by simp [h])]

theorem main_project_argument_witness :
    (demoChecked ModeDir []).ppathSym =
      filepathJoin ["/project".toList, "3010000.01".toList, []] :=
  (main_project_argument (demoEnv ModeDir [] SelectOutcome.drained) (demoChecked ModeDir [])
    "3010000.01".toList [] rfl rfl).2.1 (by decide)

/-- C20: `volName` returns `project_` followed by the project identifier with every `.`
replaced by `_`; the result holds no `.`; `3010000.01` gives `project_3010000_01`. -/
theorem volName_spec (projectID : Str) :
    volName projectID =
        "project_".toList ++ projectID.map (fun ch => if ch = '.' then '_' else ch) ∧
      '.' ∉ volName projectID ∧
      volName "3010000.01".toList = "project_3010000_01".toList := by
  have h : volName projectID =
      "project_".toList ++ projectID.map (fun ch => if ch = '.' then '_' else ch) := by
    rw [volName, show "_".toList = ['_'] from rfl, stringsReplaceAll_char]
    rfl
  refine ⟨h, ?_, by decide⟩
  rw [h]
  intro hmem
  rcases List.mem_append.1 hmem with h1 | h1
  · revert h1
    decide
  · obtain ⟨ch, _, hch⟩ := List.mem_map.1 h1
    by_cases hd : ch = '.'
    · rw [if_pos hd] at hch
      revert hch
      decide
    · rw [if_neg hd] at hch
      exact hd hch

/-! ## Lemmas on a directory that cannot be read -/

/-- C14, the code at the failing input: in `/s` the text of the link `k` cannot be read, so
`os.Readlink` returns the empty string and `[]rune(referent)[0]` panics: the walk stops at
`k`, the file `z` after it is never emitted, and the channel of `GoFastWalk` is not closed. -/
theorem fastWalk_panics_on_unreadable_link :
    fastWalk demoOS3 4 "/s".toList none =
        ⟨[⟨"/s".toList, ModeDir⟩, ⟨"/s/a".toList, 0⟩], .panicked⟩ ∧
      GoFastWalk demoOS3 4 "/s".toList =
        ⟨[⟨"/s".toList, ModeDir⟩, ⟨"/s/a".toList, 0⟩], false⟩ := by
  constructor <;> decide

/-- C19, the code at the failing input: the project entry `/project/3010000.01` is a link
with the relative text `vol/3010000.01`, so it points to `/project/vol/3010000.01`, which
exists; `resolveAndCheckProjectPath` joins the text to the path of the link itself, looks for
`/project/3010000.01/vol/3010000.01` and fails. -/
theorem resolveAndCheckProjectPath_joins_link_path :
    resolveAndCheckProjectPath demoProjectOS ⟨"3010000.01".toList, ModeSymlink + 511⟩ =
        some (.error ("project path not found: /project/3010000.01/vol/3010000.01".toList ++
          ", reason: no such file or directory".toList)) ∧
      filepathJoin [demoProjectOS.optsBase, "vol/3010000.01".toList] =
        "/project/vol/3010000.01".toList ∧
      demoProjectOS.stat "/project/vol/3010000.01".toList = .ok ModeDir := by
  refine ⟨?_, ?_, ?_⟩
  · rfl
  · decide
  · rfl

/-! ## Lemmas on the entries of a tree -/

mutual
theorem Tree.entriesAt_path :
    ∀ (t : Tree) (comps : List Str) (n : Str), t.wf = true →
      ∀ e ∈ t.entriesAt comps n, ∃ more : List Str,
        (∀ c ∈ more, validName c = true) ∧ e.1 = absPath (comps ++ n :: more)
  | .file, comps, n, _ => by
    intro e he
    simp only [Tree.entriesAt, List.mem_singleton] at he
    exact ⟨[], by simp, by rw [he]⟩
  | .unknown, comps, n, _ => by
    intro e he
    simp only [Tree.entriesAt, List.mem_singleton] at he
    exact ⟨[], by simp, by rw [he]⟩
  | .special _, comps, n, _ => by
    intro e he
    simp only [Tree.entriesAt, List.mem_singleton] at he
    exact ⟨[], by simp, by rw [he]⟩
  | .closedDir, comps, n, _ => by
    intro e he
    simp only [Tree.entriesAt, List.mem_singleton] at he
    exact ⟨[], by simp, by rw [he]⟩
  | .dir es, comps, n, hw => by
    intro e he
    rw [Tree.wf] at hw
    simp only [Tree.entriesAt, List.mem_cons] at he
    rcases he with he | he
    · exact ⟨[], by simp, by rw [he]⟩
    · obtain ⟨n2, more, _, hn2, hm, hpath⟩ := Forest.entries_path es (comps ++ [n]) hw e he
      refine ⟨n2 :: more, ?_, by simpa using hpath⟩
      intro c hc
      rcases List.mem_cons.1 hc with h | h
      · rw [h]
        exact hn2
      · exact hm c h
  | .link _ _ _ _, comps, n, _ => by
    intro e he
    simp only [Tree.entriesAt, List.mem_singleton] at he
    exact ⟨[], by simp, by rw [he]⟩
  | .brokenLink _, comps, n, _ => by
    intro e he
    simp only [Tree.entriesAt, List.mem_singleton] at he
    exact ⟨[], by simp, by rw [he]⟩
theorem Forest.entries_path :
    ∀ (es : Forest) (comps : List Str), es.wf = true →
      ∀ e ∈ es.entries comps, ∃ (n : Str) (more : List Str),
        n ∈ es.names ∧ validName n = true ∧ (∀ c ∈ more, validName c = true) ∧
          e.1 = absPath (comps ++ n :: more)
  | .nil, _, _ => by
    intro e he
    simp [Forest.entries] at he
  | .cons n t rest, comps, hw => by
    intro e he
    simp only [Forest.wf, Bool.and_eq_true] at hw
    obtain ⟨⟨⟨hn, _⟩, hwt⟩, hwr⟩ := hw
    simp only [Forest.entries, List.mem_append] at he
    rcases he with he | he
    · obtain ⟨more, hm, hpath⟩ := Tree.entriesAt_path t comps n hwt e he
      exact ⟨n, more, by simp [Forest.names], hn, hm, hpath⟩
    · obtain ⟨n2, more, hmem, hn2, hm, hpath⟩ := Forest.entries_path rest comps hwr e he
      exact ⟨n2, more, by simp [Forest.names, hmem], hn2, hm, hpath⟩
end

theorem valid_cons (comps : List Str) (a : Str) (l : List Str)
    (hc : ∀ c ∈ comps, validName c = true) (ha : validName a = true)
    (hl : ∀ c ∈ l, validName c = true) : ∀ c ∈ comps ++ a :: l, validName c = true := by
  apply valid_append comps (a :: l) hc
  intro c hcm
  rcases List.mem_cons.1 hcm with h | h
  · rw [h]
    exact ha
  · exact hl c h

/-! ## Lemmas for the third group of claims -/

theorem waitLoop_returned (poll : Nat → Job → Option (Option Str × Job)) (fuel i : Nat)
    (job : Job) (r : Option Str × Job)
    (h : waitLoop poll fuel i none job = .returned r) :
    r.1 = none ∧ (r.2.State = "success".toList ∨ r.2.State = "failure".toList) := by
  induction fuel generalizing i job with
  | zero => simp [waitLoop] at h
  | succ fuel ih =>
    rw [waitLoop] at h
    cases hp : poll i job with
    | none => simp [hp] at h
    | some ej =>
      obtain ⟨e, job1⟩ := ej
      simp only [hp, Option.isSome_none, Bool.false_eq_true, if_false] at h
      by_cases h1 : job1.State = "success".toList
      · rw [if_pos h1] at h
        cases h
        exact ⟨rfl, Or.inl h1⟩
      · rw [if_neg h1] at h
        by_cases h2 : job1.State = "failure".toList
        · rw [if_pos h2] at h
          cases h
          exact ⟨rfl, Or.inr h2⟩
        · rw [if_neg h2] at h
          exact ih (i + 1) job1 h

theorem reportUsers_eq (uid projectID : Str) (r : Role) (users : List Str) :
    reportUsers uid projectID r users = if uid ∈ users then [⟨projectID, r⟩] else [] := by
  induction users with
  | nil => simp [reportUsers]
  | cons u users ih =>
    rw [reportUsers]
    by_cases h : u = uid
    · simp [h]
    · have h2 : ¬ uid = u := fun e => h e.symm
      simp [h, h2, ih]

theorem mem_reportRoleMap (uid dir : Str) (m : RoleMap) (p : ProjectRole) :
    p ∈ reportRoleMap uid dir m ↔
      p.projectID = filepathBase dir ∧ p.role ≠ Role.System ∧
        ∃ users, (p.role, users) ∈ m ∧ uid ∈ users := by
  induction m with
  | nil => simp [reportRoleMap]
  | cons kv rest ih =>
    obtain ⟨r, users⟩ := kv
    rw [reportRoleMap]
    by_cases hs : r = Role.System
    · rw [if_pos hs, ih]
      constructor
      · rintro ⟨h1, h2, us, hm, hu⟩
        exact ⟨h1, h2, us, List.mem_cons_of_mem _ hm, hu⟩
      · rintro ⟨h1, h2, us, hm, hu⟩
        rcases List.mem_cons.1 hm with h | h
        · simp only [Prod.mk.injEq] at h
          exact absurd (h.1.trans hs) h2
        · exact ⟨h1, h2, us, h, hu⟩
    · rw [if_neg hs, List.mem_append, ih, reportUsers_eq]
      constructor
      · rintro (h | ⟨h1, h2, us, hm, hu⟩)
        · by_cases hu : uid ∈ users
          · rw [if_pos hu, List.mem_singleton] at h
            subst h
            exact ⟨rfl, hs, users, by simp, hu⟩
          · rw [if_neg hu] at h
            simp at h
        · exact ⟨h1, h2, us, List.mem_cons_of_mem _ hm, hu⟩
      · rintro ⟨h1, h2, us, hm, hu⟩
        rcases List.mem_cons.1 hm with h | h
        · simp only [Prod.mk.injEq] at h
          obtain ⟨hr, hus⟩ := h
          subst hus
          left
          rw [if_pos hu, List.mem_singleton]
          cases p
          simp only at h1 hr
          subst h1 hr
          rfl
        · exact Or.inr ⟨h1, h2, us, h, hu⟩

theorem reportRoleMap_nodup (uid dir : Str) (m : RoleMap) (hk : m.keys.Nodup) :
    (reportRoleMap uid dir m).Nodup := by
  induction m with
  | nil => simp [reportRoleMap]
  | cons kv rest ih =>
    obtain ⟨r, users⟩ := kv
    simp only [RoleMap.keys, List.map_cons, List.nodup_cons, List.mem_map, not_exists,
      not_and] at hk
    have ih2 := ih hk.2
    rw [reportRoleMap]
    by_cases hs : r = Role.System
    · rw [if_pos hs]
      exact ih2
    · rw [if_neg hs, reportUsers_eq, List.nodup_append]
      refine ⟨by split_ifs <;> simp, ih2, ?_⟩
      intro p hp1 hp2
      by_cases hu : uid ∈ users
      · rw [if_pos hu, List.mem_singleton] at hp1
        obtain ⟨_, _, us, hm, _⟩ := (mem_reportRoleMap uid dir rest p).1 hp2
        rw [hp1] at hm
        exact hk.1 (r, us) hm rfl
      · rw [if_neg hu] at hp1
        simp at hp1

theorem RoleMap.get_eq_some_iff (m : RoleMap) (hk : m.keys.Nodup) (r : Role) (us : List Str) :
    m.get r = some us ↔ (r, us) ∈ m := by
  induction m with
  | nil => simp [RoleMap.get]
  | cons kv rest ih =>
    obtain ⟨k, v⟩ := kv
    simp only [RoleMap.keys, List.map_cons, List.nodup_cons, List.mem_map, not_exists,
      not_and] at hk
    rw [RoleMap.get]
    by_cases h : k = r
    · subst h
      rw [if_pos rfl]
      constructor
      · intro e
        cases e
        simp
      · intro hm
        rcases List.mem_cons.1 hm with e | e
        · cases e
          rfl
        · exact absurd rfl (hk.1 (k, us) e)
    · rw [if_neg h, ih hk.2]
      constructor
      · exact fun hm => List.mem_cons_of_mem _ hm
      · intro hm
        rcases List.mem_cons.1 hm with e | e
        · cases e
          exact absurd rfl h
        · exact e

/-! ## Claims on `Lab`, `waitJob` and `findUserMember` -/

/-- C21: for each of the lab values `EEG`, `MEG` and `MRI`, `Set` applied to the value's
`String()` returns no error and stores that value, whatever the receiver held; and for every
string `v` on which `Set` returns no error, `String()` of the stored value is `v`. -/
theorem lab_set_string_inverse :
    (∀ l0 l : Lab, l = EEG ∨ l = MEG ∨ l = MRI → Lab.Set l0 l.String = (l, none)) ∧
      (∀ (l0 l1 : Lab) (v : Str), Lab.Set l0 v = (l1, none) → l1.String = v) := by
  constructor
  · rintro l0 l (rfl | rfl | rfl) <;> rfl
  · intro l0 l1 v h
    unfold Lab.Set at h
    split_ifs at h with h1 h2 h3
    · cases h
      rw [h1]
      rfl
    · cases h
      rw [h2]
      rfl
    · cases h
      rw [h3]
      rfl
    · cases h

theorem lab_set_string_inverse_witness :
    Lab.Set EEG MRI.String = (MRI, none) ∧ (Lab.Set MRI "MEG".toList).1.String = "MEG".toList :=
  ⟨lab_set_string_inverse.1 EEG MRI (Or.inr (Or.inr rfl)),
    lab_set_string_inverse.2 MRI (Lab.Set MRI "MEG".toList).1 "MEG".toList rfl⟩

/-- C23: whenever `waitJob` returns, the error it returns is nil and the state of the job is
`success` or `failure`, whatever the polls returned; and it does return so as soon as a poll
leaves the job in one of these two states, also when that poll reported an error `e`. -/
theorem waitJob_never_reports_poll_failure (poll : Nat → Job → Option (Option Str × Job))
    (job : Job) :
    (∀ fuel r, waitJob poll fuel job = .returned r →
        r.1 = none ∧ (r.2.State = "success".toList ∨ r.2.State = "failure".toList)) ∧
      (∀ href e job1 fuel, job.Link = some href → poll 0 job = some (e, job1) →
        (job1.State = "success".toList ∨ job1.State = "failure".toList) →
        waitJob poll (fuel + 1) job = .returned (none, job1)) := by
  constructor
  · intro fuel r h
    unfold waitJob at h
    cases hl : job.Link with
    | none => simp [hl] at h
    | some href =>
      simp only [hl] at h
      exact waitLoop_returned poll fuel 0 job r h
  · intro href e job1 fuel hl hp hs
    simp only [waitJob, hl, waitLoop, hp, Option.isSome_none, Bool.false_eq_true, if_false]
    rcases hs with hs | hs
    · rw [if_pos hs]
    · by_cases h1 : job1.State = "success".toList
      · rw [if_pos h1]
      · rw [if_neg h1, if_pos hs]

theorem waitJob_never_reports_poll_failure_witness :
    waitJob (fun i job =>
        if i = 0 then some (some "response not ok".toList, job)
        else if i = 1 then some (none, { job with State := "running".toList })
        else some (some "response not ok".toList, { job with State := "failure".toList }))
      5 ⟨some "/api/cluster/jobs/1".toList, "1".toList, [], []⟩ =
      .returned (none, ⟨some "/api/cluster/jobs/1".toList, "1".toList, "failure".toList, []⟩) ∧
    (none : Option Str) = none ∧
      ("failure".toList = "success".toList ∨ "failure".toList = "failure".toList) :=
  ⟨by decide,
    (waitJob_never_reports_poll_failure (fun i job =>
        if i = 0 then some (some "response not ok".toList, job)
        else if i = 1 then some (none, { job with State := "running".toList })
        else some (some "response not ok".toList, { job with State := "failure".toList }))
      ⟨some "/api/cluster/jobs/1".toList, "1".toList, [], []⟩).1 5
      (none, ⟨some "/api/cluster/jobs/1".toList, "1".toList, "failure".toList, []⟩)
      (by decide)⟩

/-- C25: for the role map of a path under the project directory `dir` (a Go map, so with
distinct keys), `findUserMember` sends on `members` exactly one pair for every role other than
`System` whose user list holds the queried user id, however often the list holds it, with the
base name of `dir` as project id, and nothing else: nothing for `System` and nothing for a role
whose list does not hold the id. -/
theorem findUserMember_reports (uid dir : Str) (roleMap : RoleMap)
    (hk : roleMap.keys.Nodup) :
    (reportRoleMap uid dir roleMap).Nodup ∧
      (∀ p, p ∈ reportRoleMap uid dir roleMap ↔
        p.projectID = filepathBase dir ∧ p.role ≠ Role.System ∧
          ∃ users, roleMap.get p.role = some users ∧ uid ∈ users) ∧
      (∀ (getRoles : Str → Except Str (List RolePathMap)) (path : Str),
        getRoles dir = .ok [⟨path, roleMap⟩] →
        findUserMember getRoles uid [dir] = (reportRoleMap uid dir roleMap, true)) := by
  refine ⟨reportRoleMap_nodup uid dir roleMap hk, ?_, ?_⟩
  · intro p
    rw [mem_reportRoleMap]
    constructor
    · rintro ⟨h1, h2, us, hm, hu⟩
      exact ⟨h1, h2, us, (RoleMap.get_eq_some_iff roleMap hk _ _).2 hm, hu⟩
    · rintro ⟨h1, h2, us, hg, hu⟩
      exact ⟨h1, h2, us, (RoleMap.get_eq_some_iff roleMap hk _ _).1 hg, hu⟩
  · intro getRoles path hg
    simp [findUserMember, hg]

theorem findUserMember_reports_witness :
    (reportRoleMap "bob".toList "/project/3010000.01".toList
        [(Role.System, ["bob".toList]),
          (Role.Viewer, ["alice".toList, "bob".toList, "bob".toList]),
          (Role.Manager, ["carol".toList])]).Nodup ∧
      reportRoleMap "bob".toList "/project/3010000.01".toList
        [(Role.System, ["bob".toList]),
          (Role.Viewer, ["alice".toList, "bob".toList, "bob".toList]),
          (Role.Manager, ["carol".toList])] = [⟨"3010000.01".toList, Role.Viewer⟩] :=
  ⟨(findUserMember_reports "bob".toList "/project/3010000.01".toList
      [(Role.System, ["bob".toList]),
        (Role.Viewer, ["alice".toList, "bob".toList, "bob".toList]),
        (Role.Manager, ["carol".toList])] (by decide)).1, by decide⟩

/-! ## Lemmas on the choice of the aggregate -/

theorem selectAggregate_eq (getAggregate : Record → Option (Option Str × Aggregate))
    (held : Record → Aggregate) (quota : Int)
    (records : List Record) (init : Option Aggregate)
    (hget : ∀ r ∈ records, ∃ e, getAggregate r = some (e, held r)) :
    selectAggregate getAggregate 0 quota records init =
      some (match ((records.map held).filter (usableAggregate quota)).getLast? with
        | some a => some a
        | none => init) := by
  induction records generalizing init with
  | nil => rfl
  | cons record rest ih =>
    obtain ⟨e, he⟩ := hget record (List.mem_cons_self _ _)
    have hrest : ∀ r ∈ rest, ∃ e, getAggregate r = some (e, held r) :=
      fun r hr => hget r (List.mem_cons_of_mem _ hr)
    rw [selectAggregate, he]
    dsimp only
    by_cases h : (held record).State = "online".toList ∧
        (held record).Available > 0 ∧ (held record).Available > quota
    · have hu : usableAggregate quota (held record) = true := by
        simp only [usableAggregate, Bool.and_eq_true, decide_eq_true_eq]
        exact ⟨⟨h.1, h.2.1⟩, h.2.2⟩
      rw [if_pos h, ih _ hrest, List.map_cons, List.filter_cons_of_pos hu]
      cases hr : (List.filter (usableAggregate quota) (rest.map held)) with
      | nil => simp
      | cons a l =>
        have hb : (a :: l).getLast? = some ((a :: l).getLast (by simp)) :=
          List.getLast?_eq_getLast _ _
        simp [List.getLast?_cons_cons, hb]
    · have hu : ¬ usableAggregate quota (held record) = true := by
        simp only [usableAggregate, Bool.and_eq_true, decide_eq_true_eq]
        exact fun hh => h ⟨hh.1.1, hh.1.2, hh.2⟩
      rw [if_neg h, ih _ hrest, List.map_cons, List.filter_cons_of_neg hu]

theorem selectAggregate_panics (getAggregate : Record → Option (Option Str × Aggregate))
    (quota : Int) (records : List Record) (init : Option Aggregate) (r : Record)
    (hr : r ∈ records) (hnone : getAggregate r = none) :
    selectAggregate getAggregate 0 quota records init = none := by
  induction records generalizing init with
  | nil => simp at hr
  | cons record rest ih =>
    rw [selectAggregate]
    cases hg : getAggregate record with
    | none => rfl
    | some p =>
      obtain ⟨e, aggr⟩ := p
      have hmem : r ∈ rest := by
        rcases List.mem_cons.1 hr with h | h
        · rw [h, hg] at hnone
          cases hnone
        · exact h
      dsimp only
      split_ifs
      · exact ih _ hmem
      · exact ih _ hmem

/-! ## Lemmas on the converse of the pre-check -/

theorem hasPrefixStr_elim (s sub : Str) (h : hasPrefixStr s sub = true) :
    ∃ post, s = sub ++ post := by
  induction sub generalizing s with
  | nil => exact ⟨s, rfl⟩
  | cons d sub ih =>
    cases s with
    | nil => simp [hasPrefixStr] at h
    | cons c s =>
      simp only [hasPrefixStr, Bool.and_eq_true, beq_iff_eq] at h
      obtain ⟨post, hp⟩ := ih s h.2
      exact ⟨post, by rw [h.1, hp]; rfl⟩

theorem stringsIndex_elim (s sub : Str) (h : 0 ≤ stringsIndex s sub) :
    ∃ pre post, s = pre ++ sub ++ post := by
  induction s with
  | nil =>
    rw [stringsIndex] at h
    by_cases hs : sub = []
    · exact ⟨[], [], by simp [hs]⟩
    · rw [if_neg hs] at h
      omega
  | cons c s ih =>
    rw [stringsIndex] at h
    by_cases hp : hasPrefixStr (c :: s) sub = true
    · obtain ⟨post, hpost⟩ := hasPrefixStr_elim _ _ hp
      exact ⟨[], post, by rw [hpost]; rfl⟩
    · rw [if_neg hp] at h
      dsimp only at h
      by_cases hi : stringsIndex s sub < 0
      · rw [if_pos hi] at h
        omega
      · obtain ⟨pre, post, hpp⟩ := ih (not_lt.1 hi)
        exact ⟨c :: pre, post, by rw [hpp]; rfl⟩

theorem stringsSplit_no_sep (sep : Char) (s : Str) : ∀ p ∈ stringsSplit sep s, sep ∉ p := by
  induction s with
  | nil =>
    intro p hp
    simp only [stringsSplit, List.mem_singleton] at hp
    rw [hp]
    simp
  | cons c cs ih =>
    intro p hp
    rw [stringsSplit_cons] at hp
    by_cases hc : c = sep
    · rw [if_pos hc] at hp
      rcases List.mem_cons.1 hp with h | h
      · rw [h]
        simp
      · exact ih p h
    · rw [if_neg hc] at hp
      cases hs : stringsSplit sep cs with
      | nil => exact absurd hs (stringsSplit_ne_nil sep cs)
      | cons q qs =>
        rw [hs] at hp ih
        rcases List.mem_cons.1 hp with h | h
        · rw [h]
          intro hm
          rcases List.mem_cons.1 hm with e | e
          · exact hc e.symm
          · exact ih q (by simp) e
        · exact ih p (List.mem_cons_of_mem _ h)

theorem stringsSplit_eq_single_nil (sep : Char) (s : Str) (h : stringsSplit sep s = [[]]) :
    s = [] := by
  cases s with
  | nil => rfl
  | cons c cs =>
    rw [stringsSplit_cons] at h
    by_cases hc : c = sep
    · rw [if_pos hc] at h
      simp only [List.cons.injEq, true_and] at h
      exact absurd h (stringsSplit_ne_nil sep cs)
    · rw [if_neg hc] at h
      cases hs : stringsSplit sep cs with
      | nil => exact absurd hs (stringsSplit_ne_nil sep cs)
      | cons q qs =>
        rw [hs] at h
        simp at h

theorem inner_mem (A B M : List Str) (u x y : Str) (hA : A ≠ []) (hB : B ≠ [])
    (h : A ++ [u] ++ B = [x] ++ M ++ [y]) : u ∈ M := by
  obtain ⟨a, A1, rfl⟩ := List.exists_cons_of_ne_nil hA
  rcases List.eq_nil_or_concat B with hb | ⟨B1, b, rfl⟩
  · exact absurd hb hB
  · have h1 : A1 ++ [u] ++ B1 ++ [b] = M ++ [y] := by
      have h2 : a :: (A1 ++ [u] ++ B1 ++ [b]) = x :: (M ++ [y]) := by
        simpa [List.append_assoc] using h
      exact (List.cons.inj h2).2
    have h3 := (List.append_inj' h1 rfl).1
    rw [← h3]
    simp

theorem found_in_ulist (cur : List Str) (u : Str) (hu : ',' ∉ u)
    (hcur : ∀ c ∈ cur, ',' ∉ c)
    (h : 0 ≤ stringsIndex (",".toList ++ stringsJoin cur ",".toList ++ ",".toList)
      (",".toList ++ u ++ ",".toList)) :
    u ∈ cur ∨ (cur = [] ∧ u = []) := by
  obtain ⟨pre, post, hpp⟩ := stringsIndex_elim _ _ h
  have hl : stringsSplit ',' (",".toList ++ stringsJoin cur ",".toList ++ ",".toList) =
      [[]] ++ stringsSplit ',' (stringsJoin cur [',']) ++ [[]] := by
    have e : ",".toList ++ stringsJoin cur ",".toList ++ ",".toList =
        [] ++ ',' :: (stringsJoin cur [','] ++ ',' :: []) := by
      simp
    rw [e, stringsSplit_append, stringsSplit_append]
    simp [stringsSplit]
  have hr : stringsSplit ',' (pre ++ (",".toList ++ u ++ ",".toList) ++ post) =
      stringsSplit ',' pre ++ [u] ++ stringsSplit ',' post := by
    have e : pre ++ (",".toList ++ u ++ ",".toList) ++ post = pre ++ ',' :: (u ++ ',' :: post) := by
      simp
    rw [e, stringsSplit_append, stringsSplit_append, stringsSplit_of_not_mem ',' u hu]
    simp
  rw [hpp, hr] at hl
  have hm := inner_mem _ _ _ u [] [] (stringsSplit_ne_nil ',' pre) (stringsSplit_ne_nil ',' post) hl
  cases cur with
  | nil =>
    simp only [stringsJoin, stringsSplit, List.mem_singleton] at hm
    exact Or.inr ⟨rfl, hm⟩
  | cons a rest =>
    rw [stringsSplit_join ',' (a :: rest) (by simp) hcur] at hm
    exact Or.inl hm

theorem countNewUser_ge (ulist : Str) (users : List Str) (n : Nat) :
    n ≤ countNewUser ulist users n := by
  induction users with
  | nil => exact le_refl n
  | cons u users ih =>
    rw [countNewUser]
    split_ifs
    · omega
    · exact ih

theorem countNewUser_eq (ulist : Str) (users : List Str) (n : Nat)
    (h : countNewUser ulist users n = n) :
    ∀ u ∈ users, 0 ≤ stringsIndex ulist (",".toList ++ u ++ ",".toList) := by
  induction users with
  | nil => simp
  | cons u users ih =>
    rw [countNewUser] at h
    by_cases hi : stringsIndex ulist (",".toList ++ u ++ ",".toList) < 0
    · rw [if_pos hi] at h
      omega
    · rw [if_neg hi] at h
      intro x hx
      rcases List.mem_cons.1 hx with e | e
      · rw [e]
        exact not_lt.1 hi
      · exact ih h x e

theorem countNew_ge (rolesNow roles : RoleMap) (n : Nat) : n ≤ countNew rolesNow roles n := by
  induction roles generalizing n with
  | nil => exact le_refl n
  | cons p rest ih =>
    obtain ⟨r, users⟩ := p
    rw [countNew]
    cases rolesNow.get r with
    | none => simp
    | some cur => exact le_trans (countNewUser_ge _ users n) (ih _)

theorem countNew_eq (rolesNow roles : RoleMap) (n : Nat) (h : countNew rolesNow roles n = n) :
    ∀ r users, (r, users) ∈ roles → ∃ cur, rolesNow.get r = some cur ∧
      ∀ u ∈ users, 0 ≤ stringsIndex (",".toList ++ stringsJoin cur ",".toList ++ ",".toList)
        (",".toList ++ u ++ ",".toList) := by
  induction roles generalizing n with
  | nil => simp
  | cons p rest ih =>
    obtain ⟨r0, users0⟩ := p
    rw [countNew] at h
    cases hg : rolesNow.get r0 with
    | none =>
      rw [hg] at h
      simp at h
    | some cur =>
      rw [hg] at h
      dsimp only at h
      have h1 := countNewUser_ge (",".toList ++ stringsJoin cur ",".toList ++ ",".toList)
        users0 n
      have h2 := countNew_ge rolesNow rest
        (countNewUser (",".toList ++ stringsJoin cur ",".toList ++ ",".toList) users0 n)
      have h3 : countNewUser (",".toList ++ stringsJoin cur ",".toList ++ ",".toList)
          users0 n = n := by omega
      rw [h3] at h
      intro r users hm
      rcases List.mem_cons.1 hm with e | e
      · simp only [Prod.mk.injEq] at e
        obtain ⟨rfl, rfl⟩ := e
        exact ⟨cur, hg, countNewUser_eq _ _ n h3⟩
      · exact ih n h r users e

theorem RoleMap.mem_set (m : RoleMap) (r k : Role) (x v : List Str)
    (h : (k, v) ∈ m.set r x) : (k, v) ∈ m ∨ (k = r ∧ v = x) := by
  induction m with
  | nil =>
    simp only [RoleMap.set, List.mem_singleton, Prod.mk.injEq] at h
    exact Or.inr h
  | cons kv m ih =>
    obtain ⟨k0, w⟩ := kv
    rw [RoleMap.set] at h
    by_cases hk : k0 = r
    · rw [if_pos hk] at h
      rcases List.mem_cons.1 h with e | e
      · simp only [Prod.mk.injEq] at e
        exact Or.inr ⟨e.1.trans hk, e.2⟩
      · exact Or.inl (List.mem_cons_of_mem _ e)
    · rw [if_neg hk] at h
      rcases List.mem_cons.1 h with e | e
      · exact Or.inl (by rw [e]; simp)
      · rcases ih e with e2 | e2
        · exact Or.inl (List.mem_cons_of_mem _ e2)
        · exact Or.inr e2

theorem builtRoles_mem (roleSpec : List (Role × Str)) (roles0 : RoleMap) (r : Role)
    (us : List Str) (h : (r, us) ∈ builtRoles roleSpec roles0) :
    (r, us) ∈ roles0 ∨
      ∃ spec, (r, spec) ∈ roleSpec ∧ spec ≠ [] ∧ us = stringsSplit ',' spec := by
  induction roleSpec generalizing roles0 with
  | nil => exact Or.inl h
  | cons p rest ih =>
    obtain ⟨r0, spec0⟩ := p
    rw [builtRoles] at h
    by_cases h0 : spec0 = []
    · rw [if_pos h0] at h
      rcases ih roles0 h with e | ⟨spec, hm, hne, hus⟩
      · exact Or.inl e
      · exact Or.inr ⟨spec, List.mem_cons_of_mem _ hm, hne, hus⟩
    · rw [if_neg h0] at h
      rcases ih _ h with e | ⟨spec, hm, hne, hus⟩
      · rcases RoleMap.mem_set roles0 r0 r _ us e with e2 | ⟨e2, e3⟩
        · exact Or.inl e2
        · exact Or.inr ⟨spec0, by rw [e2]; simp, h0, e3⟩
      · exact Or.inr ⟨spec, List.mem_cons_of_mem _ hm, hne, hus⟩

theorem split_nodup_of_listed (roleSpec : List (Role × Str)) (r : Role) (spec : Str)
    (hm : (r, spec) ∈ roleSpec) (hne : spec ≠ []) (hnd : (listedUsers roleSpec).Nodup) :
    (stringsSplit ',' spec).Nodup := by
  induction roleSpec with
  | nil => simp at hm
  | cons p rest ih =>
    obtain ⟨r0, spec0⟩ := p
    rw [listedUsers] at hnd
    by_cases h0 : spec0 = []
    · rw [if_pos h0] at hnd
      rcases List.mem_cons.1 hm with e | e
      · simp only [Prod.mk.injEq] at e
        exact absurd (e.2.trans h0) hne
      · exact ih e hnd
    · rw [if_neg h0, List.nodup_append] at hnd
      rcases List.mem_cons.1 hm with e | e
      · simp only [Prod.mk.injEq] at e
        rw [e.2]
        exact hnd.1
      · exact ih e hnd.2.1

theorem requested_users_shape (me : Option Str) (roleSpec : List (Role × Str))
    (roles : RoleMap)
    (usersT : List Str) (hparse : parseRoles me roleSpec = some ⟨some roles, usersT, none⟩)
    (r : Role) (users : List Str) (hm : (r, users) ∈ roles) :
    (∀ u ∈ users, ',' ∉ u) ∧ ∃ u ∈ users, u ≠ [] := by
  obtain ⟨_, hnd, hroles, _⟩ := parseRoles_ok_inv me roleSpec roles usersT hparse
  rw [hroles] at hm
  rcases builtRoles_mem roleSpec [] r users hm with e | ⟨spec, hms, hne, hus⟩
  · simp at e
  · have hnd2 := split_nodup_of_listed roleSpec r spec hms hne hnd
    rw [← hus] at hnd2
    refine ⟨fun u hu => stringsSplit_no_sep ',' spec u (by rw [← hus]; exact hu), ?_⟩
    by_contra hall
    simp only [not_exists, not_and, not_not] at hall
    cases users with
    | nil => exact stringsSplit_ne_nil ',' spec hus.symm
    | cons a rest =>
      have ha : a = [] := hall a (by simp)
      cases rest with
      | nil =>
        rw [ha] at hus
        exact hne (stringsSplit_eq_single_nil ',' spec hus.symm)
      | cons b rest2 =>
        have hb : b = [] := hall b (by simp)
        rw [ha, hb] at hnd2
        simp at hnd2

/-! ## Claims on `CreateProject` and on the converse of the pre-check -/

/-- C24, counterexample: (1) for the quota `-1` GiB the one aggregate of the SVM is retrieved
online with 0 bytes available, which is strictly more than the requested quota in bytes, yet
`CreateProject` fails with `cannot find aggregate for creating volume`, because the test also
asks for more than `avail = 0` bytes. (2) When the lookup of the one aggregate gets no
response, no aggregate is retrieved as online, yet `CreateProject` does not fail with that
error: `GetObjectByHref` dereferences the nil response and the call panics. -/
theorem CreateProject_rejects_empty_aggregate :
    (CreateProject demoFilerAPI "volume".toList "svm1".toList "/project".toList
        "3010000.01".toList (-1) =
        ⟨.returned (some "cannot find aggregate for creating volume".toList), none⟩ ∧
      demoFilerAPI.getAggregate ⟨"u1".toList, "aggr1".toList⟩ =
        some (none, ⟨"u1".toList, "aggr1".toList, "online".toList, 0⟩) ∧
      (0 : Int) > wrapInt64 (-1 * 2 ^ 30)) ∧
    (demoFilerAPI3.svmAggregates = some (.ok [⟨"u1".toList, "aggr1".toList⟩]) ∧
      demoFilerAPI3.getAggregate ⟨"u1".toList, "aggr1".toList⟩ = none ∧
      CreateProject demoFilerAPI3 "volume".toList "svm1".toList "/project".toList
        "3010000.01".toList 1024 = ⟨.panicked, none⟩) := by
  refine ⟨⟨by decide, rfl, by decide⟩, rfl, rfl, by decide⟩

/-- C24, amended: in volume mode, once the volume query has found no volume of that name, the
SVM has been read and the lookup of every aggregate of the SVM has come back (`held r` is what
the lookup of record `r` leaves in `aggr`), `CreateProject` fails with `cannot find aggregate
for creating volume` exactly when no aggregate of the SVM was retrieved as online with
available block storage strictly greater than both zero and the requested quota in bytes;
otherwise the last such aggregate of the SVM's list is the one named in the new volume, and the
call ends as `createObject` ends on that volume. For a quota that is not negative the test is:
online with available space strictly greater than the quota. -/
theorem CreateProject_aggregate_choice (api : FilerAPI)
    (Vserver ProjectRoot projectID : Str) (quotaGiB : Int) (aggregates : List Record)
    (held : Record → Aggregate)
    (hvol : api.volumeRecords = .ok []) (hsvm : api.svmAggregates = some (.ok aggregates))
    (hget : ∀ r ∈ aggregates, ∃ e, api.getAggregate r = some (e, held r)) :
    (CreateProject api "volume".toList Vserver ProjectRoot projectID quotaGiB =
          ⟨.returned (some "cannot find aggregate for creating volume".toList), none⟩ ↔
        (aggregates.map held).filter (usableAggregate (wrapInt64 (quotaGiB * 2 ^ 30))) = []) ∧
      (∀ a, ((aggregates.map held).filter
            (usableAggregate (wrapInt64 (quotaGiB * 2 ^ 30)))).getLast? = some a →
        a.State = "online".toList ∧ a.Available > 0 ∧
          a.Available > wrapInt64 (quotaGiB * 2 ^ 30) ∧
          ∃ vol, vol.Aggregates = [⟨[], a.Name⟩] ∧
            vol.Size = wrapInt64 (quotaGiB * 2 ^ 30) ∧
            CreateProject api "volume".toList Vserver ProjectRoot projectID quotaGiB =
              ⟨api.createObject vol, some vol⟩) ∧
      (0 ≤ wrapInt64 (quotaGiB * 2 ^ 30) → ∀ a : Aggregate,
        (usableAggregate (wrapInt64 (quotaGiB * 2 ^ 30)) a = true ↔
          a.State = "online".toList ∧ a.Available > wrapInt64 (quotaGiB * 2 ^ 30))) := by
  have hcp : CreateProject api "volume".toList Vserver ProjectRoot projectID quotaGiB =
      match ((aggregates.map held).filter
          (usableAggregate (wrapInt64 (quotaGiB * 2 ^ 30)))).getLast? with
      | none => ⟨.returned (some "cannot find aggregate for creating volume".toList), none⟩
      | some theAggr =>
        ⟨api.createObject ⟨volName projectID, [⟨[], theAggr.Name⟩],
            wrapInt64 (quotaGiB * 2 ^ 30), ⟨[], Vserver⟩,
            filepathJoin [ProjectRoot, projectID]⟩,
          some ⟨volName projectID, [⟨[], theAggr.Name⟩], wrapInt64 (quotaGiB * 2 ^ 30),
            ⟨[], Vserver⟩, filepathJoin [ProjectRoot, projectID]⟩⟩ := by
    unfold CreateProject
    rw [if_pos rfl, hvol]
    simp only [List.length_nil, ne_eq, not_true_eq_false, if_false, hsvm,
      selectAggregate_eq api.getAggregate held _ aggregates none hget]
    cases ((aggregates.map held).filter
      (usableAggregate (wrapInt64 (quotaGiB * 2 ^ 30)))).getLast? <;> rfl
  refine ⟨?_, ?_, ?_⟩
  · rw [hcp]
    constructor
    · intro h
      cases hl : ((aggregates.map held).filter
          (usableAggregate (wrapInt64 (quotaGiB * 2 ^ 30)))).getLast? with
      | none => exact List.getLast?_eq_none_iff.1 hl
      | some a =>
        rw [hl] at h
        simp at h
    · intro h
      rw [h]
      rfl
  · intro a ha
    have hmem := List.mem_of_getLast?_eq_some ha
    have hu := (List.mem_filter.1 hmem).2
    simp only [usableAggregate, Bool.and_eq_true, decide_eq_true_eq] at hu
    refine ⟨hu.1.1, hu.1.2, hu.2,
      ⟨volName projectID, [⟨[], a.Name⟩], wrapInt64 (quotaGiB * 2 ^ 30), ⟨[], Vserver⟩,
        filepathJoin [ProjectRoot, projectID]⟩, rfl, rfl, ?_⟩
    rw [hcp, ha]
  · intro hq a
    simp only [usableAggregate, Bool.and_eq_true, decide_eq_true_eq]
    constructor
    · exact fun h => ⟨h.1.1, h.2⟩
    · exact fun h => ⟨⟨h.1, lt_of_le_of_lt hq h.2⟩, h.2⟩

theorem CreateProject_aggregate_choice_witness :
    ∃ vol, vol.Aggregates = [⟨[], "aggr2".toList⟩] ∧ vol.Size = wrapInt64 (1024 * 2 ^ 30) ∧
      CreateProject demoFilerAPI2 "volume".toList "svm1".toList "/project".toList
        "3010000.01".toList 1024 = ⟨demoFilerAPI2.createObject vol, some vol⟩ :=
  ((CreateProject_aggregate_choice demoFilerAPI2 "svm1".toList "/project".toList
    "3010000.01".toList 1024
    [⟨"u1".toList, "aggr1".toList⟩, ⟨"u2".toList, "aggr2".toList⟩,
      ⟨"u3".toList, "aggr3".toList⟩] demoAggregate rfl rfl
    (by
      intro r hr
      refine ⟨none, ?_⟩
      simp only [demoFilerAPI2, demoAggregate]
      split_ifs <;> rfl)).2.1
    ⟨"u2".toList, "aggr2".toList, "online".toList, 2 * 2 ^ 40⟩ (by decide)).2.2.2

/-- C22, counterexample: `alice` is requested as contributor and the current contributor list
of the root path is the single identifier `alice,x`; the pre-check finds `,alice,` in
`,alice,x,`, counts `n = 0` and `main` exits with nothing to do, although `alice` is not an
element of the current list. -/
theorem precheck_matches_inside_identifier :
    parseRoles (some "root".toList) [(Role.Contributor, "alice".toList)] =
        some ⟨some [(Role.Contributor, ["alice".toList])], ["alice".toList], none⟩ ∧
      countNew [(Role.Contributor, ["alice,x".toList])]
        [(Role.Contributor, ["alice".toList])] 0 = 0 ∧
      RoleMap.get [(Role.Contributor, ["alice,x".toList])] Role.Contributor =
        some ["alice,x".toList] ∧
      "alice".toList ∉ ["alice,x".toList] ∧
      main (demoEnv ModeDir
        [(Role.Contributor, ["alice,x".toList]), (Role.Viewer, ["bob".toList])]
        SelectOutcome.drained) = [Event.warnNothingToDo, Event.exit 0] := by
  refine ⟨by decide, by decide, by decide, by decide, by decide⟩

/-- C22, amended: let the requested role map be the one `parseRoles` returned, visited by the
pre-check in any order, and let no user identifier of the current role map hold a comma. If
the count `n` is 0, every requested role is a key of the current role map and every requested
user identifier of that role, an empty one included, is an element of the current user list
of that role. -/
theorem precheck_zero_means_present (me : Option Str) (roleSpec : List (Role × Str))
    (roles : RoleMap) (usersT : List Str) (rolesNow visited : RoleMap)
    (hparse : parseRoles me roleSpec = some ⟨some roles, usersT, none⟩)
    (hperm : visited.Perm roles)
    (hcomma : ∀ r cur, rolesNow.get r = some cur → ∀ u ∈ cur, ',' ∉ u)
    (hn : countNew rolesNow visited 0 = 0) :
    ∀ r users, (r, users) ∈ roles →
      ∃ cur, rolesNow.get r = some cur ∧ ∀ u ∈ users, u ∈ cur := by
  intro r users hm
  obtain ⟨cur, hg, hidx⟩ := countNew_eq rolesNow visited 0 hn r users (hperm.mem_iff.2 hm)
  obtain ⟨hfree, u0, hu0, hne0⟩ := requested_users_shape me roleSpec roles usersT hparse r users hm
  have hcur := hcomma r cur hg
  have hcne : cur ≠ [] := by
    intro hc
    rcases found_in_ulist cur u0 (hfree u0 hu0) hcur (hidx u0 hu0) with h | ⟨_, h⟩
    · rw [hc] at h
      simp at h
    · exact hne0 h
  refine ⟨cur, hg, fun u hu => ?_⟩
  rcases found_in_ulist cur u (hfree u hu) hcur (hidx u hu) with h | ⟨h, _⟩
  · exact h
  · exact absurd h hcne

theorem precheck_zero_means_present_witness :
    ∃ cur, RoleMap.get [(Role.Viewer, ["bob".toList]),
        (Role.Contributor, ["carol".toList, [], "alice".toList])] Role.Contributor = some cur ∧
      ∀ u ∈ ["alice".toList, []], u ∈ cur :=
  precheck_zero_means_present (some "root".toList)
    [(Role.Manager, []), (Role.Contributor, "alice,".toList), (Role.Viewer, "bob".toList)]
    [(Role.Contributor, ["alice".toList, []]), (Role.Viewer, ["bob".toList])]
    ["alice".toList, [], "bob".toList]
    [(Role.Viewer, ["bob".toList]), (Role.Contributor, ["carol".toList, [], "alice".toList])]
    [(Role.Viewer, ["bob".toList]), (Role.Contributor, ["alice".toList, []])]
    (by decide) (by decide)
    (by
      intro r cur hg u hu
      cases r <;> simp [RoleMap.get] at hg <;> subst hg <;> revert u <;> decide)
    (by decide) Role.Contributor ["alice".toList, []] (by decide)

/-! ## Lemmas on the listing of a tree with symbolic links -/

theorem valid_of_mem_cons (a : Str) (l : List Str) (ha : validName a = true)
    (hl : ∀ c ∈ l, validName c = true) : ∀ c ∈ a :: l, validName c = true := by
  intro c hc
  rcases List.mem_cons.1 hc with h | h
  · rw [h]
    exact ha
  · exact hl c h

mutual
theorem Tree.emit_shape :
    ∀ (t : Tree) (comps : List Str) (n : Str), t.wf = true →
      ∀ x ∈ t.emit comps n,
        (∃ more : List Str, (∀ c ∈ more, validName c = true) ∧
          x.Path = absPath (comps ++ n :: more)) ∨
        (∃ tg ∈ t.linkTargets, ∃ more : List Str, (∀ c ∈ more, validName c = true) ∧
          x.Path = absPath (tg ++ more))
  | .file, comps, n, _ => by
    intro x hx
    simp only [Tree.emit, List.mem_singleton] at hx
    exact Or.inl ⟨[], by simp, by rw [hx]⟩
  | .unknown, comps, n, _ => by
    intro x hx
    simp only [Tree.emit, List.mem_singleton] at hx
    exact Or.inl ⟨[], by simp, by rw [hx]⟩
  | .special _, comps, n, _ => by
    intro x hx
    simp [Tree.emit] at hx
  | .closedDir, comps, n, _ => by
    intro x hx
    simp only [Tree.emit, List.mem_singleton] at hx
    exact Or.inl ⟨[], by simp, by rw [hx]⟩
  | .brokenLink _, comps, n, _ => by
    intro x hx
    simp [Tree.emit] at hx
  | .dir es, comps, n, hw => by
    intro x hx
    rw [Tree.wf] at hw
    simp only [Tree.emit, List.mem_cons] at hx
    rcases hx with hx | hx
    · exact Or.inl ⟨[], by simp, by rw [hx]⟩
    · rcases Forest.listing_shape es (comps ++ [n]) hw x hx with
        ⟨n2, more, _, hn2, hm, hpath⟩ | ⟨tg, htg, more, hm, hpath⟩
      · exact Or.inl ⟨n2 :: more, valid_of_mem_cons n2 more hn2 hm, by simpa using hpath⟩
      · exact Or.inr ⟨tg, by rw [Tree.linkTargets]; exact htg, more, hm, hpath⟩
  | .link _ target _ t, comps, n, hw => by
    intro x hx
    rw [Tree.wf] at hw
    simp only [Tree.emit, List.mem_cons] at hx
    rcases hx with hx | hx
    · exact Or.inr ⟨target, by simp [Tree.linkTargets], [], by simp, by rw [hx]; simp⟩
    · rcases Tree.contents_shape t target hw x hx with
        ⟨n2, more, hn2, hm, hpath⟩ | ⟨tg, htg, more, hm, hpath⟩
      · exact Or.inr ⟨target, by simp [Tree.linkTargets], n2 :: more,
          valid_of_mem_cons n2 more hn2 hm, hpath⟩
      · exact Or.inr ⟨tg, by simp [Tree.linkTargets, htg], more, hm, hpath⟩
theorem Tree.contents_shape :
    ∀ (t : Tree) (base : List Str), t.wf = true →
      ∀ x ∈ t.contents base,
        (∃ (n : Str) (more : List Str), validName n = true ∧
          (∀ c ∈ more, validName c = true) ∧ x.Path = absPath (base ++ n :: more)) ∨
        (∃ tg ∈ t.linkTargets, ∃ more : List Str, (∀ c ∈ more, validName c = true) ∧
          x.Path = absPath (tg ++ more))
  | .dir es, base, hw => by
    intro x hx
    rw [Tree.wf] at hw
    rw [Tree.contents] at hx
    rcases Forest.listing_shape es base hw x hx with
      ⟨n2, more, _, hn2, hm, hpath⟩ | ⟨tg, htg, more, hm, hpath⟩
    · exact Or.inl ⟨n2, more, hn2, hm, hpath⟩
    · exact Or.inr ⟨tg, by rw [Tree.linkTargets]; exact htg, more, hm, hpath⟩
  | .file, _, _ => by
    intro x hx
    simp [Tree.contents] at hx
  | .unknown, _, _ => by
    intro x hx
    simp [Tree.contents] at hx
  | .special _, _, _ => by
    intro x hx
    simp [Tree.contents] at hx
  | .closedDir, _, _ => by
    intro x hx
    simp [Tree.contents] at hx
  | .link _ _ _ _, _, _ => by
    intro x hx
    simp [Tree.contents] at hx
  | .brokenLink _, _, _ => by
    intro x hx
    simp [Tree.contents] at hx
theorem Forest.listing_shape :
    ∀ (es : Forest) (comps : List Str), es.wf = true →
      ∀ x ∈ es.listing comps,
        (∃ (n : Str) (more : List Str), n ∈ es.names ∧ validName n = true ∧
          (∀ c ∈ more, validName c = true) ∧ x.Path = absPath (comps ++ n :: more)) ∨
        (∃ tg ∈ es.linkTargets, ∃ more : List Str, (∀ c ∈ more, validName c = true) ∧
          x.Path = absPath (tg ++ more))
  | .nil, _, _ => by
    intro x hx
    simp [Forest.listing] at hx
  | .cons n t rest, comps, hw => by
    intro x hx
    simp only [Forest.wf, Bool.and_eq_true] at hw
    obtain ⟨⟨⟨hn, _⟩, hwt⟩, hwr⟩ := hw
    simp only [Forest.listing, List.mem_append] at hx
    rcases hx with hx | hx
    · rcases Tree.emit_shape t comps n hwt x hx with
        ⟨more, hm, hpath⟩ | ⟨tg, htg, more, hm, hpath⟩
      · exact Or.inl ⟨n, more, by simp [Forest.names], hn, hm, hpath⟩
      · exact Or.inr ⟨tg, by simp [Forest.linkTargets, htg], more, hm, hpath⟩
    · rcases Forest.listing_shape rest comps hwr x hx with
        ⟨n2, more, hmem, hn2, hm, hpath⟩ | ⟨tg, htg, more, hm, hpath⟩
      · exact Or.inl ⟨n2, more, by simp [Forest.names, hmem], hn2, hm, hpath⟩
      · exact Or.inr ⟨tg, by simp [Forest.linkTargets, htg], more, hm, hpath⟩
end

mutual
theorem Tree.presentsAt_targets (os : OS) :
    ∀ (t : Tree) (comps : List Str) (n : Str), t.presentsAt os comps n = true →
      ∀ tg ∈ t.linkTargets, ∀ c ∈ tg, validName c = true
  | .file, _, _, _ => by simp [Tree.linkTargets]
  | .unknown, _, _, _ => by simp [Tree.linkTargets]
  | .special _, _, _, _ => by simp [Tree.linkTargets]
  | .closedDir, _, _, _ => by simp [Tree.linkTargets]
  | .brokenLink _, _, _, _ => by simp [Tree.linkTargets]
  | .dir es, comps, n, hp => by
    rw [Tree.presentsAt] at hp
    rw [Tree.linkTargets]
    cases ho : os.openDir (absPath (comps ++ [n])) with
    | none => simp [ho] at hp
    | some blocks =>
      simp only [ho, Bool.and_eq_true] at hp
      exact Forest.presents_targets os es (comps ++ [n]) hp.2
  | .link _ target _ t, comps, n, hp => by
    simp only [Tree.presentsAt, Bool.and_eq_true, List.all_eq_true] at hp
    intro tg htg
    simp only [Tree.linkTargets, List.mem_cons] at htg
    rcases htg with h | h
    · rw [h]
      exact hp.1.2
    · exact Tree.presentsOpen_targets os t target hp.2 tg h
theorem Tree.presentsOpen_targets (os : OS) :
    ∀ (t : Tree) (comps : List Str), t.presentsOpen os comps = true →
      ∀ tg ∈ t.linkTargets, ∀ c ∈ tg, validName c = true
  | .file, _, _ => by simp [Tree.linkTargets]
  | .unknown, _, _ => by simp [Tree.linkTargets]
  | .special _, _, _ => by simp [Tree.linkTargets]
  | .closedDir, _, _ => by simp [Tree.linkTargets]
  | .brokenLink _, _, _ => by simp [Tree.linkTargets]
  | .link _ _ _ _, _, hp => by simp [Tree.presentsOpen] at hp
  | .dir es, comps, hp => by
    rw [Tree.presentsOpen] at hp
    rw [Tree.linkTargets]
    cases ho : os.openDir (absPath comps) with
    | none => simp [ho] at hp
    | some blocks =>
      simp only [ho, Bool.and_eq_true] at hp
      exact Forest.presents_targets os es comps hp.2
theorem Forest.presents_targets (os : OS) :
    ∀ (es : Forest) (comps : List Str), es.presents os comps = true →
      ∀ tg ∈ es.linkTargets, ∀ c ∈ tg, validName c = true
  | .nil, _, _ => by simp [Forest.linkTargets]
  | .cons n t rest, comps, hp => by
    simp only [Forest.presents, Bool.and_eq_true] at hp
    intro tg htg
    simp only [Forest.linkTargets, List.mem_append] at htg
    rcases htg with h | h
    · exact Tree.presentsAt_targets os t comps n hp.1 tg h
    · exact Forest.presents_targets os rest comps hp.2 tg h
end

mutual
theorem Tree.entriesAt_sub_emit :
    ∀ (t : Tree) (comps : List Str) (n : Str), t.wf = true →
      ∀ e ∈ t.entriesAt comps n, emittedType e.2 = true →
        (⟨e.1, entryMode e.2⟩ : FilePathMode) ∈ t.emit comps n
  | .file, _, _, _ => by
    intro e he _
    simp only [Tree.entriesAt, List.mem_singleton] at he
    subst he
    simp [Tree.emit, entryMode, DT_REG, DT_DIR]
  | .unknown, _, _, _ => by
    intro e he _
    simp only [Tree.entriesAt, List.mem_singleton] at he
    subst he
    simp [Tree.emit, entryMode, DT_DIR]
  | .special ty, _, _, hw => by
    intro e he hem
    simp only [Tree.entriesAt, List.mem_singleton] at he
    subst he
    simp only [Tree.wf, Bool.and_eq_true, decide_eq_true_eq] at hw
    obtain ⟨⟨⟨h0, h1⟩, h2⟩, _⟩ := hw
    simp [emittedType, h0, h1, h2] at hem
  | .closedDir, _, _, _ => by
    intro e he _
    simp only [Tree.entriesAt, List.mem_singleton] at he
    subst he
    simp [Tree.emit, entryMode]
  | .link _ _ _ _, _, _, _ => by
    intro e he hem
    simp only [Tree.entriesAt, List.mem_singleton] at he
    subst he
    simp [emittedType, DT_LNK, DT_REG, DT_DIR] at hem
  | .brokenLink _, _, _, _ => by
    intro e he hem
    simp only [Tree.entriesAt, List.mem_singleton] at he
    subst he
    simp [emittedType, DT_LNK, DT_REG, DT_DIR] at hem
  | .dir es, comps, n, hw => by
    intro e he hem
    rw [Tree.wf] at hw
    simp only [Tree.entriesAt, List.mem_cons] at he
    rcases he with he | he
    · subst he
      simp [Tree.emit, entryMode]
    · rw [Tree.emit]
      exact List.mem_cons_of_mem _ (Forest.entries_sub_listing es (comps ++ [n]) hw e he hem)
theorem Forest.entries_sub_listing :
    ∀ (es : Forest) (comps : List Str), es.wf = true →
      ∀ e ∈ es.entries comps, emittedType e.2 = true →
        (⟨e.1, entryMode e.2⟩ : FilePathMode) ∈ es.listing comps
  | .nil, _, _ => by
    intro e he
    simp [Forest.entries] at he
  | .cons n t rest, comps, hw => by
    intro e he hem
    simp only [Forest.wf, Bool.and_eq_true] at hw
    simp only [Forest.entries, List.mem_append] at he
    rw [Forest.listing, List.mem_append]
    rcases he with he | he
    · exact Or.inl (Tree.entriesAt_sub_emit t comps n hw.1.2 e he hem)
    · exact Or.inr (Forest.entries_sub_listing rest comps hw.2 e he hem)
end

theorem absPath_ne_of_link (comps tg a b : List Str)
    (hc : ∀ c ∈ comps, validName c = true) (htg : ∀ c ∈ tg, validName c = true)
    (ha : ∀ c ∈ a, validName c = true) (hb : ∀ c ∈ b, validName c = true)
    (hout : ∀ a b : List Str, tg ++ a ≠ comps ++ b) :
    absPath (tg ++ a) ≠ absPath (comps ++ b) :=
  fun h => hout a b (absPath_injective _ _ (valid_append _ _ htg ha) (valid_append _ _ hc hb) h)

theorem filter_path_eq_nil (l : List FilePathMode) (p : Str)
    (h : ∀ x ∈ l, x.Path ≠ p) : l.filter (fun x => decide (x.Path = p)) = [] := by
  induction l with
  | nil => rfl
  | cons x l ih =>
    rw [List.filter_cons_of_neg (by simpa using h x (List.mem_cons_self _ _))]
    exact ih (fun y hy => h y (List.mem_cons_of_mem _ hy))

mutual
theorem Tree.emit_filter :
    ∀ (t : Tree) (comps : List Str) (n : Str), (∀ c ∈ comps, validName c = true) →
      validName n = true → t.wf = true →
      (∀ tg ∈ t.linkTargets, ∀ c ∈ tg, validName c = true) →
      (∀ tg ∈ t.linkTargets, ∀ a b : List Str, tg ++ a ≠ comps ++ b) →
      ∀ e ∈ t.entriesAt comps n,
        (t.emit comps n).filter (fun x => decide (x.Path = e.1)) =
          if emittedType e.2 = true then [⟨e.1, entryMode e.2⟩] else []
  | .file, _, _, _, _, _, _, _ => by
    intro e he
    simp only [Tree.entriesAt, List.mem_singleton] at he
    subst he
    simp [Tree.emit, emittedType, entryMode, DT_REG, DT_DIR]
  | .unknown, _, _, _, _, _, _, _ => by
    intro e he
    simp only [Tree.entriesAt, List.mem_singleton] at he
    subst he
    simp [Tree.emit, emittedType, entryMode, DT_DIR]
  | .special ty, _, _, _, _, hw, _, _ => by
    intro e he
    simp only [Tree.entriesAt, List.mem_singleton] at he
    subst he
    simp only [Tree.wf, Bool.and_eq_true, decide_eq_true_eq] at hw
    obtain ⟨⟨⟨h0, h1⟩, h2⟩, _⟩ := hw
    simp [Tree.emit, emittedType, h0, h1, h2]
  | .closedDir, _, _, _, _, _, _, _ => by
    intro e he
    simp only [Tree.entriesAt, List.mem_singleton] at he
    subst he
    simp [Tree.emit, emittedType, entryMode]
  | .brokenLink _, _, _, _, _, _, _, _ => by
    intro e he
    simp only [Tree.entriesAt, List.mem_singleton] at he
    subst he
    simp [Tree.emit, emittedType, DT_LNK, DT_REG, DT_DIR]
  | .link referent target mode t, comps, n, hc, hn, hw, hv, hout => by
    intro e he
    simp only [Tree.entriesAt, List.mem_singleton] at he
    subst he
    have hem : emittedType DT_LNK = false := by simp [emittedType, DT_LNK, DT_REG, DT_DIR]
    simp only [hem, Bool.false_eq_true, if_false]
    apply filter_path_eq_nil
    intro x hx
    have hcn : comps ++ [n] = comps ++ n :: [] := rfl
    rcases Tree.emit_shape (.link referent target mode t) comps n hw x hx with
      ⟨more, hm, hpath⟩ | ⟨tg, htg, more, hm, hpath⟩
    · exfalso
      rw [Tree.wf] at hw
      simp only [Tree.emit, List.mem_cons] at hx
      have htv := hv target (by simp [Tree.linkTargets])
      have hto := hout target (by simp [Tree.linkTargets])
      rcases hx with hx | hx
      · rw [hx] at hpath
        have h2 : absPath (target ++ []) = absPath (comps ++ n :: more) := by simpa using hpath
        exact absPath_ne_of_link comps target [] (n :: more) hc htv (by simp)
          (valid_of_mem_cons n more hn hm) hto h2
      · rcases Tree.contents_shape t target hw x hx with
          ⟨n2, more2, hn2, hm2, hpath2⟩ | ⟨tg, htg, more2, hm2, hpath2⟩
        · rw [hpath2] at hpath
          exact absPath_ne_of_link comps target (n2 :: more2) (n :: more) hc htv
            (valid_of_mem_cons n2 more2 hn2 hm2) (valid_of_mem_cons n more hn hm) hto hpath
        · rw [hpath2] at hpath
          exact absPath_ne_of_link comps tg more2 (n :: more) hc
            (hv tg (by simp [Tree.linkTargets, htg])) hm2 (valid_of_mem_cons n more hn hm)
            (hout tg (by simp [Tree.linkTargets, htg])) hpath
    · rw [hpath, hcn]
      exact absPath_ne_of_link comps tg more [n] hc (hv tg htg) hm (by simpa using hn)
        (hout tg htg)
  | .dir es, comps, n, hc, hn, hw, hv, hout => by
    intro e he
    rw [Tree.wf] at hw
    rw [Tree.linkTargets] at hv hout
    have hc2 : ∀ c ∈ comps ++ [n], validName c = true :=
      valid_append comps [n] hc (by simpa using hn)
    have hout2 : ∀ tg ∈ es.linkTargets, ∀ a b : List Str, tg ++ a ≠ (comps ++ [n]) ++ b := by
      intro tg htg a b
      rw [List.append_assoc]
      exact hout tg htg a _
    have hhead : ∀ x ∈ es.listing (comps ++ [n]), x.Path ≠ absPath (comps ++ [n]) := by
      intro x hx
      rcases Forest.listing_shape es (comps ++ [n]) hw x hx with
        ⟨n2, more, _, hn2, hm, hpath⟩ | ⟨tg, htg, more, hm, hpath⟩
      · rw [hpath]
        intro heq
        have := absPath_injective _ _ (valid_append _ _ hc2 (valid_of_mem_cons n2 more hn2 hm))
          hc2 heq
        have hlen := congrArg List.length this
        simp at hlen
      · rw [hpath]
        have h0 := absPath_ne_of_link (comps ++ [n]) tg more [] hc2 (hv tg htg) hm (by simp)
          (hout2 tg htg)
        simpa using h0
    simp only [Tree.entriesAt, List.mem_cons] at he
    rcases he with he | he
    · subst he
      rw [Tree.emit, List.filter_cons_of_pos (by simp), filter_path_eq_nil _ _ hhead]
      simp [emittedType, entryMode]
    · obtain ⟨n2, more, _, hn2, hm, hpath⟩ := Forest.entries_path es (comps ++ [n]) hw e he
      have hne : absPath (comps ++ [n]) ≠ e.1 := by
        rw [hpath]
        intro heq
        have := absPath_injective _ _ hc2
          (valid_append _ _ hc2 (valid_of_mem_cons n2 more hn2 hm)) heq
        have hlen := congrArg List.length this
        simp at hlen
      rw [Tree.emit, List.filter_cons_of_neg (by simpa using hne)]
      exact Forest.listing_filter es (comps ++ [n]) hc2 hw hv hout2 e he
theorem Forest.listing_filter :
    ∀ (es : Forest) (comps : List Str), (∀ c ∈ comps, validName c = true) →
      es.wf = true →
      (∀ tg ∈ es.linkTargets, ∀ c ∈ tg, validName c = true) →
      (∀ tg ∈ es.linkTargets, ∀ a b : List Str, tg ++ a ≠ comps ++ b) →
      ∀ e ∈ es.entries comps,
        (es.listing comps).filter (fun x => decide (x.Path = e.1)) =
          if emittedType e.2 = true then [⟨e.1, entryMode e.2⟩] else []
  | .nil, _, _, _, _, _ => by
    intro e he
    simp [Forest.entries] at he
  | .cons n t rest, comps, hc, hw, hv, hout => by
    intro e he
    simp only [Forest.wf, Bool.and_eq_true, Bool.not_eq_true', List.contains_eq_any_beq,
      List.any_eq_false, beq_iff_eq] at hw
    obtain ⟨⟨⟨hn, hnot⟩, hwt⟩, hwr⟩ := hw
    have hvt : ∀ tg ∈ t.linkTargets, ∀ c ∈ tg, validName c = true :=
      fun tg h => hv tg (by simp [Forest.linkTargets, h])
    have hvr : ∀ tg ∈ rest.linkTargets, ∀ c ∈ tg, validName c = true :=
      fun tg h => hv tg (by simp [Forest.linkTargets, h])
    have hot : ∀ tg ∈ t.linkTargets, ∀ a b : List Str, tg ++ a ≠ comps ++ b :=
      fun tg h => hout tg (by simp [Forest.linkTargets, h])
    have hor : ∀ tg ∈ rest.linkTargets, ∀ a b : List Str, tg ++ a ≠ comps ++ b :=
      fun tg h => hout tg (by simp [Forest.linkTargets, h])
    simp only [Forest.entries, List.mem_append] at he
    rw [Forest.listing, List.filter_append]
    rcases he with he | he
    · obtain ⟨more, hm, hpath⟩ := Tree.entriesAt_path t comps n hwt e he
      have hrest : ∀ x ∈ rest.listing comps, x.Path ≠ e.1 := by
        intro x hx
        rw [hpath]
        rcases Forest.listing_shape rest comps hwr x hx with
          ⟨n2, more2, hmem, hn2, hm2, hpath2⟩ | ⟨tg, htg, more2, hm2, hpath2⟩
        · rw [hpath2]
          intro heq
          have := absPath_injective _ _ (valid_cons _ n2 more2 hc hn2 hm2)
            (valid_cons _ n more hc hn hm) heq
          have h3 := List.append_cancel_left this
          simp only [List.cons.injEq] at h3
          exact hnot n2 hmem (by simp [h3.1])
        · rw [hpath2]
          exact absPath_ne_of_link comps tg more2 (n :: more) hc (hvr tg htg) hm2
            (valid_of_mem_cons n more hn hm) (hor tg htg)
      rw [Tree.emit_filter t comps n hc hn hwt hvt hot e he, filter_path_eq_nil _ _ hrest,
        List.append_nil]
    · obtain ⟨n2, more2, hmem, hn2, hm2, hpath2⟩ := Forest.entries_path rest comps hwr e he
      have hfirst : ∀ x ∈ t.emit comps n, x.Path ≠ e.1 := by
        intro x hx
        rw [hpath2]
        rcases Tree.emit_shape t comps n hwt x hx with
          ⟨more, hm, hpath⟩ | ⟨tg, htg, more, hm, hpath⟩
        · rw [hpath]
          intro heq
          have := absPath_injective _ _ (valid_cons _ n more hc hn hm)
            (valid_cons _ n2 more2 hc hn2 hm2) heq
          have h3 := List.append_cancel_left this
          simp only [List.cons.injEq] at h3
          exact hnot n2 hmem (by simp [h3.1])
        · rw [hpath]
          exact absPath_ne_of_link comps tg more (n2 :: more2) hc (hvt tg htg) hm
            (valid_of_mem_cons n2 more2 hn2 hm2) (hot tg htg)
      rw [filter_path_eq_nil _ _ hfirst, List.nil_append]
      exact Forest.listing_filter rest comps hc hwr hvr hor e he
end

/-! ## Lemmas on read errors -/

/-- C6, counterexample: (1) in `/r` the entry `l` is a symbolic link with text `../p` to the
directory `/p`; on a volume whose `getdents` reports it with the entry type 0 (unknown) the
walk from `/r` emits the path `/r/l` of the link itself, with mode 0, and nothing of `/p`.
(2) In `/t` the entry `k` is reported as a symbolic link, to the directory `/v`, whose entries
are the named pipe `f`, the file `a` and the link `m` to `/w`: of these three entries of the
referent's subtree only `a` is emitted under the referent's path. -/
theorem fastWalk_link_reported_unknown :
    ((Tree.link "../p".toList ["p".toList] ModeDir (.dir demoForest)).storedAt demoOS6
        ["r".toList] "l".toList = true ∧
      demoOS6.openDir "/r".toList =
        some [[⟨".".toList, DT_DIR⟩, ⟨"..".toList, DT_DIR⟩, ⟨"l".toList, 0⟩,
          ⟨"z".toList, DT_REG⟩]] ∧
      fastWalk demoOS6 3 "/r".toList none =
        ⟨[⟨"/r".toList, ModeDir⟩, ⟨"/r/l".toList, 0⟩, ⟨"/r/z".toList, 0⟩], .ok⟩) ∧
    ((Tree.link "/v".toList ["v".toList] ModeDir (.dir demoForest7)).presentsAt demoOS7
        ["t".toList] "k".toList = true ∧
      fastWalk demoOS7 4 "/t".toList none =
        ⟨[⟨"/t".toList, ModeDir⟩, ⟨"/v".toList, ModeDir⟩, ⟨"/v/a".toList, 0⟩,
          ⟨"/w".toList, ModeDir⟩, ⟨"/w/c".toList, 0⟩], .ok⟩) := by
  refine ⟨⟨by decide, by decide, by decide⟩, by decide, by decide⟩

/-- C6, amended: let entry `n` of the walked directory `comps` be reported by `getdents` as a
symbolic link (`DT_LNK`), and let `GetFilePathMode` resolve its referent to the directory with
components `target` and entries `es`, inside or outside the walked root; let neither `target`
nor the referent of a link met beneath it be the link or a directory above the link (no link
cycle). Then the walk of that entry emits the referent directory under its own path, goes
through the referent's subtree and then on to the remaining entries of the directory; every
entry of the referent's subtree lies under the referent's path, and is emitted there if
`getdents` reports it as a regular file, a directory or with unknown type; and no emitted entry
carries the path of the link itself. An entry that is reported with the type 0 (unknown)
instead is emitted under its own path, with mode 0, and nothing is followed. -/
theorem fastWalk_follows_dir_link (os : OS) (comps : List Str) (n referent : Str)
    (target : List Str) (mode : FileMode) (es : Forest) (rest : List Dirent) (fuel : Nat)
    (hc : ∀ c ∈ comps, validName c = true) (hn : validName n = true)
    (hwf : es.wf = true)
    (hlink : (Tree.link referent target mode (.dir es)).presentsAt os comps n = true)
    (hnocycle : ∀ tg ∈ target :: es.linkTargets, ∀ more, comps ++ [n] ≠ tg ++ more)
    (hfuel : es.need < fuel) :
    walkDirents (fastWalk os fuel) os (absPath comps) (⟨n, DT_LNK⟩ :: rest) =
        Walk.seq ⟨⟨absPath target, mode⟩ :: es.listing target, .ok⟩
          (walkDirents (fastWalk os fuel) os (absPath comps) rest) ∧
      (∀ e ∈ es.entries target,
        (∃ more, e.1 = absPath (target ++ more)) ∧
          (emittedType e.2 = true →
            (⟨e.1, entryMode e.2⟩ : FilePathMode) ∈ es.listing target)) ∧
      (∀ x ∈ (⟨absPath target, mode⟩ :: es.listing target : List FilePathMode),
        x.Path ≠ absPath (comps ++ [n])) ∧
      walkDirents (fastWalk os fuel) os (absPath comps) (⟨n, 0⟩ :: rest) =
        Walk.seq ⟨[⟨absPath (comps ++ [n]), 0⟩], .ok⟩
          (walkDirents (fastWalk os fuel) os (absPath comps) rest) := by
  have hv : ∀ c ∈ target, validName c = true := by
    simp only [Tree.presentsAt, Bool.and_eq_true, List.all_eq_true] at hlink
    exact hlink.1.2
  have hvt : ∀ tg ∈ target :: es.linkTargets, ∀ c ∈ tg, validName c = true := by
    have := Tree.presentsAt_targets os (Tree.link referent target mode (.dir es)) comps n hlink
    simpa [Tree.linkTargets] using this
  have hT := walkDirent_tree os (Tree.link referent target mode (.dir es)) comps n fuel hc hn
    (by rw [Tree.wf, Tree.wf]; exact hwf) hlink (by rw [Tree.need, Tree.need]; omega)
  rw [Tree.dtype, Tree.emit, Tree.contents] at hT
  have hc2 : ∀ c ∈ comps ++ [n], validName c = true :=
    valid_append comps [n] hc (by simpa using hn)
  refine ⟨?_, ?_, ?_, ?_⟩
  · rw [walkDirents_cons, if_pos (notDot_of_valid n _ hn), hT]
  · intro e he
    obtain ⟨n2, more, _, _, _, hpath⟩ := Forest.entries_path es target hwf e he
    exact ⟨⟨n2 :: more, hpath⟩, Forest.entries_sub_listing es target hwf e he⟩
  rotate_left
  · rw [walkDirents_cons, if_pos (notDot_of_valid n _ hn)]
    simp [walkDirent, filepathJoin_absPath comps n hc hn]
  · intro x hx heq
    rcases List.mem_cons.1 hx with h | h
    · rw [h] at heq
      have h2 := absPath_injective _ _ hv hc2 heq
      exact hnocycle target (List.mem_cons_self _ _) [] (by rw [h2]; simp)
    · rcases Forest.listing_shape es target hwf x h with
        ⟨n2, more, _, hn2, hm, hpath⟩ | ⟨tg, htg, more, hm, hpath⟩
      · rw [hpath] at heq
        exact hnocycle target (List.mem_cons_self _ _) (n2 :: more)
          (absPath_injective _ _ (valid_append _ _ hv (valid_of_mem_cons n2 more hn2 hm)) hc2
            heq).symm
      · rw [hpath] at heq
        have htg2 : tg ∈ target :: es.linkTargets := List.mem_cons_of_mem _ htg
        exact hnocycle tg htg2 more
          (absPath_injective _ _ (valid_append _ _ (hvt tg htg2) hm) hc2 heq).symm

theorem fastWalk_follows_dir_link_witness :
    walkDirents (fastWalk demoOS7 3) demoOS7 (absPath ["t".toList]) [⟨"k".toList, DT_LNK⟩] =
        Walk.seq ⟨⟨absPath ["v".toList], ModeDir⟩ :: demoForest7.listing ["v".toList], .ok⟩
          (walkDirents (fastWalk demoOS7 3) demoOS7 (absPath ["t".toList]) []) ∧
      (∀ e ∈ demoForest7.entries ["v".toList],
        (∃ more, e.1 = absPath (["v".toList] ++ more)) ∧
          (emittedType e.2 = true →
            (⟨e.1, entryMode e.2⟩ : FilePathMode) ∈ demoForest7.listing ["v".toList])) ∧
      (∀ x ∈ (⟨absPath ["v".toList], ModeDir⟩ :: demoForest7.listing ["v".toList] :
          List FilePathMode),
        x.Path ≠ absPath (["t".toList] ++ ["k".toList])) ∧
      walkDirents (fastWalk demoOS7 3) demoOS7 (absPath ["t".toList]) [⟨"k".toList, 0⟩] =
        Walk.seq ⟨[⟨absPath (["t".toList] ++ ["k".toList]), 0⟩], .ok⟩
          (walkDirents (fastWalk demoOS7 3) demoOS7 (absPath ["t".toList]) []) :=
  fastWalk_follows_dir_link demoOS7 ["t".toList] "k".toList "/v".toList ["v".toList] ModeDir
    demoForest7 [] 3 (by decide) (by decide) (by decide) (by decide)
    (by
      intro tg htg more h
      have h2 : tg = ["v".toList] ∨ tg = ["w".toList] := by
        simpa [demoForest7, Forest.linkTargets, Tree.linkTargets] using htg
      rcases h2 with h2 | h2 <;> subst h2 <;> simp at h)
    (by decide)

/-- C15, counterexample: in `/q` the named pipe `f` is an entry of the walked directory, yet
the completed walk emits no entry with its path; and the file `/q/d/b`, which is reached both
through the directory `d` and through the link `l` to `d`, is emitted twice. -/
theorem fastWalk_skips_special_files :
    (⟨"f".toList, DT_FIFO⟩ : Dirent) ∈ ((demoOS2.openDir "/q".toList).getD []).flatten ∧
      (fastWalk demoOS2 4 "/q".toList none).status = .ok ∧
      "/q/f".toList ∉ (fastWalk demoOS2 4 "/q".toList none).out.map FilePathMode.Path ∧
      ["/q/d/b".toList, "/q/d/b".toList].Sublist
        ((fastWalk demoOS2 4 "/q".toList none).out.map FilePathMode.Path) := by
  refine ⟨by decide, by decide, by decide, by decide⟩

/-- C15, amended: let the operating system show a tree at the absolute path with components
`comps` (`es` are the entries of the root directory), and let no symbolic link met by the walk
have a referent that lies in the walked tree or is a directory above its root. Then `fastWalk`,
started at a root that `GetFilePathMode` resolves to that path, returns; it emits the root
itself exactly once, first; and of the entries found transitively under the root it emits
exactly once each one that `getdents` reports with unknown type or as a regular file (as a
plain path with mode 0) or as a directory (with `os.ModeDir`), and emits no entry with the path
of an entry of any other type: a named pipe, a socket, a device, or a symbolic link. -/
theorem fastWalk_emits_by_type (os : OS) (root : Str) (fpm : FilePathMode) (comps : List Str)
    (es : Forest) (fuel : Nat)
    (hc : ∀ c ∈ comps, validName c = true) (hwf : es.wf = true)
    (hroot : os.getFilePathMode root = some fpm)
    (hclean : filepathClean fpm.Path = absPath comps)
    (hpres : (Tree.dir es).presentsOpen os comps = true)
    (hout : ∀ tg ∈ es.linkTargets, ∀ a b : List Str, tg ++ a ≠ comps ++ b)
    (hfuel : es.need < fuel) :
    (fastWalk os fuel root none).status = .ok ∧
      (∃ rest, (fastWalk os fuel root none).out = fpm :: rest) ∧
      (fastWalk os fuel root none).out.filter (fun x => decide (x.Path = fpm.Path)) = [fpm] ∧
      (∀ e ∈ es.entries comps,
        (fastWalk os fuel root none).out.filter (fun x => decide (x.Path = e.1)) =
          if emittedType e.2 = true then [⟨e.1, entryMode e.2⟩] else []) := by
  obtain ⟨k, rfl⟩ : ∃ k, fuel = k + 1 := ⟨fuel - 1, by omega⟩
  have hO := walkOpen_tree os (Tree.dir es) comps k hc (by rw [Tree.wf]; exact hwf) hpres
    (by rw [Tree.need]; omega)
  have hw : fastWalk os (k + 1) root none = ⟨fpm :: es.listing comps, .ok⟩ := by
    rw [fastWalk_none, hroot]
    simp only [hclean, hO, Tree.contents]
  have hv : ∀ tg ∈ es.linkTargets, ∀ c ∈ tg, validName c = true := by
    have := Tree.presentsOpen_targets os (Tree.dir es) comps hpres
    simpa [Tree.linkTargets] using this
  have hcleanEq : ∀ cs : List Str, (∀ c ∈ cs, validName c = true) →
      absPath cs = fpm.Path → cs = comps := by
    intro cs hcs heq
    have h1 : filepathClean (absPath cs) = absPath cs := filepathClean_absPath cs hcs
    have h2 : filepathClean (absPath cs) = absPath comps := by rw [heq, hclean]
    exact absPath_injective _ _ hcs hc (h1.symm.trans h2)
  have hlist : ∀ x ∈ es.listing comps, x.Path ≠ fpm.Path := by
    intro x hx heq
    rcases Forest.listing_shape es comps hwf x hx with
      ⟨n2, more, _, hn2, hm, hpath⟩ | ⟨tg, htg, more, hm, hpath⟩
    · rw [hpath] at heq
      have hl := congrArg List.length (hcleanEq _ (valid_cons comps n2 more hc hn2 hm) heq)
      simp at hl
    · rw [hpath] at heq
      have h2 := hcleanEq _ (valid_append _ _ (hv tg htg) hm) heq
      exact hout tg htg more [] (by rw [h2]; simp)
  have hentry : ∀ e ∈ es.entries comps, fpm.Path ≠ e.1 := by
    intro e he heq
    obtain ⟨n2, more, _, hn2, hm, hpath⟩ := Forest.entries_path es comps hwf e he
    rw [hpath] at heq
    have hl := congrArg List.length (hcleanEq _ (valid_cons comps n2 more hc hn2 hm) heq.symm)
    simp at hl
  refine ⟨by rw [hw], ⟨es.listing comps, by rw [hw]⟩, ?_, ?_⟩
  · rw [hw]
    simp only
    rw [List.filter_cons_of_pos (by simp), filter_path_eq_nil _ _ hlist]
  · intro e he
    rw [hw]
    simp only
    rw [List.filter_cons_of_neg (by simpa using hentry e he)]
    exact Forest.listing_filter es comps hc hwf hv hout e he

theorem fastWalk_emits_by_type_witness :
    (fastWalk demoOS9 3 "/u".toList none).status = .ok ∧
      (∃ rest, (fastWalk demoOS9 3 "/u".toList none).out = ⟨"/u".toList, ModeDir⟩ :: rest) ∧
      (fastWalk demoOS9 3 "/u".toList none).out.filter
        (fun x => decide (x.Path = "/u".toList)) = [⟨"/u".toList, ModeDir⟩] ∧
      (∀ e ∈ demoForest9.entries ["u".toList],
        (fastWalk demoOS9 3 "/u".toList none).out.filter (fun x => decide (x.Path = e.1)) =
          if emittedType e.2 = true then [⟨e.1, entryMode e.2⟩] else []) :=
  fastWalk_emits_by_type demoOS9 "/u".toList ⟨"/u".toList, ModeDir⟩ ["u".toList] demoForest9 3
    (by decide) (by decide) (by decide) (by decide) (by decide)
    (by
      intro tg htg a b h
      have h2 : tg = ["w".toList] := by
        simpa [demoForest9, Forest.linkTargets, Tree.linkTargets] using htg
      subst h2
      simp at h)
    (by decide)

end ProjectAcl
